import Mathlib

/-!
# Closed-form 2x2 / 3x3 linear algebra kernel (`KeypointTools/eigen.h`, namespace `kp`)

A shallow embedding of the template functions of `eigen.h` and the properties
they satisfy in exact arithmetic.

* Scalars are the elements of a field `K` (a linearly ordered field where the
  code compares them).  The floating-point library functions the code calls
  (`std::sqrt`, `std::atan2`, `std::cos`, `std::sin`) and the two constants
  `NumTraits<Scalar>::epsilon ()` and `numeric_limits<Scalar>::min ()` are
  carried in a record `ScalarOps K`; the predicate `RealArith` says that the
  record holds the real functions.
* A fixed-size Eigen matrix is a Mathlib `Matrix`; the linear accessor
  `coeff (k)` depends on the storage order, which is a parameter.
* An output parameter is modelled by passing its old value in and returning
  the new one.
* The in-place compaction loop of `OURCVFHEstimator::estimate`
  (`ORFramework/ourcvfh_estimator.h`) is embedded on lists; an access outside a
  vector gives `none`.
-/

namespace kp

/-- Storage order of a dense Eigen matrix: `coeff (k)` walks the storage linearly,
column by column (Eigen's default) or row by row. -/
inductive StorageOrder where
  | colMajor
  | rowMajor
  deriving DecidableEq, Repr

section Storage

variable {K : Type}

/-- Linear access `matrix.coeff (k)` of a 2x2 matrix. -/
def coeff2 (o : StorageOrder) (m : Matrix (Fin 2) (Fin 2) K) : Fin 4 → K :=
  match o with
  | .colMajor => ![m 0 0, m 1 0, m 0 1, m 1 1]
  | .rowMajor => ![m 0 0, m 0 1, m 1 0, m 1 1]

/-- The 2x2 matrix whose storage holds the four coefficients `c`. -/
def ofCoeffs2 (o : StorageOrder) (c : Fin 4 → K) : Matrix (Fin 2) (Fin 2) K :=
  match o with
  | .colMajor => !![c 0, c 2; c 1, c 3]
  | .rowMajor => !![c 0, c 1; c 2, c 3]

/-- Linear access `matrix.coeff (k)` of a 3x3 matrix. -/
def coeff3 (o : StorageOrder) (m : Matrix (Fin 3) (Fin 3) K) : Fin 9 → K :=
  match o with
  | .colMajor => ![m 0 0, m 1 0, m 2 0, m 0 1, m 1 1, m 2 1, m 0 2, m 1 2, m 2 2]
  | .rowMajor => ![m 0 0, m 0 1, m 0 2, m 1 0, m 1 1, m 1 2, m 2 0, m 2 1, m 2 2]

/-- The 3x3 matrix whose storage holds the nine coefficients `c`. -/
def ofCoeffs3 (o : StorageOrder) (c : Fin 9 → K) : Matrix (Fin 3) (Fin 3) K :=
  match o with
  | .colMajor => !![c 0, c 3, c 6; c 1, c 4, c 7; c 2, c 5, c 8]
  | .rowMajor => !![c 0, c 1, c 2; c 3, c 4, c 5; c 6, c 7, c 8]

end Storage

section Inversion

variable {K : Type} [Field K] [DecidableEq K]

/-- `invert2x2 (matrix, inverse)`: returns the determinant and the new value of
`inverse` (overwritten only when the determinant is non-zero). -/
def invert2x2 (o : StorageOrder) (matrix inverse : Matrix (Fin 2) (Fin 2) K) :
    K × Matrix (Fin 2) (Fin 2) K :=
  let c := coeff2 o matrix
  let det := c 0 * c 3 - c 1 * c 2
  if det ≠ 0 then
    (det, (ofCoeffs2 o ![c 3, - c 1, - c 2, c 0]).map (fun x => x / det))
  else
    (det, inverse)

/-- `invert3x3SymMatrix (matrix, inverse)`: returns the determinant and the new
value of `inverse` (overwritten only when the determinant is non-zero). -/
def invert3x3SymMatrix (o : StorageOrder) (matrix inverse : Matrix (Fin 3) (Fin 3) K) :
    K × Matrix (Fin 3) (Fin 3) K :=
  let c := coeff3 o matrix
  let fd_ee := c 4 * c 8 - c 7 * c 5
  let ce_bf := c 2 * c 5 - c 1 * c 8
  let be_cd := c 1 * c 5 - c 2 * c 4
  let det := c 0 * fd_ee + c 1 * ce_bf + c 2 * be_cd
  if det ≠ 0 then
    (det, (ofCoeffs3 o ![fd_ee, ce_bf, be_cd,
                         ce_bf, c 0 * c 8 - c 2 * c 2, c 1 * c 2 - c 0 * c 5,
                         be_cd, c 1 * c 2 - c 0 * c 5, c 0 * c 4 - c 1 * c 1]).map
            (fun x => x / det))
  else
    (det, inverse)

/-- `invert3x3Matrix (matrix, inverse)`: returns the determinant and the new
value of `inverse` (overwritten only when the determinant is non-zero). -/
def invert3x3Matrix (o : StorageOrder) (matrix inverse : Matrix (Fin 3) (Fin 3) K) :
    K × Matrix (Fin 3) (Fin 3) K :=
  let c := coeff3 o matrix
  let ie_hf := c 8 * c 4 - c 7 * c 5
  let hc_ib := c 7 * c 2 - c 8 * c 1
  let fb_ec := c 5 * c 1 - c 4 * c 2
  let det := c 0 * ie_hf + c 3 * hc_ib + c 6 * fb_ec
  if det ≠ 0 then
    (det, (ofCoeffs3 o ![ie_hf, hc_ib, fb_ec,
                         c 6 * c 5 - c 8 * c 3, c 8 * c 0 - c 6 * c 2, c 3 * c 2 - c 5 * c 0,
                         c 7 * c 3 - c 6 * c 4, c 6 * c 1 - c 7 * c 0, c 4 * c 0 - c 3 * c 1]).map
            (fun x => x / det))
  else
    (det, inverse)

end Inversion

/-- The floating-point environment of the templates: the `<cmath>` functions they
call and the two `Scalar` constants they compare against. -/
structure ScalarOps (K : Type) where
  /-- `std::sqrt` -/
  sqrt : K → K
  /-- `std::atan2 (y, x)` -/
  atan2 : K → K → K
  /-- `std::cos` -/
  cos : K → K
  /-- `std::sin` -/
  sin : K → K
  /-- `Eigen::NumTraits<Scalar>::epsilon ()`, the machine epsilon -/
  epsilon : K
  /-- `std::numeric_limits<Scalar>::min ()`, the smallest positive normal value -/
  numericMin : K

/-- Exact real arithmetic: the library functions are the real square root, the
two-argument arctangent (the argument of `x + i y`, in `(-π, π]`, `0` at the
origin), cosine and sine; the two constants are positive and below one. -/
def RealArith (ops : ScalarOps ℝ) : Prop :=
  ops.sqrt = Real.sqrt ∧ (∀ y x, ops.atan2 y x = Complex.arg ⟨x, y⟩) ∧
  ops.cos = Real.cos ∧ ops.sin = Real.sin ∧
  0 < ops.epsilon ∧ ops.epsilon < 1 ∧ 0 < ops.numericMin ∧ ops.numericMin < 1

section Eigen

variable {K : Type} [LinearOrderedField K]

/-- `computeRoots2 (b, c, roots)`: the three slots written into `roots`. -/
def computeRoots2 (ops : ScalarOps K) (b c : K) : Fin 3 → K :=
  let d := b * b - 4 * c
  let d := if d < 0 then 0 else d
  let sd := ops.sqrt d
  ![0, (1 / 2) * (b - sd), (1 / 2) * (b + sd)]

/-- The coefficient `c0` of `computeRoots` (lines 100-104). -/
def charC0 (m : Matrix (Fin 3) (Fin 3) K) : K :=
  m 0 0 * m 1 1 * m 2 2 + 2 * m 0 1 * m 0 2 * m 1 2 - m 0 0 * m 1 2 * m 1 2
    - m 1 1 * m 0 2 * m 0 2 - m 2 2 * m 0 1 * m 0 1

/-- The coefficient `c1` of `computeRoots` (lines 105-110). -/
def charC1 (m : Matrix (Fin 3) (Fin 3) K) : K :=
  m 0 0 * m 1 1 - m 0 1 * m 0 1 + m 0 0 * m 2 2 - m 0 2 * m 0 2 + m 1 1 * m 2 2 - m 1 2 * m 1 2

/-- The coefficient `c2` of `computeRoots` (line 111). -/
def charC2 (m : Matrix (Fin 3) (Fin 3) K) : K :=
  m 0 0 + m 1 1 + m 2 2

/-- The three roots of the cubic branch of `computeRoots` before sorting
(lines 118-140). -/
def cubicRoots (ops : ScalarOps K) (c0 c1 c2 : K) : K × K × K :=
  let s_inv3 : K := 1 / 3
  let s_sqrt3 := ops.sqrt 3
  let c2_over_3 := c2 * s_inv3
  let a_over_3 := (c1 - c2 * c2_over_3) * s_inv3
  let a_over_3 := if a_over_3 > 0 then 0 else a_over_3
  let half_b := (1 / 2) * (c0 + c2_over_3 * (2 * c2_over_3 * c2_over_3 - c1))
  let q := half_b * half_b + a_over_3 * a_over_3 * a_over_3
  let q := if q > 0 then 0 else q
  let rho := ops.sqrt (-a_over_3)
  let theta := ops.atan2 (ops.sqrt (-q)) half_b * s_inv3
  let cos_theta := ops.cos theta
  let sin_theta := ops.sin theta
  (c2_over_3 + 2 * rho * cos_theta,
   c2_over_3 - rho * (cos_theta + s_sqrt3 * sin_theta),
   c2_over_3 - rho * (cos_theta - s_sqrt3 * sin_theta))

/-- The conditional swaps "Sort in increasing order" of `computeRoots`
(lines 143-150). -/
def sort3 (r : K × K × K) : K × K × K :=
  let (r0, r1, r2) := r
  let (r0, r1) := if r0 ≥ r1 then (r1, r0) else (r0, r1)
  if r1 ≥ r2 then
    let (r1, r2) := (r2, r1)
    if r0 ≥ r1 then (r1, r0, r2) else (r0, r1, r2)
  else (r0, r1, r2)

/-- `computeRoots (m, roots)`: the three slots written into `roots`. -/
def computeRoots (ops : ScalarOps K) (m : Matrix (Fin 3) (Fin 3) K) : Fin 3 → K :=
  let c0 := charC0 m
  let c1 := charC1 m
  let c2 := charC2 m
  if |c0| < ops.epsilon then
    computeRoots2 ops c2 c1
  else
    let (r0, r1, r2) := sort3 (cubicRoots ops c0 c1 c2)
    if r0 ≤ 0 then computeRoots2 ops c2 c1 else ![r0, r1, r2]

/-- `mat.cwiseAbs ().maxCoeff ()` of a 3x3 matrix. -/
def maxAbsCoeff (m : Matrix (Fin 3) (Fin 3) K) : K :=
  max |m 0 0| (max |m 0 1| (max |m 0 2| (max |m 1 0| (max |m 1 1| (max |m 1 2|
    (max |m 2 0| (max |m 2 1| |m 2 2|)))))))

/-- The `scale` of the `eigen33` overloads and of `computeCorrespondingEigenVector`
(lines 311-313, 349-351, 371-373). -/
def eigenScale (ops : ScalarOps K) (mat : Matrix (Fin 3) (Fin 3) K) : K :=
  let scale := maxAbsCoeff mat
  if scale ≤ ops.numericMin then 1 else scale

/-- `mat / scale`, coefficient by coefficient. -/
def divScalar (mat : Matrix (Fin 3) (Fin 3) K) (scale : K) : Matrix (Fin 3) (Fin 3) K :=
  fun i j => mat i j / scale

/-- `tmp.diagonal ().array () -= e`. -/
def subDiagonal (tmp : Matrix (Fin 3) (Fin 3) K) (e : K) : Matrix (Fin 3) (Fin 3) K :=
  fun i j => if i = j then tmp i j - e else tmp i j

/-- `a.cross (b)` of Eigen, for 3-vectors. -/
def cross (a b : Fin 3 → K) : Fin 3 → K :=
  ![a 1 * b 2 - a 2 * b 1, a 2 * b 0 - a 0 * b 2, a 0 * b 1 - a 1 * b 0]

/-- `a.dot (b)` for 3-vectors. -/
def dot (a b : Fin 3 → K) : K :=
  a 0 * b 0 + a 1 * b 1 + a 2 * b 2

/-- `v.squaredNorm ()` for 3-vectors. -/
def squaredNorm (v : Fin 3 → K) : K :=
  v 0 * v 0 + v 1 * v 1 + v 2 * v 2

/-- `v / s`, coefficient by coefficient. -/
def vdiv (v : Fin 3 → K) (s : K) : Fin 3 → K :=
  fun i => v i / s

/-- `v.normalized ()`: the vector divided by its norm.  Division by zero yields zero in a
Lean field, so the zero vector is returned unchanged (the code never normalises one under
the hypotheses used below). -/
def normalized (ops : ScalarOps K) (v : Fin 3 → K) : Fin 3 → K :=
  vdiv v (ops.sqrt (squaredNorm v))

/-- The block repeated in the `eigen33` overloads: the three cross products of the
rows of `tmp`, and the one of largest squared norm divided by its norm.  Returns the
normalised vector, its squared norm before normalising, and `len3`. -/
def selectCross (ops : ScalarOps K) (tmp : Matrix (Fin 3) (Fin 3) K) : (Fin 3 → K) × K × K :=
  let vec1 := cross (tmp 0) (tmp 1)
  let vec2 := cross (tmp 0) (tmp 2)
  let vec3 := cross (tmp 1) (tmp 2)
  let len1 := squaredNorm vec1
  let len2 := squaredNorm vec2
  let len3 := squaredNorm vec3
  if len1 ≥ len2 ∧ len1 ≥ len3 then (vdiv vec1 (ops.sqrt len1), len1, len3)
  else if len2 ≥ len1 ∧ len2 ≥ len3 then (vdiv vec2 (ops.sqrt len2), len2, len3)
  else (vdiv vec3 (ops.sqrt len3), len3, len3)

/-- `eigen33 (mat, evals)`: the eigenvalue-only overload (lines 345-356). -/
def eigen33Values (ops : ScalarOps K) (mat : Matrix (Fin 3) (Fin 3) K) : Fin 3 → K :=
  let scale := eigenScale ops mat
  let scaledMat := divScalar mat scale
  let evals := computeRoots ops scaledMat
  fun i => evals i * scale

/-- Column `k` of `evecs`, for an index computed by the code; an index outside `0..2`,
which the code never produces, reads zeros. -/
def getCol (evecs : Matrix (Fin 3) (Fin 3) K) (k : Nat) : Fin 3 → K :=
  fun i => if h : k < 3 then evecs i ⟨k, h⟩ else 0

/-- The assignment `evecs.col (k) = v`, for an index computed by the code; an index
outside `0..2`, which the code never produces, writes nothing. -/
def setCol (evecs : Matrix (Fin 3) (Fin 3) K) (k : Nat) (v : Fin 3 → K) :
    Matrix (Fin 3) (Fin 3) K :=
  fun i j => if j.val = k then v i else evecs i j

/-- The matrix with the three given columns. -/
def ofCols (c0 c1 c2 : Fin 3 → K) : Matrix (Fin 3) (Fin 3) K :=
  fun i j => ![c0 i, c1 i, c2 i] j

/-- The indices `(min_el, max_el)` at the end of the all-distinct branch of
`eigen33` (lines 453-533): `m2`, `m1` are the squared norms stored in `mmax[2]`,
`mmax[1]`; `m0` is the one stored in `mmax[0]`, and `len3` is the value the third
block compares (it reads `len3` in each of its three cases). -/
def minMaxEl (m2 m1 m0 len3 : K) : Nat × Nat :=
  let mmax : Nat → K := fun k => if k = 2 then m2 else if k = 1 then m1 else m0
  let min_el := 2
  let max_el := 2
  let min_el1 := if m1 ≤ mmax min_el then 1 else min_el
  let max_el1 := if m1 > mmax max_el then 1 else max_el
  let min_el0 := if len3 ≤ mmax min_el1 then 0 else min_el1
  let max_el0 := if len3 > mmax max_el1 then 0 else max_el1
  (min_el0, max_el0)

/-- The index `mid_el = 3 - min_el - max_el` of the all-distinct branch (line 535), in
`unsigned` arithmetic, that is modulo `2 ^ 32`. -/
def midEl (min_el max_el : Nat) : Nat :=
  (2 ^ 32 + 3 - min_el - max_el) % 2 ^ 32

/-- The end of the all-distinct branch of `eigen33` (lines 535-537): the columns
`min_el` and then `mid_el` are replaced by the normalised cross product of the other
two. -/
def reorthogonalize (ops : ScalarOps K) (evecs : Matrix (Fin 3) (Fin 3) K)
    (min_el max_el : Nat) : Matrix (Fin 3) (Fin 3) K :=
  let mid_el := midEl min_el max_el
  let evecs := setCol evecs min_el
    (normalized ops (cross (getCol evecs ((min_el + 1) % 3)) (getCol evecs ((min_el + 2) % 3))))
  let evecs := setCol evecs mid_el
    (normalized ops (cross (getCol evecs ((mid_el + 1) % 3)) (getCol evecs ((mid_el + 2) % 3))))
  evecs

/-- `eigen33 (mat, evecs, evals)`: the full decomposition (lines 364-544).  Returns
`(evecs, evals)`; every branch overwrites the three columns of `evecs`, so its old value
is not an input.  `unitOrthogonal` is Eigen's `Vector::unitOrthogonal ()`. -/
def eigen33 (ops : ScalarOps K) (unitOrthogonal : (Fin 3 → K) → (Fin 3 → K))
    (mat : Matrix (Fin 3) (Fin 3) K) : Matrix (Fin 3) (Fin 3) K × (Fin 3 → K) :=
  let scale := eigenScale ops mat
  let scaledMat := divScalar mat scale
  let evals := computeRoots ops scaledMat
  let evecs : Matrix (Fin 3) (Fin 3) K :=
    if evals 2 - evals 0 ≤ ops.epsilon then
      1
    else if evals 1 - evals 0 ≤ ops.epsilon then
      let col2 := (selectCross ops (subDiagonal scaledMat (evals 2))).1
      let col1 := unitOrthogonal col2
      let col0 := cross col1 col2
      ofCols col0 col1 col2
    else if evals 2 - evals 1 ≤ ops.epsilon then
      let col0 := (selectCross ops (subDiagonal scaledMat (evals 0))).1
      let col1 := unitOrthogonal col0
      let col2 := cross col0 col1
      ofCols col0 col1 col2
    else
      let s2 := selectCross ops (subDiagonal scaledMat (evals 2))
      let s1 := selectCross ops (subDiagonal scaledMat (evals 1))
      let s0 := selectCross ops (subDiagonal scaledMat (evals 0))
      let evecs := ofCols s0.1 s1.1 s2.1
      let el := minMaxEl s2.2.1 s1.2.1 s0.2.1 s0.2.2
      reorthogonalize ops evecs el.1 el.2
  (evecs, fun i => evals i * scale)

/-- Modelled from the spec: `Vector::unitOrthogonal ()` belongs to the Eigen library,
not to this repository, and the spec only asks for "one arbitrary unit-orthogonal
vector".  This is the choice Eigen makes for 3-vectors, with `prec` standing for
`NumTraits<Scalar>::dummy_precision ()`: unless `x` and `y` are both much smaller than
`z`, take `(-y, x, 0)` normalised, otherwise `(0, -z, y)` normalised.  It is used to
instantiate the `unitOrthogonal` parameter of `eigen33` at concrete inputs. -/
def eigenUnitOrthogonal (ops : ScalarOps K) (prec : K) (src : Fin 3 → K) : Fin 3 → K :=
  if ¬ (|src 0| ≤ |src 2| * prec) ∨ ¬ (|src 1| ≤ |src 2| * prec) then
    let invnm := 1 / ops.sqrt (src 0 * src 0 + src 1 * src 1)
    ![-(src 1) * invnm, src 0 * invnm, 0]
  else
    let invnm := 1 / ops.sqrt (src 1 * src 1 + src 2 * src 2)
    ![0, -(src 2) * invnm, src 1 * invnm]

/-- The contract of `unitOrthogonal`: on a unit vector it returns a unit vector
orthogonal to it. -/
def UnitOrthogonalSpec (unitOrthogonal : (Fin 3 → K) → (Fin 3 → K)) : Prop :=
  ∀ u : Fin 3 → K, squaredNorm u = 1 →
    squaredNorm (unitOrthogonal u) = 1 ∧ dot (unitOrthogonal u) u = 0

/-- The side condition under which `eigen33 (mat, evecs, evals)` is claimed to return a
rotation, following the branch the call takes: every cross-product candidate it selects
is non-zero (its squared norm is non-zero) and, in the all-distinct branch, the
candidates kept for the slots `max_el` and `mid_el` are not parallel. -/
def CandidatesNonDegenerate (ops : ScalarOps K) (mat : Matrix (Fin 3) (Fin 3) K) : Prop :=
  let scale := eigenScale ops mat
  let scaledMat := divScalar mat scale
  let evals := computeRoots ops scaledMat
  if evals 2 - evals 0 ≤ ops.epsilon then
    True
  else if evals 1 - evals 0 ≤ ops.epsilon then
    (selectCross ops (subDiagonal scaledMat (evals 2))).2.1 ≠ 0
  else if evals 2 - evals 1 ≤ ops.epsilon then
    (selectCross ops (subDiagonal scaledMat (evals 0))).2.1 ≠ 0
  else
    let s2 := selectCross ops (subDiagonal scaledMat (evals 2))
    let s1 := selectCross ops (subDiagonal scaledMat (evals 1))
    let s0 := selectCross ops (subDiagonal scaledMat (evals 0))
    let evecs := ofCols s0.1 s1.1 s2.1
    let el := minMaxEl s2.2.1 s1.2.1 s0.2.1 s0.2.2
    s2.2.1 ≠ 0 ∧ s1.2.1 ≠ 0 ∧ s0.2.1 ≠ 0 ∧
      cross (getCol evecs (midEl el.1 el.2)) (getCol evecs el.2) ≠ 0

/-- The vectors `a`, `b`, `c` are orthonormal eigenvectors of `A` for `r0`, `r1`, `r2`. -/
def IsEigenTriple (A : Matrix (Fin 3) (Fin 3) K) (r0 r1 r2 : K) (a b c : Fin 3 → K) : Prop :=
  (A.mulVec a = r0 • a ∧ A.mulVec b = r1 • b ∧ A.mulVec c = r2 • c) ∧
  (squaredNorm a = 1 ∧ squaredNorm b = 1 ∧ squaredNorm c = 1) ∧
  (dot a b = 0 ∧ dot a c = 0 ∧ dot b c = 0)

/-- `v.normalize ()` for 2-vectors: the vector divided by its norm. -/
def normalize2 (ops : ScalarOps K) (v : Fin 2 → K) : Fin 2 → K :=
  fun i => v i / ops.sqrt (v 0 * v 0 + v 1 * v 1)

/-- `eigen22 (mat, eigenvalue, eigenvector)`: the smallest-eigenpair overload
(lines 163-199).  Returns `(eigenvalue, eigenvector)`; both are overwritten on every
path.  The diagonal branch reads `mat.coeff (2)` (lines 170 and 178). -/
def eigen22Smallest (ops : ScalarOps K) (o : StorageOrder) (mat : Matrix (Fin 2) (Fin 2) K) :
    K × (Fin 2 → K) :=
  let c := coeff2 o mat
  if |c 1| ≤ ops.numericMin then
    if c 0 < c 2 then (c 0, ![1, 0]) else (c 2, ![0, 1])
  else
    let trace := (1 / 2) * (c 0 + c 3)
    let determinant := c 0 * c 3 - c 1 * c 1
    let temp := trace * trace - determinant
    let temp := if temp < 0 then 0 else temp
    let eigenvalue := trace - ops.sqrt temp
    (eigenvalue, normalize2 ops ![- c 1, c 0 - eigenvalue])

/-- `eigen22 (mat, eigenvectors, eigenvalues)`: the full 2x2 decomposition
(lines 207-258).  Returns `(eigenvectors, eigenvalues)`; the four coefficients of
`eigenvectors` and the two of `eigenvalues` are overwritten on every path. -/
def eigen22 (ops : ScalarOps K) (o : StorageOrder) (mat : Matrix (Fin 2) (Fin 2) K) :
    Matrix (Fin 2) (Fin 2) K × (Fin 2 → K) :=
  let c := coeff2 o mat
  if |c 1| ≤ ops.numericMin then
    if c 0 < c 3 then (ofCoeffs2 o ![1, 0, 0, 1], ![c 0, c 3])
    else (ofCoeffs2 o ![0, 1, 1, 0], ![c 3, c 0])
  else
    let trace := (1 / 2) * (c 0 + c 3)
    let determinant := c 0 * c 3 - c 1 * c 1
    let temp := trace * trace - determinant
    let temp := if temp < 0 then 0 else ops.sqrt temp
    let e0 := trace - temp
    let e1 := trace + temp
    let v0 := - c 1
    let v2 := c 0 - e0
    let norm := 1 / ops.sqrt (v0 * v0 + v2 * v2)
    let v0 := v0 * norm
    let v2 := v2 * norm
    (ofCoeffs2 o ![v0, v2, v2, - v0], ![e0, e1])

/-- `computeCorrespondingEigenVector (mat, eigenvalue, eigenvector)` (lines 266-295):
the value written into `eigenvector`. -/
def computeCorrespondingEigenVector (ops : ScalarOps K) (mat : Matrix (Fin 3) (Fin 3) K)
    (eigenvalue : K) : Fin 3 → K :=
  let scale := eigenScale ops mat
  let scaledMat := divScalar mat scale
  (selectCross ops (subDiagonal scaledMat (eigenvalue / scale))).1

/-- `eigen33 (mat, eigenvalue, eigenvector)`: the smallest-eigenpair overload
(lines 304-338).  Returns `(eigenvalue, eigenvector)`. -/
def eigen33Smallest (ops : ScalarOps K) (mat : Matrix (Fin 3) (Fin 3) K) : K × (Fin 3 → K) :=
  let scale := eigenScale ops mat
  let scaledMat := divScalar mat scale
  let eigenvalues := computeRoots ops scaledMat
  (eigenvalues 0 * scale, (selectCross ops (subDiagonal scaledMat (eigenvalues 0))).1)

/-- The array `mmax` at the end of the all-distinct branch of `eigen33 (mat, evecs, evals)`
(lines 457-529): `mmax[k]` is the squared norm of the candidate selected for the
eigenvalue slot `k`. -/
def eigen33Mmax (ops : ScalarOps K) (mat : Matrix (Fin 3) (Fin 3) K) : Fin 3 → K :=
  let scale := eigenScale ops mat
  let scaledMat := divScalar mat scale
  let evals := computeRoots ops scaledMat
  ![(selectCross ops (subDiagonal scaledMat (evals 0))).2.1,
    (selectCross ops (subDiagonal scaledMat (evals 1))).2.1,
    (selectCross ops (subDiagonal scaledMat (evals 2))).2.1]

/-- The indices `(min_el, max_el)` at the end of the all-distinct branch of
`eigen33 (mat, evecs, evals)` (lines 453-533). -/
def eigen33MinMaxEl (ops : ScalarOps K) (mat : Matrix (Fin 3) (Fin 3) K) : Nat × Nat :=
  let scale := eigenScale ops mat
  let scaledMat := divScalar mat scale
  let evals := computeRoots ops scaledMat
  let s2 := selectCross ops (subDiagonal scaledMat (evals 2))
  let s1 := selectCross ops (subDiagonal scaledMat (evals 1))
  let s0 := selectCross ops (subDiagonal scaledMat (evals 0))
  minMaxEl s2.2.1 s1.2.1 s0.2.1 s0.2.2

/-- The value of `a_over_3` in `computeRoots` before the clamp `if (a_over_3 > 0)`
(lines 124-125): `c2_over_3 = c2 * s_inv3`, `a_over_3 = (c1 - c2 * c2_over_3) * s_inv3`
with `s_inv3 = 1 / 3`. -/
def aOver3 (c1 c2 : K) : K :=
  let s_inv3 : K := 1 / 3
  let c2_over_3 := c2 * s_inv3
  (c1 - c2 * c2_over_3) * s_inv3

end Eigen

section Transform

variable {K : Type} [LinearOrderedField K]

/-- Modelled from the spec: `getTransformation (x, y, z, roll, pitch, yaw, t)` is only
declared in `eigen.h`; its body is in `eigen.hpp`, which is not among the sources.  The
spec describes it as `fromTranslationEuler`, "standard extrinsic XYZ Euler convention":
the rotation about the fixed x axis by `roll`, then about the fixed y axis by `pitch`,
then about the fixed z axis by `yaw`, that is `Rz (yaw) * Ry (pitch) * Rx (roll)`,
together with the translation `(x, y, z)`, as a 4x4 homogeneous matrix. -/
def getTransformation (ops : ScalarOps K) (x y z roll pitch yaw : K) :
    Matrix (Fin 4) (Fin 4) K :=
  let rx : Matrix (Fin 3) (Fin 3) K :=
    !![1, 0, 0; 0, ops.cos roll, - ops.sin roll; 0, ops.sin roll, ops.cos roll]
  let ry : Matrix (Fin 3) (Fin 3) K :=
    !![ops.cos pitch, 0, ops.sin pitch; 0, 1, 0; - ops.sin pitch, 0, ops.cos pitch]
  let rz : Matrix (Fin 3) (Fin 3) K :=
    !![ops.cos yaw, - ops.sin yaw, 0; ops.sin yaw, ops.cos yaw, 0; 0, 0, 1]
  let r := rz * ry * rx
  !![r 0 0, r 0 1, r 0 2, x;
     r 1 0, r 1 1, r 1 2, y;
     r 2 0, r 2 1, r 2 2, z;
     0, 0, 0, 1]

/-- Modelled from the spec: `getEulerAngles (t, roll, pitch, yaw)` is only declared in
`eigen.h` (body in `eigen.hpp`, not among the sources).  The spec describes it as
`toEulerXYZ`, the inverse of `fromTranslationEuler` for the "standard extrinsic XYZ Euler
convention", with angles in the "range as produced by `atan2`/`asin`": the pitch is the
arcsine of `-t (2, 0)`, the roll is `atan2 (t (2, 1), t (2, 2))` and the yaw is
`atan2 (t (1, 0), t (0, 0))`.  Returns `(roll, pitch, yaw)`; `asin` is `std::asin`. -/
def getEulerAngles (ops : ScalarOps K) (asin : K → K) (t : Matrix (Fin 4) (Fin 4) K) :
    K × K × K :=
  (ops.atan2 (t 2 1) (t 2 2), asin (- t 2 0), ops.atan2 (t 1 0) (t 0 0))

/-- Modelled from the spec: `getTranslationAndEulerAngles (t, x, y, z, roll, pitch, yaw)`
is only declared in `eigen.h` (body in `eigen.hpp`, not among the sources): the
translation column of `t` followed by the Euler angles of `t`.  Returns
`(x, y, z, roll, pitch, yaw)`. -/
def getTranslationAndEulerAngles (ops : ScalarOps K) (asin : K → K)
    (t : Matrix (Fin 4) (Fin 4) K) : K × K × K × K × K × K :=
  (t 0 3, t 1 3, t 2 3, getEulerAngles ops asin t)

end Transform

section Umeyama

variable {K : Type} [LinearOrderedField K]

/-- Modelled from the spec: the centroid of a point set, "compute centroids" in the
description of `umeyama`, whose body is in `eigen.hpp`, not among the sources.  The
points are the `n` columns of a `d x n` matrix. -/
def centroid {d n : Nat} (pts : Matrix (Fin d) (Fin n) K) : Fin d → K :=
  fun i => (∑ j, pts i j) * (1 / (n : K))

end Umeyama

section Compaction

/-- `v.resize (n)` of `std::vector`: the first `n` elements, followed by
value-initialised elements when `n` exceeds the size. -/
def resize {α : Type} [Inhabited α] (v : List α) (n : Nat) : List α :=
  v.take n ++ List.replicate (n - v.length) default

/-- The assignment `v[dst] = v[src]` on a `std::vector`; an index outside the vector has
no defined behaviour and gives `none`. -/
def assignAt {α : Type} (v : List α) (dst src : Nat) : Option (List α) :=
  if dst < v.length then (v[src]?).map (fun x => v.set dst x) else none

/-- The variables of the compaction loop of `OURCVFHEstimator::estimate`
(`ourcvfh_estimator.h`, lines 250-265). -/
structure CompactState (T C S : Type) where
  /-- `transforms_in` -/
  transforms_in : List T
  /-- `centroids_in` -/
  centroids_in : List C
  /-- `valid_roll_transforms_in` -/
  valid_roll_transforms_in : List Bool
  /-- `cvfh_signatures.points` -/
  points : List S
  /-- `valid` -/
  valid : Nat

variable {T C S : Type}

/-- The body of the compaction loop for the index `i` (lines 257-264). -/
def compactStep (s : CompactState T C S) (i : Nat) : Option (CompactState T C S) :=
  match s.valid_roll_transforms_in[i]? with
  | none => none
  | some false => some s
  | some true =>
    (assignAt s.transforms_in s.valid i).bind fun transforms_in =>
    (assignAt s.centroids_in s.valid i).bind fun centroids_in =>
    (assignAt s.valid_roll_transforms_in s.valid i).bind fun valid_roll_transforms_in =>
    (assignAt s.points s.valid i).bind fun points =>
    some ⟨transforms_in, centroids_in, valid_roll_transforms_in, points, s.valid + 1⟩

/-- The compaction loop `for (size_t i = 0; i < valid_roll_transforms_in.size (); i++)`
(lines 255-265), started with `valid = 0`.  The body assigns to elements only, so the
bound `valid_roll_transforms_in.size ()` is the size on entry. -/
def compactLoop (transforms_in : List T) (centroids_in : List C)
    (valid_roll_transforms_in : List Bool) (points : List S) : Option (CompactState T C S) :=
  (List.range valid_roll_transforms_in.length).foldlM compactStep
    ⟨transforms_in, centroids_in, valid_roll_transforms_in, points, 0⟩

/-- The compaction of `OURCVFHEstimator::estimate` (lines 254-270): the loop followed by
the four `resize (valid)` calls.  Returns the new values of `transforms_in`,
`centroids_in`, `valid_roll_transforms_in` and `cvfh_signatures.points`. -/
def compactValid [Inhabited T] [Inhabited C] [Inhabited S] (transforms_in : List T)
    (centroids_in : List C) (valid_roll_transforms_in : List Bool) (points : List S) :
    Option (List T × List C × List Bool × List S) :=
  (compactLoop transforms_in centroids_in valid_roll_transforms_in points).map fun s =>
    (resize s.transforms_in s.valid, resize s.centroids_in s.valid,
     resize s.valid_roll_transforms_in s.valid, resize s.points s.valid)

end Compaction

section CompactionInvariant

/-- Loop invariant of the compaction loop for one of its vectors, before the iteration
`i` with `valid` entries kept so far: the vector `v` has the size of its initial value
`v0`, its first `valid` entries are the entries of `v0` at the indices below `i` whose
flag is set, in their order, and its entries from index `i` on are those of `v0`. -/
def CompactedUpTo {α : Type} (flags : List Bool) (v0 v : List α) (i valid : Nat) : Prop :=
  v.length = v0.length ∧
  v.take valid = (((v0.zip flags).take i).filter (fun p => p.2)).map (fun p => p.1) ∧
  v.drop i = v0.drop i

end CompactionInvariant

/-! ## Inversion and determinant -/

section InversionProofs

variable {K : Type}

theorem vec9_five (a b c d e f g h i : K) : ![a, b, c, d, e, f, g, h, i] 5 = f := rfl

theorem vec9_six (a b c d e f g h i : K) : ![a, b, c, d, e, f, g, h, i] 6 = g := rfl

theorem vec9_seven (a b c d e f g h i : K) : ![a, b, c, d, e, f, g, h, i] 7 = h := rfl

theorem vec9_eight (a b c d e f g h i : K) : ![a, b, c, d, e, f, g, h, i] 8 = i := rfl

theorem inv_general_mul [Field K] (a b c d e f g h i D : K)
    (hD : D = a * (i * e - h * f) + d * (h * c - i * b) + g * (f * b - e * c)) (h0 : D ≠ 0) :
    !![(i * e - h * f) / D, (h * c - i * b) / D, (f * b - e * c) / D;
       (g * f - i * d) / D, (i * a - g * c) / D, (d * c - f * a) / D;
       (h * d - g * e) / D, (g * b - h * a) / D, (e * a - d * b) / D] *
      !![a, b, c; d, e, f; g, h, i] = 1 := by
  ext x y
  fin_cases x <;> fin_cases y <;>
    simp [Matrix.mul_apply, Fin.sum_univ_three] <;> field_simp <;> (try rw [hD]) <;> ring

theorem inv_general_mul_col [Field K] (a b c d e f g h i D : K)
    (hD : D = a * (i * e - h * f) + d * (h * c - i * b) + g * (f * b - e * c)) (h0 : D ≠ 0) :
    !![(i * e - h * f) / D, (g * f - i * d) / D, (h * d - g * e) / D;
       (h * c - i * b) / D, (i * a - g * c) / D, (g * b - h * a) / D;
       (f * b - e * c) / D, (d * c - f * a) / D, (e * a - d * b) / D] *
      !![a, d, g; b, e, h; c, f, i] = 1 := by
  ext x y
  fin_cases x <;> fin_cases y <;>
    simp [Matrix.mul_apply, Fin.sum_univ_three] <;> field_simp <;> (try rw [hD]) <;> ring

theorem isSymm_eq_of (M : Matrix (Fin 3) (Fin 3) K) (hM : M.IsSymm) :
    M = !![M 0 0, M 0 1, M 0 2; M 0 1, M 1 1, M 1 2; M 0 2, M 1 2, M 2 2] := by
  have h10 : M 1 0 = M 0 1 := hM.apply 0 1
  have h20 : M 2 0 = M 0 2 := hM.apply 0 2
  have h21 : M 2 1 = M 1 2 := hM.apply 1 2
  conv_lhs => rw [Matrix.eta_fin_three M, h10, h20, h21]

theorem sym_inv_mul [Field K] (a b c d e f D : K)
    (hD : D = a * (d * f - e * e) + b * (c * e - b * f) + c * (b * e - c * d)) (h0 : D ≠ 0) :
    !![(d * f - e * e) / D, (c * e - b * f) / D, (b * e - c * d) / D;
       (c * e - b * f) / D, (a * f - c * c) / D, (b * c - a * e) / D;
       (b * e - c * d) / D, (b * c - a * e) / D, (a * d - b * b) / D] *
      !![a, b, c; b, d, e; c, e, f] = 1 := by
  ext x y
  fin_cases x <;> fin_cases y <;>
    simp [Matrix.mul_apply, Fin.sum_univ_three] <;> field_simp <;> (try rw [hD]) <;> ring

theorem inv2_mul [Field K] (a b c d D : K) (hD : D = a * d - b * c) (h0 : D ≠ 0) :
    !![d / D, -b / D; -c / D, a / D] * !![a, b; c, d] = 1 := by
  ext x y
  fin_cases x <;> fin_cases y <;>
    simp [Matrix.mul_apply, Fin.sum_univ_two] <;> field_simp <;> (try rw [hD]) <;> ring

variable [Field K] [DecidableEq K]

/-- The pair `invert3x3Matrix` returns, with the division pushed into the nine
coefficients. -/
theorem invert3x3Matrix_eq (o : StorageOrder) (M inv0 : Matrix (Fin 3) (Fin 3) K) :
    invert3x3Matrix o M inv0 =
      (let c := coeff3 o M
       let D := c 0 * (c 8 * c 4 - c 7 * c 5) + c 3 * (c 7 * c 2 - c 8 * c 1)
                  + c 6 * (c 5 * c 1 - c 4 * c 2)
       (D, if D ≠ 0 then
          ofCoeffs3 o ![(c 8 * c 4 - c 7 * c 5) / D, (c 7 * c 2 - c 8 * c 1) / D,
            (c 5 * c 1 - c 4 * c 2) / D,
            (c 6 * c 5 - c 8 * c 3) / D, (c 8 * c 0 - c 6 * c 2) / D, (c 3 * c 2 - c 5 * c 0) / D,
            (c 7 * c 3 - c 6 * c 4) / D, (c 6 * c 1 - c 7 * c 0) / D, (c 4 * c 0 - c 3 * c 1) / D]
        else inv0)) := by
  unfold invert3x3Matrix
  dsimp only
  split_ifs with h
  · congr 1
    cases o <;>
    · ext x y
      fin_cases x <;> fin_cases y <;> rfl
  · rfl

theorem invert3x3Matrix_fst (o : StorageOrder) (M inv0 : Matrix (Fin 3) (Fin 3) K) :
    (invert3x3Matrix o M inv0).1 = M.det := by
  rw [invert3x3Matrix_eq, Matrix.det_fin_three]
  cases o <;>
  · simp only [coeff3, Matrix.cons_val_zero, Matrix.cons_val_one, Matrix.cons_val_two,
        Matrix.cons_val_three, Matrix.cons_val_four, Matrix.head_cons, Matrix.tail_cons,
        vec9_five, vec9_six, vec9_seven, vec9_eight]
    ring

theorem invert3x3Matrix_snd_mul (o : StorageOrder) (M inv0 : Matrix (Fin 3) (Fin 3) K)
    (hdet : M.det ≠ 0) :
    (invert3x3Matrix o M inv0).2 * M = 1 := by
  have h1 := invert3x3Matrix_fst o M inv0
  rw [invert3x3Matrix_eq] at h1 ⊢
  dsimp only at h1 ⊢
  rw [h1, if_pos hdet]
  have hM : M = !![M 0 0, M 0 1, M 0 2; M 1 0, M 1 1, M 1 2; M 2 0, M 2 1, M 2 2] :=
    Matrix.eta_fin_three M
  cases o
  · simp only [coeff3, ofCoeffs3, Matrix.cons_val_zero, Matrix.cons_val_one, Matrix.cons_val_two,
        Matrix.cons_val_three, Matrix.cons_val_four, Matrix.head_cons, Matrix.tail_cons,
        vec9_five, vec9_six, vec9_seven, vec9_eight] at h1 ⊢
    conv_lhs => rw [hM]
    exact inv_general_mul_col _ _ _ _ _ _ _ _ _ _ h1.symm hdet
  · simp only [coeff3, ofCoeffs3, Matrix.cons_val_zero, Matrix.cons_val_one, Matrix.cons_val_two,
        Matrix.cons_val_three, Matrix.cons_val_four, Matrix.head_cons, Matrix.tail_cons,
        vec9_five, vec9_six, vec9_seven, vec9_eight] at h1 ⊢
    conv_lhs => rw [hM]
    exact inv_general_mul _ _ _ _ _ _ _ _ _ _ h1.symm hdet

/-- C1: for every 3x3 matrix `M` with non-zero determinant, in either storage order,
`invert3x3Matrix` returns `det M` and writes an `inverse` with
`inverse * M = M * inverse = 1`. -/
theorem invert3x3Matrix_correct (o : StorageOrder) (M inverse : Matrix (Fin 3) (Fin 3) K)
    (hdet : M.det ≠ 0) :
    (invert3x3Matrix o M inverse).1 = M.det ∧
    (invert3x3Matrix o M inverse).2 * M = 1 ∧
    M * (invert3x3Matrix o M inverse).2 = 1 :=
  ⟨invert3x3Matrix_fst o M inverse, invert3x3Matrix_snd_mul o M inverse hdet,
    Matrix.mul_eq_one_comm.mp (invert3x3Matrix_snd_mul o M inverse hdet)⟩

/-- Witness for C1: a non-symmetric rational matrix of determinant 1. -/
theorem invert3x3Matrix_correct_witness :
    (!![1, 2, 3; 0, 1, 4; 5, 6, 0] : Matrix (Fin 3) (Fin 3) ℚ).det ≠ 0 ∧
    ((invert3x3Matrix .rowMajor (!![1, 2, 3; 0, 1, 4; 5, 6, 0] : Matrix (Fin 3) (Fin 3) ℚ) 0).1
        = (!![1, 2, 3; 0, 1, 4; 5, 6, 0] : Matrix (Fin 3) (Fin 3) ℚ).det ∧
      (invert3x3Matrix .rowMajor (!![1, 2, 3; 0, 1, 4; 5, 6, 0] : Matrix (Fin 3) (Fin 3) ℚ) 0).2
        * !![1, 2, 3; 0, 1, 4; 5, 6, 0] = 1 ∧
      !![1, 2, 3; 0, 1, 4; 5, 6, 0] *
        (invert3x3Matrix .rowMajor (!![1, 2, 3; 0, 1, 4; 5, 6, 0] : Matrix (Fin 3) (Fin 3) ℚ) 0).2
        = 1) :=
  ⟨by norm_num [Matrix.det_fin_three],
   invert3x3Matrix_correct .rowMajor _ 0 (by norm_num [Matrix.det_fin_three])⟩

/-- What `invert3x3SymMatrix` returns on a symmetric matrix, in either storage order. -/
theorem invert3x3SymMatrix_symm_eq (o : StorageOrder) (a b c d e f : K)
    (inv0 : Matrix (Fin 3) (Fin 3) K) :
    invert3x3SymMatrix o !![a, b, c; b, d, e; c, e, f] inv0 =
      (let D := a * (d * f - e * e) + b * (c * e - b * f) + c * (b * e - c * d)
       (D, if D ≠ 0 then
          !![(d * f - e * e) / D, (c * e - b * f) / D, (b * e - c * d) / D;
             (c * e - b * f) / D, (a * f - c * c) / D, (b * c - a * e) / D;
             (b * e - c * d) / D, (b * c - a * e) / D, (a * d - b * b) / D]
        else inv0)) := by
  have hc : coeff3 o !![a, b, c; b, d, e; c, e, f] = ![a, b, c, b, d, e, c, e, f] := by
    cases o <;> rfl
  unfold invert3x3SymMatrix
  rw [hc]
  show (if a * (d * f - e * e) + b * (c * e - b * f) + c * (b * e - c * d) ≠ 0 then _ else _) = _
  dsimp only
  split_ifs with h
  · congr 1
    cases o <;>
    · ext x y
      fin_cases x <;> fin_cases y <;> rfl
  · rfl

/-- C3: for every symmetric 3x3 matrix `M` with non-zero determinant, in either
storage order, `invert3x3SymMatrix` returns `det M` and writes a symmetric `inverse`
with `inverse * M = 1` (and `M * inverse = 1`). -/
theorem invert3x3SymMatrix_correct (o : StorageOrder) (M inverse : Matrix (Fin 3) (Fin 3) K)
    (hsymm : M.IsSymm) (hdet : M.det ≠ 0) :
    (invert3x3SymMatrix o M inverse).1 = M.det ∧
    (invert3x3SymMatrix o M inverse).2.IsSymm ∧
    (invert3x3SymMatrix o M inverse).2 * M = 1 ∧
    M * (invert3x3SymMatrix o M inverse).2 = 1 := by
  obtain ⟨a, b, c, d, e, f, rfl⟩ :
      ∃ a b c d e f, M = !![a, b, c; b, d, e; c, e, f] :=
    ⟨_, _, _, _, _, _, isSymm_eq_of M hsymm⟩
  have hD : (!![a, b, c; b, d, e; c, e, f] : Matrix (Fin 3) (Fin 3) K).det
      = a * (d * f - e * e) + b * (c * e - b * f) + c * (b * e - c * d) := by
    rw [Matrix.det_fin_three]
    show a * d * f - a * e * e - b * b * f + b * e * c + c * b * e - c * d * c = _
    ring
  rw [invert3x3SymMatrix_symm_eq]
  dsimp only
  rw [← hD, if_pos hdet]
  have hmul := sym_inv_mul a b c d e f _ hD hdet
  refine ⟨rfl, ?_, hmul, Matrix.mul_eq_one_comm.mp hmul⟩
  apply Matrix.IsSymm.ext
  intro x y
  fin_cases x <;> fin_cases y <;> rfl

/-- Witness for C3: a symmetric rational matrix of determinant 8. -/
theorem invert3x3SymMatrix_correct_witness :
    (!![2, 1, 0; 1, 3, 1; 0, 1, 2] : Matrix (Fin 3) (Fin 3) ℚ).IsSymm ∧
    (!![2, 1, 0; 1, 3, 1; 0, 1, 2] : Matrix (Fin 3) (Fin 3) ℚ).det ≠ 0 ∧
    ((invert3x3SymMatrix .colMajor (!![2, 1, 0; 1, 3, 1; 0, 1, 2] : Matrix (Fin 3) (Fin 3) ℚ) 0).1
        = (!![2, 1, 0; 1, 3, 1; 0, 1, 2] : Matrix (Fin 3) (Fin 3) ℚ).det ∧
      (invert3x3SymMatrix .colMajor (!![2, 1, 0; 1, 3, 1; 0, 1, 2] : Matrix (Fin 3) (Fin 3) ℚ)
        0).2.IsSymm ∧
      (invert3x3SymMatrix .colMajor (!![2, 1, 0; 1, 3, 1; 0, 1, 2] : Matrix (Fin 3) (Fin 3) ℚ) 0).2
        * !![2, 1, 0; 1, 3, 1; 0, 1, 2] = 1 ∧
      !![2, 1, 0; 1, 3, 1; 0, 1, 2] *
        (invert3x3SymMatrix .colMajor (!![2, 1, 0; 1, 3, 1; 0, 1, 2] : Matrix (Fin 3) (Fin 3) ℚ)
          0).2 = 1) :=
  have hs : (!![2, 1, 0; 1, 3, 1; 0, 1, 2] : Matrix (Fin 3) (Fin 3) ℚ).IsSymm := by
    apply Matrix.IsSymm.ext
    intro x y
    fin_cases x <;> fin_cases y <;> rfl
  have hd : (!![2, 1, 0; 1, 3, 1; 0, 1, 2] : Matrix (Fin 3) (Fin 3) ℚ).det ≠ 0 := by
    norm_num [Matrix.det_fin_three]
  ⟨hs, hd, invert3x3SymMatrix_correct .colMajor _ 0 hs hd⟩

/-- What `invert2x2` returns, in either storage order. -/
theorem invert2x2_eq (o : StorageOrder) (a b c d : K) (inv0 : Matrix (Fin 2) (Fin 2) K) :
    invert2x2 o !![a, b; c, d] inv0 =
      (a * d - b * c,
        if a * d - b * c ≠ 0 then
          !![d / (a * d - b * c), -b / (a * d - b * c);
             -c / (a * d - b * c), a / (a * d - b * c)]
        else inv0) := by
  unfold invert2x2
  cases o
  · have hc : coeff2 .colMajor !![a, b; c, d] = ![a, c, b, d] := rfl
    rw [hc]
    have hcomm : a * d - c * b = a * d - b * c := by ring
    show (if a * d - c * b ≠ 0 then
        (a * d - c * b, (ofCoeffs2 .colMajor ![d, -c, -b, a]).map (fun x => x / (a * d - c * b)))
      else (a * d - c * b, inv0)) = _
    rw [hcomm]
    split_ifs with h
    · congr 1
      ext x y
      fin_cases x <;> fin_cases y <;> rfl
    · rfl
  · have hc : coeff2 .rowMajor !![a, b; c, d] = ![a, b, c, d] := rfl
    rw [hc]
    show (if a * d - b * c ≠ 0 then _ else _) = _
    split_ifs with h
    · congr 1
      ext x y
      fin_cases x <;> fin_cases y <;> rfl
    · rfl

/-- C4: for every 2x2 matrix `M`, symmetric or not, whose determinant
`coeff (0) * coeff (3) - coeff (1) * coeff (2)` is non-zero, in either storage order,
`invert2x2` returns that determinant (which is `det M`) and writes an `inverse` with
`inverse * M = M * inverse = 1`. -/
theorem invert2x2_correct (o : StorageOrder) (M inverse : Matrix (Fin 2) (Fin 2) K)
    (hdet : coeff2 o M 0 * coeff2 o M 3 - coeff2 o M 1 * coeff2 o M 2 ≠ 0) :
    (invert2x2 o M inverse).1 = coeff2 o M 0 * coeff2 o M 3 - coeff2 o M 1 * coeff2 o M 2 ∧
    (invert2x2 o M inverse).1 = M.det ∧
    (invert2x2 o M inverse).2 * M = 1 ∧
    M * (invert2x2 o M inverse).2 = 1 := by
  obtain ⟨a, b, c, d, rfl⟩ : ∃ a b c d, M = !![a, b; c, d] :=
    ⟨_, _, _, _, Matrix.eta_fin_two M⟩
  have hdet2 : a * d - b * c ≠ 0 := by
    cases o
    · have hc : coeff2 .colMajor !![a, b; c, d] = ![a, c, b, d] := rfl
      rw [hc] at hdet
      intro h0
      apply hdet
      show a * d - c * b = 0
      linear_combination h0
    · exact hdet
  have hfst : (invert2x2 o !![a, b; c, d] inverse).1
      = coeff2 o !![a, b; c, d] 0 * coeff2 o !![a, b; c, d] 3
        - coeff2 o !![a, b; c, d] 1 * coeff2 o !![a, b; c, d] 2 := by
    unfold invert2x2
    dsimp only
    split_ifs <;> rfl
  refine ⟨hfst, ?_, ?_, ?_⟩
  · rw [invert2x2_eq, Matrix.det_fin_two]
    rfl
  · rw [invert2x2_eq]
    dsimp only
    rw [if_pos hdet2]
    exact inv2_mul a b c d _ rfl hdet2
  · rw [invert2x2_eq]
    dsimp only
    rw [if_pos hdet2]
    exact Matrix.mul_eq_one_comm.mp (inv2_mul a b c d _ rfl hdet2)

/-- Witness for C4: a non-symmetric rational matrix of determinant -2. -/
theorem invert2x2_correct_witness :
    coeff2 .colMajor (!![1, 2; 3, 4] : Matrix (Fin 2) (Fin 2) ℚ) 0
        * coeff2 .colMajor (!![1, 2; 3, 4] : Matrix (Fin 2) (Fin 2) ℚ) 3
      - coeff2 .colMajor (!![1, 2; 3, 4] : Matrix (Fin 2) (Fin 2) ℚ) 1
        * coeff2 .colMajor (!![1, 2; 3, 4] : Matrix (Fin 2) (Fin 2) ℚ) 2 ≠ 0 ∧
    ((invert2x2 .colMajor (!![1, 2; 3, 4] : Matrix (Fin 2) (Fin 2) ℚ) 0).1
        = coeff2 .colMajor (!![1, 2; 3, 4] : Matrix (Fin 2) (Fin 2) ℚ) 0
            * coeff2 .colMajor (!![1, 2; 3, 4] : Matrix (Fin 2) (Fin 2) ℚ) 3
          - coeff2 .colMajor (!![1, 2; 3, 4] : Matrix (Fin 2) (Fin 2) ℚ) 1
            * coeff2 .colMajor (!![1, 2; 3, 4] : Matrix (Fin 2) (Fin 2) ℚ) 2 ∧
      (invert2x2 .colMajor (!![1, 2; 3, 4] : Matrix (Fin 2) (Fin 2) ℚ) 0).1
        = (!![1, 2; 3, 4] : Matrix (Fin 2) (Fin 2) ℚ).det ∧
      (invert2x2 .colMajor (!![1, 2; 3, 4] : Matrix (Fin 2) (Fin 2) ℚ) 0).2 * !![1, 2; 3, 4] = 1 ∧
      !![1, 2; 3, 4] * (invert2x2 .colMajor (!![1, 2; 3, 4] : Matrix (Fin 2) (Fin 2) ℚ) 0).2 = 1) :=
  have hd : coeff2 .colMajor (!![1, 2; 3, 4] : Matrix (Fin 2) (Fin 2) ℚ) 0
        * coeff2 .colMajor (!![1, 2; 3, 4] : Matrix (Fin 2) (Fin 2) ℚ) 3
      - coeff2 .colMajor (!![1, 2; 3, 4] : Matrix (Fin 2) (Fin 2) ℚ) 1
        * coeff2 .colMajor (!![1, 2; 3, 4] : Matrix (Fin 2) (Fin 2) ℚ) 2 ≠ 0 := by
    norm_num [coeff2]
  ⟨hd, invert2x2_correct .colMajor _ 0 hd⟩

/-- C5: each of `invert2x2`, `invert3x3SymMatrix` and `invert3x3Matrix`, when the
determinant it computes is exactly 0, returns 0 and leaves `inverse` as it was before
the call. -/
theorem invert_singular_unchanged (o : StorageOrder)
    (M2 inverse2 : Matrix (Fin 2) (Fin 2) K) (M3 inverse3 : Matrix (Fin 3) (Fin 3) K) :
    ((invert2x2 o M2 inverse2).1 = 0 → invert2x2 o M2 inverse2 = (0, inverse2)) ∧
    ((invert3x3SymMatrix o M3 inverse3).1 = 0 →
      invert3x3SymMatrix o M3 inverse3 = (0, inverse3)) ∧
    ((invert3x3Matrix o M3 inverse3).1 = 0 → invert3x3Matrix o M3 inverse3 = (0, inverse3)) := by
  refine ⟨?_, ?_, ?_⟩
  · unfold invert2x2
    dsimp only
    split_ifs with h
    · intro h0; exact absurd h0 h
    · intro h0; rw [← h0]
  · unfold invert3x3SymMatrix
    dsimp only
    split_ifs with h
    · intro h0; exact absurd h0 h
    · intro h0; rw [← h0]
  · unfold invert3x3Matrix
    dsimp only
    split_ifs with h
    · intro h0; exact absurd h0 h
    · intro h0; rw [← h0]

/-- Witness for C5: three singular rational matrices and non-trivial old contents of
`inverse`. -/
theorem invert_singular_unchanged_witness :
    invert2x2 .colMajor (!![1, 2; 2, 4] : Matrix (Fin 2) (Fin 2) ℚ) !![7, 8; 9, 10]
      = (0, !![7, 8; 9, 10]) ∧
    invert3x3SymMatrix .colMajor (!![1, 2, 3; 2, 4, 6; 3, 6, 9] : Matrix (Fin 3) (Fin 3) ℚ)
        !![1, 2, 3; 4, 5, 6; 7, 8, 9]
      = (0, !![1, 2, 3; 4, 5, 6; 7, 8, 9]) ∧
    invert3x3Matrix .colMajor (!![1, 2, 3; 4, 5, 6; 7, 8, 9] : Matrix (Fin 3) (Fin 3) ℚ)
        !![1, 2, 3; 4, 5, 6; 7, 8, 9]
      = (0, !![1, 2, 3; 4, 5, 6; 7, 8, 9]) :=
  ⟨(invert_singular_unchanged .colMajor (!![1, 2; 2, 4] : Matrix (Fin 2) (Fin 2) ℚ)
      !![7, 8; 9, 10] 0 0).1 (by norm_num [invert2x2, coeff2]),
   (invert_singular_unchanged .colMajor (0 : Matrix (Fin 2) (Fin 2) ℚ) 0
      (!![1, 2, 3; 2, 4, 6; 3, 6, 9] : Matrix (Fin 3) (Fin 3) ℚ)
      !![1, 2, 3; 4, 5, 6; 7, 8, 9]).2.1
      (by norm_num [invert3x3SymMatrix, coeff3, vec9_five, vec9_six, vec9_seven, vec9_eight]),
   (invert_singular_unchanged .colMajor (0 : Matrix (Fin 2) (Fin 2) ℚ) 0
      (!![1, 2, 3; 4, 5, 6; 7, 8, 9] : Matrix (Fin 3) (Fin 3) ℚ)
      !![1, 2, 3; 4, 5, 6; 7, 8, 9]).2.2
      (by norm_num [invert3x3Matrix, coeff3, vec9_five, vec9_six, vec9_seven, vec9_eight])⟩

end InversionProofs

/-! ## Root solver -/

section RootsProofs

theorem sort3_spec {K : Type} [LinearOrderedField K] (r : K × K × K) :
    (sort3 r).1 ≤ (sort3 r).2.1 ∧ (sort3 r).2.1 ≤ (sort3 r).2.2 ∧
    ∀ x : K, (x - (sort3 r).1) * (x - (sort3 r).2.1) * (x - (sort3 r).2.2)
      = (x - r.1) * (x - r.2.1) * (x - r.2.2) := by
  obtain ⟨a, b, c⟩ := r
  unfold sort3
  dsimp only
  by_cases h1 : a ≥ b
  · rw [if_pos h1]
    dsimp only
    by_cases h2 : a ≥ c
    · rw [if_pos h2]
      by_cases h3 : b ≥ c
      · rw [if_pos h3]
        exact ⟨h3, h1, fun x => by ring⟩
      · rw [if_neg h3]
        exact ⟨le_of_lt (not_le.mp h3), h2, fun x => by ring⟩
    · rw [if_neg h2]
      exact ⟨h1, le_of_lt (not_le.mp h2), fun x => by ring⟩
  · rw [if_neg h1]
    dsimp only
    by_cases h2 : b ≥ c
    · rw [if_pos h2]
      by_cases h3 : a ≥ c
      · rw [if_pos h3]
        exact ⟨h3, le_of_lt (not_le.mp h1), fun x => by ring⟩
      · rw [if_neg h3]
        exact ⟨le_of_lt (not_le.mp h3), h2, fun x => by ring⟩
    · rw [if_neg h2]
      exact ⟨le_of_lt (not_le.mp h1), le_of_lt (not_le.mp h2), fun x => by ring⟩

/-- The trigonometric solution: with real square root, arctangent, cosine and sine,
when the cubic `x^3 - c2 x^2 + c1 x - c0` has three real roots `l0 l1 l2`, the three
values of `cubicRoots` are its roots with multiplicity. -/
theorem cubicRoots_poly (ops : ScalarOps ℝ) (hops : RealArith ops) (l0 l1 l2 : ℝ) (x : ℝ) :
    (x - (cubicRoots ops (l0 * l1 * l2) (l0 * l1 + l0 * l2 + l1 * l2) (l0 + l1 + l2)).1)
      * (x - (cubicRoots ops (l0 * l1 * l2) (l0 * l1 + l0 * l2 + l1 * l2) (l0 + l1 + l2)).2.1)
      * (x - (cubicRoots ops (l0 * l1 * l2) (l0 * l1 + l0 * l2 + l1 * l2) (l0 + l1 + l2)).2.2)
    = (x - l0) * (x - l1) * (x - l2) := by
  obtain ⟨hsqrt, hatan, hcos, hsin, -, -, -, -⟩ := hops
  unfold cubicRoots
  simp only [hsqrt, hatan, hcos, hsin]
  set c0 := l0 * l1 * l2 with hc0
  set c1 := l0 * l1 + l0 * l2 + l1 * l2 with hc1
  set c2 := l0 + l1 + l2 with hc2
  have ha_le : (c1 - c2 * (c2 * (1 / 3))) * (1 / 3) ≤ 0 := by
    have : (c1 - c2 * (c2 * (1 / 3))) * (1 / 3)
        = -((l0 - l1) ^ 2 + (l1 - l2) ^ 2 + (l0 - l2) ^ 2) / 18 := by
      rw [hc1, hc2]; ring
    rw [this]
    have := sq_nonneg (l0 - l1); have := sq_nonneg (l1 - l2); have := sq_nonneg (l0 - l2)
    linarith
  rw [if_neg (not_lt.mpr ha_le)]
  set a3 := (c1 - c2 * (c2 * (1 / 3))) * (1 / 3) with ha3
  set hb := 1 / 2 * (c0 + c2 * (1 / 3) * (2 * (c2 * (1 / 3)) * (c2 * (1 / 3)) - c1)) with hhb
  have hq_le : hb * hb + a3 * a3 * a3 ≤ 0 := by
    have : hb * hb + a3 * a3 * a3
        = -((l0 - l1) ^ 2 * (l1 - l2) ^ 2 * (l0 - l2) ^ 2) / 108 := by
      rw [hhb, ha3, hc0, hc1, hc2]; ring
    rw [this]
    have := mul_nonneg (mul_nonneg (sq_nonneg (l0 - l1)) (sq_nonneg (l1 - l2)))
      (sq_nonneg (l0 - l2))
    linarith
  rw [if_neg (not_lt.mpr hq_le)]
  set q := hb * hb + a3 * a3 * a3 with hq
  set ρ := Real.sqrt (-a3) with hρ
  have hρ0 : 0 ≤ ρ := Real.sqrt_nonneg _
  have h1 : ρ ^ 2 = -a3 := Real.sq_sqrt (by linarith)
  set s := Real.sqrt 3 with hs
  have h2 : s ^ 2 = 3 := Real.sq_sqrt (by norm_num)
  set z : ℂ := ⟨hb, Real.sqrt (-q)⟩ with hz
  set θ := Complex.arg z * (1 / 3) with hθ
  have h3 : Real.cos θ ^ 2 + Real.sin θ ^ 2 = 1 := Real.cos_sq_add_sin_sq θ
  have habs : Complex.abs z = ρ ^ 3 := by
    rw [Complex.abs_apply, Complex.normSq_mk, Real.mul_self_sqrt (by linarith)]
    have : hb * hb + -q = (ρ ^ 3) ^ 2 := by
      have : (ρ ^ 3) ^ 2 = (ρ ^ 2) ^ 3 := by ring
      rw [this, h1, hq]; ring
    rw [this, Real.sqrt_sq (pow_nonneg hρ0 3)]
  have h4 : ρ ^ 3 * (4 * Real.cos θ ^ 3 - 3 * Real.cos θ) = hb := by
    have hcos3 : Real.cos (Complex.arg z) = 4 * Real.cos θ ^ 3 - 3 * Real.cos θ := by
      rw [← Real.cos_three_mul, hθ]
      congr 1; ring
    rw [← hcos3, ← habs, Complex.abs_mul_cos_arg]
  have e1 : (2 * ρ * Real.cos θ) + (-(ρ * (Real.cos θ + s * Real.sin θ)))
      + (-(ρ * (Real.cos θ - s * Real.sin θ))) = 0 := by ring
  have e2 : (2 * ρ * Real.cos θ) * (-(ρ * (Real.cos θ + s * Real.sin θ)))
      + (2 * ρ * Real.cos θ) * (-(ρ * (Real.cos θ - s * Real.sin θ)))
      + (-(ρ * (Real.cos θ + s * Real.sin θ))) * (-(ρ * (Real.cos θ - s * Real.sin θ)))
      = 3 * a3 := by
    linear_combination (-ρ ^ 2 * Real.sin θ ^ 2) * h2 + (-3 * ρ ^ 2) * h3 + (-3) * h1
  have e3 : (2 * ρ * Real.cos θ) * (-(ρ * (Real.cos θ + s * Real.sin θ)))
      * (-(ρ * (Real.cos θ - s * Real.sin θ))) = 2 * hb := by
    linear_combination (-2 * ρ ^ 3 * Real.cos θ * Real.sin θ ^ 2) * h2
      + (-6 * ρ ^ 3 * Real.cos θ) * h3 + 2 * h4
  have hpoly : (x - l0) * (x - l1) * (x - l2)
      = (x - c2 * (1 / 3)) ^ 3 + 3 * a3 * (x - c2 * (1 / 3)) - 2 * hb := by
    rw [ha3, hhb, hc0, hc1, hc2]; ring
  rw [hpoly]
  linear_combination (-(x - c2 * (1 / 3)) ^ 2) * e1 + (x - c2 * (1 / 3)) * e2 - e3


theorem det_sub_eq_prod (A : Matrix (Fin 3) (Fin 3) ℝ) (hA : A.IsHermitian) (x : ℝ) :
    (x • (1 : Matrix (Fin 3) (Fin 3) ℝ) - A).det = ∏ i, (x - hA.eigenvalues i) := by
  have hU : (hA.eigenvectorUnitary : Matrix (Fin 3) (Fin 3) ℝ) *
      star (hA.eigenvectorUnitary : Matrix (Fin 3) (Fin 3) ℝ) = 1 :=
    (Matrix.mem_unitaryGroup_iff).mp (hA.eigenvectorUnitary).2
  have h := hA.spectral_theorem
  have h2 : x • (1 : Matrix (Fin 3) (Fin 3) ℝ) - A
      = (hA.eigenvectorUnitary : Matrix (Fin 3) (Fin 3) ℝ)
        * Matrix.diagonal (fun i => x - hA.eigenvalues i)
        * star (hA.eigenvectorUnitary : Matrix (Fin 3) (Fin 3) ℝ) := by
    have hd : Matrix.diagonal (fun i => x - hA.eigenvalues i)
        = x • (1 : Matrix (Fin 3) (Fin 3) ℝ)
          - Matrix.diagonal (RCLike.ofReal ∘ hA.eigenvalues) := by
      ext i j
      by_cases hij : i = j
      · subst hij; simp
      · simp [hij, Matrix.one_apply_ne hij]
    rw [hd, Matrix.mul_sub, Matrix.sub_mul, ← h, Matrix.mul_smul, Matrix.mul_one,
      Matrix.smul_mul, hU]
  rw [h2, Matrix.det_mul_right_comm, hU, one_mul, Matrix.det_diagonal]

/-- For a symmetric matrix the coefficients computed by `computeRoots` are those of the
characteristic polynomial. -/
theorem charpoly_eq_of_symm (M : Matrix (Fin 3) (Fin 3) ℝ) (hM : M.IsHermitian) (x : ℝ) :
    (x • (1 : Matrix (Fin 3) (Fin 3) ℝ) - M).det
      = x ^ 3 - charC2 M * x ^ 2 + charC1 M * x - charC0 M := by
  have h10 : M 1 0 = M 0 1 := by simpa using hM.apply 0 1
  have h20 : M 2 0 = M 0 2 := by simpa using hM.apply 0 2
  have h21 : M 2 1 = M 1 2 := by simpa using hM.apply 1 2
  rw [Matrix.det_fin_three]
  simp [charC0, charC1, charC2, h10, h20, h21]
  ring

/-- The spectral theorem in the form the root solver needs: the coefficients `c2`, `c1`,
`c0` of a real symmetric matrix are the elementary symmetric functions of three real
numbers, which are non-negative when the matrix is positive semi-definite. -/
theorem exists_eigenvalues (M : Matrix (Fin 3) (Fin 3) ℝ) (hM : M.IsHermitian) :
    ∃ l0 l1 l2 : ℝ, charC2 M = l0 + l1 + l2 ∧ charC1 M = l0 * l1 + l0 * l2 + l1 * l2 ∧
      charC0 M = l0 * l1 * l2 ∧
      (∀ x : ℝ, (x • (1 : Matrix (Fin 3) (Fin 3) ℝ) - M).det = (x - l0) * (x - l1) * (x - l2)) ∧
      (M.PosSemidef → 0 ≤ l0 ∧ 0 ≤ l1 ∧ 0 ≤ l2) := by
  refine ⟨hM.eigenvalues 0, hM.eigenvalues 1, hM.eigenvalues 2, ?_, ?_, ?_, ?_, ?_⟩
  all_goals
    have hp : ∀ x : ℝ, x ^ 3 - charC2 M * x ^ 2 + charC1 M * x - charC0 M
        = (x - hM.eigenvalues 0) * (x - hM.eigenvalues 1) * (x - hM.eigenvalues 2) := by
      intro x
      rw [← charpoly_eq_of_symm M hM x, det_sub_eq_prod M hM x, Fin.prod_univ_three]
    have p0 := hp 0
    have p1 := hp 1
    have pm := hp (-1)
  · linear_combination (-1 / 2) * p1 + (-1 / 2) * pm + p0
  · linear_combination (1 / 2) * p1 + (-1 / 2) * pm
  · linear_combination (-1) * p0
  · intro x
    rw [det_sub_eq_prod M hM x, Fin.prod_univ_three]
  · intro hpsd
    exact ⟨hpsd.eigenvalues_nonneg 0, hpsd.eigenvalues_nonneg 1, hpsd.eigenvalues_nonneg 2⟩


theorem computeRoots_eq {K : Type} [LinearOrderedField K] (ops : ScalarOps K)
    (m : Matrix (Fin 3) (Fin 3) K) :
    computeRoots ops m =
      if |charC0 m| < ops.epsilon then computeRoots2 ops (charC2 m) (charC1 m)
      else if (sort3 (cubicRoots ops (charC0 m) (charC1 m) (charC2 m))).1 ≤ 0 then
        computeRoots2 ops (charC2 m) (charC1 m)
      else ![(sort3 (cubicRoots ops (charC0 m) (charC1 m) (charC2 m))).1,
             (sort3 (cubicRoots ops (charC0 m) (charC1 m) (charC2 m))).2.1,
             (sort3 (cubicRoots ops (charC0 m) (charC1 m) (charC2 m))).2.2] := rfl

/-- `computeRoots2` called with the sum and the product of two reals returns `0`, the
smaller and the larger of the two. -/
theorem computeRoots2_sum_prod (ops : ScalarOps ℝ) (hops : RealArith ops) (l1 l2 : ℝ) :
    computeRoots2 ops (l1 + l2) (l1 * l2) = ![0, min l1 l2, max l1 l2] := by
  obtain ⟨hsqrt, -, -, -, -, -, -, -⟩ := hops
  unfold computeRoots2
  simp only [hsqrt]
  have hd : (l1 + l2) * (l1 + l2) - 4 * (l1 * l2) = (l1 - l2) ^ 2 := by ring
  rw [hd, if_neg (not_lt.mpr (sq_nonneg _)), Real.sqrt_sq_eq_abs]
  rcases le_total l1 l2 with h | h
  · rw [abs_of_nonpos (by linarith), min_eq_left h, max_eq_right h]
    ext i; fin_cases i <;> simp <;> ring
  · rw [abs_of_nonneg (by linarith), min_eq_right h, max_eq_left h]
    ext i; fin_cases i <;> simp <;> ring


theorem charC0_eq_det (M : Matrix (Fin 3) (Fin 3) ℝ) (hM : M.IsHermitian) :
    charC0 M = M.det := by
  have h10 : M 1 0 = M 0 1 := by simpa using hM.apply 0 1
  have h20 : M 2 0 = M 0 2 := by simpa using hM.apply 0 2
  have h21 : M 2 1 = M 1 2 := by simpa using hM.apply 1 2
  rw [Matrix.det_fin_three, charC0, h10, h20, h21]
  ring

/-- The quadratic branch on a polynomial with a zero root and two non-negative ones. -/
theorem computeRoots2_of_roots (ops : ScalarOps ℝ) (hops : RealArith ops) (l0 l1 l2 : ℝ)
    (h0 : 0 ≤ l0) (h1 : 0 ≤ l1) (h2 : 0 ≤ l2) (hz : l0 * l1 * l2 = 0) :
    computeRoots2 ops (l0 + l1 + l2) (l0 * l1 + l0 * l2 + l1 * l2) 0
        ≤ computeRoots2 ops (l0 + l1 + l2) (l0 * l1 + l0 * l2 + l1 * l2) 1 ∧
    computeRoots2 ops (l0 + l1 + l2) (l0 * l1 + l0 * l2 + l1 * l2) 1
        ≤ computeRoots2 ops (l0 + l1 + l2) (l0 * l1 + l0 * l2 + l1 * l2) 2 ∧
    ∀ x : ℝ, (x - computeRoots2 ops (l0 + l1 + l2) (l0 * l1 + l0 * l2 + l1 * l2) 0)
        * (x - computeRoots2 ops (l0 + l1 + l2) (l0 * l1 + l0 * l2 + l1 * l2) 1)
        * (x - computeRoots2 ops (l0 + l1 + l2) (l0 * l1 + l0 * l2 + l1 * l2) 2)
      = (x - l0) * (x - l1) * (x - l2) := by
  have key : ∀ a b : ℝ, 0 ≤ a → 0 ≤ b →
      (computeRoots2 ops (a + b) (a * b) 0 ≤ computeRoots2 ops (a + b) (a * b) 1 ∧
       computeRoots2 ops (a + b) (a * b) 1 ≤ computeRoots2 ops (a + b) (a * b) 2 ∧
       ∀ x : ℝ, (x - computeRoots2 ops (a + b) (a * b) 0) * (x - computeRoots2 ops (a + b) (a * b) 1)
          * (x - computeRoots2 ops (a + b) (a * b) 2) = x * (x - a) * (x - b)) := by
    intro a b ha hb
    rw [computeRoots2_sum_prod ops hops]
    simp only [Matrix.cons_val_zero, Matrix.cons_val_one, Matrix.cons_val_two, Matrix.head_cons,
      Matrix.tail_cons]
    refine ⟨le_min ha hb, min_le_max, fun x => ?_⟩
    rcases le_total a b with h | h
    · rw [min_eq_left h, max_eq_right h]; ring
    · rw [min_eq_right h, max_eq_left h]; ring
  rcases mul_eq_zero.mp hz with h01 | h
  · rcases mul_eq_zero.mp h01 with h | h
    · subst h
      have e1 : (0 : ℝ) + l1 + l2 = l1 + l2 := by ring
      have e2 : (0 : ℝ) * l1 + 0 * l2 + l1 * l2 = l1 * l2 := by ring
      rw [e1, e2]
      obtain ⟨k1, k2, k3⟩ := key l1 l2 h1 h2
      exact ⟨k1, k2, fun x => by rw [k3 x]; ring⟩
    · subst h
      have e1 : l0 + (0 : ℝ) + l2 = l0 + l2 := by ring
      have e2 : l0 * (0 : ℝ) + l0 * l2 + 0 * l2 = l0 * l2 := by ring
      rw [e1, e2]
      obtain ⟨k1, k2, k3⟩ := key l0 l2 h0 h2
      exact ⟨k1, k2, fun x => by rw [k3 x]; ring⟩
  · subst h
    have e1 : l0 + l1 + (0 : ℝ) = l0 + l1 := by ring
    have e2 : l0 * l1 + l0 * (0 : ℝ) + l1 * 0 = l0 * l1 := by ring
    rw [e1, e2]
    obtain ⟨k1, k2, k3⟩ := key l0 l1 h0 h1
    exact ⟨k1, k2, fun x => by rw [k3 x]; ring⟩

/-- The root solver on a symmetric positive semi-definite matrix whose determinant is
zero or at least epsilon: sorted output, equal to the eigenvalues with multiplicity. -/
theorem computeRoots_exact (ops : ScalarOps ℝ) (hops : RealArith ops)
    (M : Matrix (Fin 3) (Fin 3) ℝ) (hM : M.PosSemidef)
    (hdet : M.det = 0 ∨ ops.epsilon ≤ M.det) :
    computeRoots ops M 0 ≤ computeRoots ops M 1 ∧
    computeRoots ops M 1 ≤ computeRoots ops M 2 ∧
    ∀ x : ℝ, (x - computeRoots ops M 0) * (x - computeRoots ops M 1) * (x - computeRoots ops M 2)
      = (x • (1 : Matrix (Fin 3) (Fin 3) ℝ) - M).det := by
  obtain ⟨l0, l1, l2, hc2, hc1, hc0, hpoly, hnn⟩ := exists_eigenvalues M hM.1
  obtain ⟨h0, h1, h2⟩ := hnn hM
  have heps : 0 < ops.epsilon := hops.2.2.2.2.1
  rw [← charC0_eq_det M hM.1, hc0] at hdet
  rw [computeRoots_eq, hc2, hc1, hc0]
  simp only [hpoly]
  rcases hdet with hz | hbig
  · rw [if_pos (by rw [hz, abs_zero]; exact heps)]
    exact computeRoots2_of_roots ops hops l0 l1 l2 h0 h1 h2 hz
  · rw [if_neg (by rw [abs_of_nonneg (by linarith)]; exact not_lt.mpr hbig)]
    obtain ⟨s1, s2, s3⟩ := sort3_spec
      (cubicRoots ops (l0 * l1 * l2) (l0 * l1 + l0 * l2 + l1 * l2) (l0 + l1 + l2))
    have hroots := fun x => (s3 x).trans (cubicRoots_poly ops hops l0 l1 l2 x)
    have hpos : 0 < l0 * l1 * l2 := lt_of_lt_of_le heps hbig
    have hl0 : 0 < l0 := by
      rcases h0.lt_or_eq with h | h
      · exact h
      · rw [← h] at hpos; simp at hpos
    have hl1 : 0 < l1 := by
      rcases h1.lt_or_eq with h | h
      · exact h
      · rw [← h] at hpos; simp at hpos
    have hl2 : 0 < l2 := by
      rcases h2.lt_or_eq with h | h
      · exact h
      · rw [← h] at hpos; simp at hpos
    have hfirst : ¬ (sort3 (cubicRoots ops (l0 * l1 * l2) (l0 * l1 + l0 * l2 + l1 * l2)
        (l0 + l1 + l2))).1 ≤ 0 := by
      intro hle
      have hx := hroots (sort3 (cubicRoots ops (l0 * l1 * l2) (l0 * l1 + l0 * l2 + l1 * l2)
        (l0 + l1 + l2))).1
      rw [sub_self, zero_mul, zero_mul] at hx
      have hneg : ∀ l : ℝ, 0 < l → (sort3 (cubicRoots ops (l0 * l1 * l2)
          (l0 * l1 + l0 * l2 + l1 * l2) (l0 + l1 + l2))).1 - l < 0 := fun l hl => by linarith
      have := mul_neg_of_pos_of_neg (mul_pos_of_neg_of_neg (hneg l0 hl0) (hneg l1 hl1))
        (hneg l2 hl2)
      linarith
    rw [if_neg hfirst]
    exact ⟨s1, s2, hroots⟩


/-- C6: in exact real arithmetic, for every symmetric positive semi-definite 3x3 matrix
`M` whose determinant is exactly 0 or at least machine epsilon, `computeRoots` returns
`r0 ≤ r1 ≤ r2` that are the eigenvalues of `M` with multiplicity:
`(x - r0) (x - r1) (x - r2) = det (x I - M)` for every `x`. -/
theorem computeRoots_psd (ops : ScalarOps ℝ) (hops : RealArith ops)
    (M : Matrix (Fin 3) (Fin 3) ℝ) (hM : M.PosSemidef)
    (hdet : M.det = 0 ∨ ops.epsilon ≤ M.det) :
    computeRoots ops M 0 ≤ computeRoots ops M 1 ∧
    computeRoots ops M 1 ≤ computeRoots ops M 2 ∧
    ∀ x : ℝ, (x - computeRoots ops M 0) * (x - computeRoots ops M 1) * (x - computeRoots ops M 2)
      = (x • (1 : Matrix (Fin 3) (Fin 3) ℝ) - M).det :=
  computeRoots_exact ops hops M hM hdet

/-- Single precision: epsilon `2^-23`, smallest normal `2^-126`, real library functions. -/
theorem realArith_single :
    RealArith ⟨Real.sqrt, fun y x => Complex.arg ⟨x, y⟩, Real.cos, Real.sin,
      1 / 2 ^ 23, 1 / 2 ^ 126⟩ :=
  ⟨rfl, fun _ _ => rfl, rfl, rfl, by positivity, by norm_num, by positivity, by norm_num⟩

theorem posSemidef_diag123 :
    (Matrix.diagonal ![1, 2, 3] : Matrix (Fin 3) (Fin 3) ℝ).PosSemidef :=
  Matrix.PosSemidef.diagonal (fun i => by fin_cases i <;> simp)

/-- Witness for C6: `diag (1, 2, 3)` in single precision. -/
theorem computeRoots_psd_witness :
    RealArith ⟨Real.sqrt, fun y x => Complex.arg ⟨x, y⟩, Real.cos, Real.sin,
      1 / 2 ^ 23, 1 / 2 ^ 126⟩ ∧
    (Matrix.diagonal ![1, 2, 3] : Matrix (Fin 3) (Fin 3) ℝ).PosSemidef ∧
    ((Matrix.diagonal ![1, 2, 3] : Matrix (Fin 3) (Fin 3) ℝ).det = 0 ∨
      (1 / 2 ^ 23 : ℝ) ≤ (Matrix.diagonal ![1, 2, 3] : Matrix (Fin 3) (Fin 3) ℝ).det) ∧
    (computeRoots ⟨Real.sqrt, fun y x => Complex.arg ⟨x, y⟩, Real.cos, Real.sin,
        1 / 2 ^ 23, 1 / 2 ^ 126⟩ (Matrix.diagonal ![1, 2, 3]) 0
      ≤ computeRoots ⟨Real.sqrt, fun y x => Complex.arg ⟨x, y⟩, Real.cos, Real.sin,
        1 / 2 ^ 23, 1 / 2 ^ 126⟩ (Matrix.diagonal ![1, 2, 3]) 1 ∧
     computeRoots ⟨Real.sqrt, fun y x => Complex.arg ⟨x, y⟩, Real.cos, Real.sin,
        1 / 2 ^ 23, 1 / 2 ^ 126⟩ (Matrix.diagonal ![1, 2, 3]) 1
      ≤ computeRoots ⟨Real.sqrt, fun y x => Complex.arg ⟨x, y⟩, Real.cos, Real.sin,
        1 / 2 ^ 23, 1 / 2 ^ 126⟩ (Matrix.diagonal ![1, 2, 3]) 2 ∧
     ∀ x : ℝ,
      (x - computeRoots ⟨Real.sqrt, fun y x => Complex.arg ⟨x, y⟩, Real.cos, Real.sin,
        1 / 2 ^ 23, 1 / 2 ^ 126⟩ (Matrix.diagonal ![1, 2, 3]) 0)
      * (x - computeRoots ⟨Real.sqrt, fun y x => Complex.arg ⟨x, y⟩, Real.cos, Real.sin,
        1 / 2 ^ 23, 1 / 2 ^ 126⟩ (Matrix.diagonal ![1, 2, 3]) 1)
      * (x - computeRoots ⟨Real.sqrt, fun y x => Complex.arg ⟨x, y⟩, Real.cos, Real.sin,
        1 / 2 ^ 23, 1 / 2 ^ 126⟩ (Matrix.diagonal ![1, 2, 3]) 2)
      = (x • (1 : Matrix (Fin 3) (Fin 3) ℝ) - Matrix.diagonal ![1, 2, 3]).det) :=
  have hdet : (Matrix.diagonal ![1, 2, 3] : Matrix (Fin 3) (Fin 3) ℝ).det = 0 ∨
      (1 / 2 ^ 23 : ℝ) ≤ (Matrix.diagonal ![1, 2, 3] : Matrix (Fin 3) (Fin 3) ℝ).det := by
    right
    rw [Matrix.det_diagonal, Fin.prod_univ_three]
    norm_num
  ⟨realArith_single, posSemidef_diag123, hdet,
    computeRoots_psd _ realArith_single _ posSemidef_diag123 hdet⟩

end RootsProofs

/-! ## Eigenvalues of a 3x3 matrix -/

section ValuesProofs

theorem computeRoots2_sorted (ops : ScalarOps ℝ) (hops : RealArith ops) (b c : ℝ)
    (hb : 0 ≤ b) (hc : 0 ≤ c) :
    computeRoots2 ops b c 0 ≤ computeRoots2 ops b c 1 ∧
    computeRoots2 ops b c 1 ≤ computeRoots2 ops b c 2 := by
  obtain ⟨hsqrt, -, -, -, -, -, -, -⟩ := hops
  unfold computeRoots2
  simp only [hsqrt, Matrix.cons_val_zero, Matrix.cons_val_one, Matrix.cons_val_two,
    Matrix.head_cons, Matrix.tail_cons]
  have hd : (if b * b - 4 * c < 0 then 0 else b * b - 4 * c) ≤ b * b := by
    split_ifs
    · exact mul_self_nonneg b
    · linarith
  have h1 : Real.sqrt (if b * b - 4 * c < 0 then 0 else b * b - 4 * c) ≤ b := by
    calc Real.sqrt (if b * b - 4 * c < 0 then 0 else b * b - 4 * c)
        ≤ Real.sqrt (b * b) := Real.sqrt_le_sqrt hd
      _ = b := Real.sqrt_mul_self hb
  have h0 := Real.sqrt_nonneg (if b * b - 4 * c < 0 then 0 else b * b - 4 * c)
  constructor <;> linarith

/-- On a symmetric positive semi-definite matrix every branch of `computeRoots` returns
its three values in ascending order. -/
theorem computeRoots_sorted_psd (ops : ScalarOps ℝ) (hops : RealArith ops)
    (M : Matrix (Fin 3) (Fin 3) ℝ) (hM : M.PosSemidef) :
    computeRoots ops M 0 ≤ computeRoots ops M 1 ∧ computeRoots ops M 1 ≤ computeRoots ops M 2 := by
  obtain ⟨l0, l1, l2, hc2, hc1, -, -, hnn⟩ := exists_eigenvalues M hM.1
  obtain ⟨h0, h1, h2⟩ := hnn hM
  have hb : 0 ≤ charC2 M := by rw [hc2]; linarith
  have hc : 0 ≤ charC1 M := by
    rw [hc1]
    have := mul_nonneg h0 h1; have := mul_nonneg h0 h2; have := mul_nonneg h1 h2
    linarith
  have hquad := computeRoots2_sorted ops hops _ _ hb hc
  rw [computeRoots_eq]
  split_ifs
  · exact hquad
  · exact hquad
  · obtain ⟨s1, s2, -⟩ := sort3_spec (cubicRoots ops (charC0 M) (charC1 M) (charC2 M))
    exact ⟨s1, s2⟩

theorem maxAbsCoeff_nonneg {K : Type} [LinearOrderedField K] (M : Matrix (Fin 3) (Fin 3) K) :
    0 ≤ maxAbsCoeff M :=
  le_trans (abs_nonneg (M 0 0)) (le_max_left _ _)

theorem eigenScale_pos {K : Type} [LinearOrderedField K] (ops : ScalarOps K)
    (hmin : 0 < ops.numericMin) (M : Matrix (Fin 3) (Fin 3) K) : 0 < eigenScale ops M := by
  unfold eigenScale
  dsimp only
  split_ifs with h
  · exact one_pos
  · exact lt_trans hmin (not_le.mp h)

theorem divScalar_eq_smul {K : Type} [LinearOrderedField K] (M : Matrix (Fin 3) (Fin 3) K)
    (s : K) : divScalar M s = s⁻¹ • M := by
  ext i j
  simp [divScalar, div_eq_inv_mul]

theorem posSemidef_divScalar (M : Matrix (Fin 3) (Fin 3) ℝ) (hM : M.PosSemidef) (s : ℝ)
    (hs : 0 < s) : (divScalar M s).PosSemidef := by
  rw [divScalar_eq_smul]
  refine ⟨?_, fun x => ?_⟩
  · ext i j
    have := hM.1.apply i j
    simp only [Matrix.conjTranspose_apply, Matrix.smul_apply, star_trivial, smul_eq_mul] at this ⊢
    rw [this]
  · rw [Matrix.smul_mulVec_assoc, Matrix.dotProduct_smul]
    exact mul_nonneg (inv_nonneg.mpr hs.le) (hM.2 x)

/-- C10: in exact real arithmetic, for every symmetric positive semi-definite 3x3 matrix,
the vector written by `eigen33 (mat, evals)` is in ascending order, whichever branch of
`computeRoots` (quadratic, cubic, or cubic followed by the quadratic fallback) produced
it. -/
theorem eigen33Values_sorted (ops : ScalarOps ℝ) (hops : RealArith ops)
    (mat : Matrix (Fin 3) (Fin 3) ℝ) (hM : mat.PosSemidef) :
    eigen33Values ops mat 0 ≤ eigen33Values ops mat 1 ∧
    eigen33Values ops mat 1 ≤ eigen33Values ops mat 2 := by
  have hs := eigenScale_pos ops hops.2.2.2.2.2.2.1 mat
  obtain ⟨h1, h2⟩ := computeRoots_sorted_psd ops hops _
    (posSemidef_divScalar mat hM _ hs)
  exact ⟨mul_le_mul_of_nonneg_right h1 hs.le, mul_le_mul_of_nonneg_right h2 hs.le⟩

/-- Witness for C10: `diag (1, 2, 3)` in single precision. -/
theorem eigen33Values_sorted_witness :
    RealArith ⟨Real.sqrt, fun y x => Complex.arg ⟨x, y⟩, Real.cos, Real.sin,
      1 / 2 ^ 23, 1 / 2 ^ 126⟩ ∧
    (Matrix.diagonal ![1, 2, 3] : Matrix (Fin 3) (Fin 3) ℝ).PosSemidef ∧
    (eigen33Values ⟨Real.sqrt, fun y x => Complex.arg ⟨x, y⟩, Real.cos, Real.sin,
        1 / 2 ^ 23, 1 / 2 ^ 126⟩ (Matrix.diagonal ![1, 2, 3]) 0
      ≤ eigen33Values ⟨Real.sqrt, fun y x => Complex.arg ⟨x, y⟩, Real.cos, Real.sin,
        1 / 2 ^ 23, 1 / 2 ^ 126⟩ (Matrix.diagonal ![1, 2, 3]) 1 ∧
     eigen33Values ⟨Real.sqrt, fun y x => Complex.arg ⟨x, y⟩, Real.cos, Real.sin,
        1 / 2 ^ 23, 1 / 2 ^ 126⟩ (Matrix.diagonal ![1, 2, 3]) 1
      ≤ eigen33Values ⟨Real.sqrt, fun y x => Complex.arg ⟨x, y⟩, Real.cos, Real.sin,
        1 / 2 ^ 23, 1 / 2 ^ 126⟩ (Matrix.diagonal ![1, 2, 3]) 2) :=
  ⟨realArith_single, posSemidef_diag123,
    eigen33Values_sorted _ realArith_single _ posSemidef_diag123⟩

end ValuesProofs

/-! ## Full decomposition: multiples of the identity -/

section IdentityProofs

theorem cubicRoots_one (ops : ScalarOps ℝ) (hops : RealArith ops) :
    cubicRoots ops 1 3 3 = (1, 1, 1) := by
  obtain ⟨hsqrt, hatan, hcos, hsin, -, -, -, -⟩ := hops
  unfold cubicRoots
  simp only [hsqrt, hatan, hcos, hsin]
  norm_num

theorem computeRoots_one (ops : ScalarOps ℝ) (hops : RealArith ops) :
    computeRoots ops (1 : Matrix (Fin 3) (Fin 3) ℝ) = ![1, 1, 1] := by
  have h0 : charC0 (1 : Matrix (Fin 3) (Fin 3) ℝ) = 1 := by simp [charC0]
  have h1 : charC1 (1 : Matrix (Fin 3) (Fin 3) ℝ) = 3 := by simp [charC1]; norm_num
  have h2 : charC2 (1 : Matrix (Fin 3) (Fin 3) ℝ) = 3 := by simp [charC2]; norm_num
  have heps : ops.epsilon < 1 := hops.2.2.2.2.2.1
  rw [computeRoots_eq, h0, h1, h2, cubicRoots_one ops hops]
  have hs : sort3 ((1 : ℝ), (1 : ℝ), (1 : ℝ)) = (1, 1, 1) := by
    simp [sort3]
  rw [hs, if_neg (by rw [abs_one]; exact not_lt.mpr heps.le), if_neg (by norm_num)]


theorem maxAbsCoeff_smul_one {K : Type} [LinearOrderedField K] (c : K) (hc : 0 < c) :
    maxAbsCoeff (c • (1 : Matrix (Fin 3) (Fin 3) K)) = c := by
  simp [maxAbsCoeff, abs_of_pos hc, hc.le]

/-- C9, as amended: in exact real arithmetic, for every `c` above
`numeric_limits<Scalar>::min ()` (in particular for `c = 1`, the identity matrix),
`eigen33 (mat, evecs, evals)` on `c I` returns the identity as `evecs` and
`evals = (c, c, c)`. -/
theorem eigen33_smul_one (ops : ScalarOps ℝ) (hops : RealArith ops)
    (unitOrthogonal : (Fin 3 → ℝ) → (Fin 3 → ℝ)) (c : ℝ) (hc : ops.numericMin < c) :
    (eigen33 ops unitOrthogonal (c • (1 : Matrix (Fin 3) (Fin 3) ℝ))).1 = 1 ∧
    (eigen33 ops unitOrthogonal (c • (1 : Matrix (Fin 3) (Fin 3) ℝ))).2 = ![c, c, c] := by
  have hmin : 0 < ops.numericMin := hops.2.2.2.2.2.2.1
  have heps : 0 < ops.epsilon := hops.2.2.2.2.1
  have hc0 : 0 < c := lt_trans hmin hc
  have hscale : eigenScale ops (c • (1 : Matrix (Fin 3) (Fin 3) ℝ)) = c := by
    unfold eigenScale
    rw [maxAbsCoeff_smul_one c hc0]
    exact if_neg (not_le.mpr hc)
  have hscaled : divScalar (c • (1 : Matrix (Fin 3) (Fin 3) ℝ)) c = 1 := by
    rw [divScalar_eq_smul, smul_smul, inv_mul_cancel₀ hc0.ne', one_smul]
  unfold eigen33
  simp only [hscale, hscaled, computeRoots_one ops hops]
  constructor
  · rw [if_pos (by simpa using heps.le)]
  · ext i
    fin_cases i <;> simp

/-- Witness for C9 as amended: the identity matrix in single precision. -/
theorem eigen33_smul_one_witness :
    RealArith ⟨Real.sqrt, fun y x => Complex.arg ⟨x, y⟩, Real.cos, Real.sin,
      1 / 2 ^ 23, 1 / 2 ^ 126⟩ ∧
    (1 / 2 ^ 126 : ℝ) < 1 ∧
    ((eigen33 ⟨Real.sqrt, fun y x => Complex.arg ⟨x, y⟩, Real.cos, Real.sin,
        1 / 2 ^ 23, 1 / 2 ^ 126⟩ (eigenUnitOrthogonal ⟨Real.sqrt, fun y x => Complex.arg ⟨x, y⟩, Real.cos, Real.sin,
          1 / 2 ^ 23, 1 / 2 ^ 126⟩ (1 / 10 ^ 5))
        ((1 : ℝ) • (1 : Matrix (Fin 3) (Fin 3) ℝ))).1 = 1 ∧
     (eigen33 ⟨Real.sqrt, fun y x => Complex.arg ⟨x, y⟩, Real.cos, Real.sin,
        1 / 2 ^ 23, 1 / 2 ^ 126⟩ (eigenUnitOrthogonal ⟨Real.sqrt, fun y x => Complex.arg ⟨x, y⟩, Real.cos, Real.sin,
          1 / 2 ^ 23, 1 / 2 ^ 126⟩ (1 / 10 ^ 5))
        ((1 : ℝ) • (1 : Matrix (Fin 3) (Fin 3) ℝ))).2 = ![1, 1, 1]) :=
  ⟨realArith_single, by norm_num,
    eigen33_smul_one _ realArith_single (eigenUnitOrthogonal ⟨Real.sqrt, fun y x => Complex.arg ⟨x, y⟩, Real.cos, Real.sin,
          1 / 2 ^ 23, 1 / 2 ^ 126⟩ (1 / 10 ^ 5)) 1 (by norm_num)⟩

/-- On `c I` with `0 < c ≤ numeric_limits<Scalar>::min ()` and `c ^ 3` below epsilon the
matrix is not rescaled, `computeRoots` takes the quadratic branch, and the first
eigenvalue returned is `0`. -/
theorem eigen33_tiny_smul_one {K : Type} [LinearOrderedField K] (ops : ScalarOps K)
    (unitOrthogonal : (Fin 3 → K) → (Fin 3 → K)) (c : K) (hc : 0 < c)
    (hmin : c ≤ ops.numericMin) (heps : c ^ 3 < ops.epsilon) :
    (eigen33 ops unitOrthogonal (c • (1 : Matrix (Fin 3) (Fin 3) K))).2 0 = 0 := by
  have hscale : eigenScale ops (c • (1 : Matrix (Fin 3) (Fin 3) K)) = 1 := by
    unfold eigenScale
    rw [maxAbsCoeff_smul_one c hc]
    exact if_pos hmin
  have hscaled : divScalar (c • (1 : Matrix (Fin 3) (Fin 3) K)) 1
      = c • (1 : Matrix (Fin 3) (Fin 3) K) := by
    rw [divScalar_eq_smul, inv_one, one_smul]
  have h0 : charC0 (c • (1 : Matrix (Fin 3) (Fin 3) K)) = c ^ 3 := by
    simp [charC0]; ring
  show computeRoots ops (divScalar (c • (1 : Matrix (Fin 3) (Fin 3) K))
      (eigenScale ops (c • (1 : Matrix (Fin 3) (Fin 3) K)))) 0
    * eigenScale ops (c • (1 : Matrix (Fin 3) (Fin 3) K)) = 0
  rw [hscale, hscaled, computeRoots_eq, h0,
    if_pos (by rw [abs_of_pos (pow_pos hc 3)]; exact heps)]
  simp [computeRoots2]

/-- Counterexample to C9 as stated: in single precision (epsilon `2^-23`, smallest
normal `2^-126`) and exact real arithmetic, for `c = 2^-126 > 0` the call on `c I` does
not return `evals = (c, c, c)`. -/
theorem eigen33_smul_one_counterexample :
    ¬ ((eigen33 ⟨Real.sqrt, fun y x => Complex.arg ⟨x, y⟩, Real.cos, Real.sin,
          1 / 2 ^ 23, 1 / 2 ^ 126⟩ (eigenUnitOrthogonal ⟨Real.sqrt, fun y x => Complex.arg ⟨x, y⟩, Real.cos, Real.sin,
          1 / 2 ^ 23, 1 / 2 ^ 126⟩ (1 / 10 ^ 5))
          ((1 / 2 ^ 126 : ℝ) • (1 : Matrix (Fin 3) (Fin 3) ℝ))).1 = 1 ∧
       (eigen33 ⟨Real.sqrt, fun y x => Complex.arg ⟨x, y⟩, Real.cos, Real.sin,
          1 / 2 ^ 23, 1 / 2 ^ 126⟩ (eigenUnitOrthogonal ⟨Real.sqrt, fun y x => Complex.arg ⟨x, y⟩, Real.cos, Real.sin,
          1 / 2 ^ 23, 1 / 2 ^ 126⟩ (1 / 10 ^ 5))
          ((1 / 2 ^ 126 : ℝ) • (1 : Matrix (Fin 3) (Fin 3) ℝ))).2
        = ![1 / 2 ^ 126, 1 / 2 ^ 126, 1 / 2 ^ 126]) := by
  rintro ⟨-, h⟩
  have h0 := eigen33_tiny_smul_one
    (⟨Real.sqrt, fun y x => Complex.arg ⟨x, y⟩, Real.cos, Real.sin,
      1 / 2 ^ 23, 1 / 2 ^ 126⟩ : ScalarOps ℝ) (eigenUnitOrthogonal ⟨Real.sqrt, fun y x => Complex.arg ⟨x, y⟩, Real.cos, Real.sin,
          1 / 2 ^ 23, 1 / 2 ^ 126⟩ (1 / 10 ^ 5)) (1 / 2 ^ 126 : ℝ)
    (by positivity) (le_refl _) (by norm_num)
  rw [h] at h0
  norm_num at h0

end IdentityProofs

/-! ## Full decomposition: eigenvectors -/

section VectorProofs

variable {K : Type} [LinearOrderedField K]

theorem dot_comm (a b : Fin 3 → K) : dot a b = dot b a := by
  simp only [dot]; ring

theorem dot_self_eq (a : Fin 3 → K) : dot a a = squaredNorm a := rfl

theorem dot_cross_self_left (a b : Fin 3 → K) : dot a (cross a b) = 0 := by
  simp [dot, cross]; ring

theorem dot_cross_self_right (a b : Fin 3 → K) : dot b (cross a b) = 0 := by
  simp [dot, cross]; ring

theorem squaredNorm_cross (a b : Fin 3 → K) :
    squaredNorm (cross a b) = squaredNorm a * squaredNorm b - dot a b ^ 2 := by
  simp [squaredNorm, dot, cross]; ring

theorem dot_vdiv_left (v w : Fin 3 → K) (s : K) : dot (vdiv v s) w = dot v w / s := by
  simp [dot, vdiv]; ring

theorem squaredNorm_vdiv (v : Fin 3 → K) (s : K) :
    squaredNorm (vdiv v s) = squaredNorm v / (s * s) := by
  simp only [squaredNorm, vdiv]
  by_cases hs : s = 0
  · simp [hs]
  · field_simp

theorem mulVec_apply3 (A : Matrix (Fin 3) (Fin 3) K) (v : Fin 3 → K) (i : Fin 3) :
    (A.mulVec v) i = dot (A i) v := by
  simp [Matrix.mulVec, Matrix.dotProduct, Fin.sum_univ_three, dot]

theorem mulVec_vdiv (A : Matrix (Fin 3) (Fin 3) K) (v : Fin 3 → K) (s : K) :
    A.mulVec (vdiv v s) = vdiv (A.mulVec v) s := by
  ext i
  rw [mulVec_apply3, dot_comm, dot_vdiv_left, dot_comm]
  simp [vdiv, mulVec_apply3]

theorem subDiagonal_mulVec (A : Matrix (Fin 3) (Fin 3) K) (r : K) (v : Fin 3 → K) :
    (subDiagonal A r).mulVec v = A.mulVec v - r • v := by
  ext i
  fin_cases i <;> simp [mulVec_apply3, dot, subDiagonal] <;> ring

/-- The cross product of two rows of a singular matrix is in its kernel. -/
theorem mulVec_cross_rows (B : Matrix (Fin 3) (Fin 3) K) (hdet : B.det = 0) :
    B.mulVec (cross (B 0) (B 1)) = 0 ∧ B.mulVec (cross (B 0) (B 2)) = 0 ∧
    B.mulVec (cross (B 1) (B 2)) = 0 := by
  rw [Matrix.det_fin_three] at hdet
  refine ⟨?_, ?_, ?_⟩ <;>
  · ext i
    fin_cases i <;> simp [mulVec_apply3, dot, cross] <;>
      first | ring1 | linear_combination hdet | linear_combination (-1) * hdet


/-- The candidate `selectCross` returns is one of the three cross products of rows,
divided by its norm, and its squared norm is the largest of the three. -/
theorem selectCross_spec (ops : ScalarOps K) (B : Matrix (Fin 3) (Fin 3) K) :
    ∃ v : Fin 3 → K,
      (v = cross (B 0) (B 1) ∨ v = cross (B 0) (B 2) ∨ v = cross (B 1) (B 2)) ∧
      (selectCross ops B).1 = vdiv v (ops.sqrt (squaredNorm v)) ∧
      (selectCross ops B).2.1 = squaredNorm v ∧
      squaredNorm (cross (B 0) (B 1)) ≤ squaredNorm v ∧
      squaredNorm (cross (B 0) (B 2)) ≤ squaredNorm v ∧
      squaredNorm (cross (B 1) (B 2)) ≤ squaredNorm v := by
  unfold selectCross
  dsimp only
  by_cases h1 : squaredNorm (cross (B 0) (B 1)) ≥ squaredNorm (cross (B 0) (B 2)) ∧
      squaredNorm (cross (B 0) (B 1)) ≥ squaredNorm (cross (B 1) (B 2))
  · rw [if_pos h1]
    exact ⟨_, Or.inl rfl, rfl, rfl, le_refl _, h1.1, h1.2⟩
  · rw [if_neg h1]
    by_cases h2 : squaredNorm (cross (B 0) (B 2)) ≥ squaredNorm (cross (B 0) (B 1)) ∧
        squaredNorm (cross (B 0) (B 2)) ≥ squaredNorm (cross (B 1) (B 2))
    · rw [if_pos h2]
      exact ⟨_, Or.inr (Or.inl rfl), rfl, rfl, h2.1, le_refl _, h2.2⟩
    · rw [if_neg h2]
      refine ⟨_, Or.inr (Or.inr rfl), rfl, rfl, ?_, ?_, le_refl _⟩
      · by_contra h3
        push_neg at h3
        have h4 : ¬ squaredNorm (cross (B 0) (B 1)) ≥ squaredNorm (cross (B 0) (B 2)) :=
          fun h => h1 ⟨h, h3.le⟩
        push_neg at h4
        exact h2 ⟨h4.le, (h3.trans h4).le⟩
      · by_contra h3
        push_neg at h3
        have h4 : ¬ squaredNorm (cross (B 0) (B 2)) ≥ squaredNorm (cross (B 0) (B 1)) :=
          fun h => h2 ⟨h, h3.le⟩
        push_neg at h4
        exact h1 ⟨h4.le, (h3.trans h4).le⟩

theorem squaredNorm_nonneg (v : Fin 3 → K) : 0 ≤ squaredNorm v := by
  unfold squaredNorm
  have := mul_self_nonneg (v 0); have := mul_self_nonneg (v 1); have := mul_self_nonneg (v 2)
  linarith

theorem squaredNorm_normalize (ops : ScalarOps ℝ) (hops : RealArith ops) (v : Fin 3 → ℝ)
    (hv : squaredNorm v ≠ 0) : squaredNorm (vdiv v (ops.sqrt (squaredNorm v))) = 1 := by
  rw [squaredNorm_vdiv, hops.1, Real.mul_self_sqrt (squaredNorm_nonneg v)]
  exact div_self hv

/-- When `B` is singular and its selected candidate is non-zero, the vector returned by
`selectCross` is a unit vector of the kernel of `B`. -/
theorem selectCross_kernel (ops : ScalarOps ℝ) (hops : RealArith ops)
    (B : Matrix (Fin 3) (Fin 3) ℝ) (hdet : B.det = 0) (hne : (selectCross ops B).2.1 ≠ 0) :
    squaredNorm (selectCross ops B).1 = 1 ∧ B.mulVec (selectCross ops B).1 = 0 := by
  obtain ⟨v, hv, h1, h2, -, -, -⟩ := selectCross_spec ops B
  obtain ⟨k1, k2, k3⟩ := mulVec_cross_rows B hdet
  rw [h2] at hne
  rw [h1]
  refine ⟨squaredNorm_normalize ops hops v hne, ?_⟩
  have hBv : B.mulVec v = 0 := by
    rcases hv with h | h | h <;> rw [h] <;> assumption
  rw [mulVec_vdiv, hBv]
  ext i
  simp [vdiv]

end VectorProofs

section SymmetricProofs

theorem det_subDiagonal {K : Type} [LinearOrderedField K] (A : Matrix (Fin 3) (Fin 3) K)
    (r : K) : (subDiagonal A r).det = -(r • (1 : Matrix (Fin 3) (Fin 3) K) - A).det := by
  rw [Matrix.det_fin_three, Matrix.det_fin_three]
  simp [subDiagonal]
  ring

theorem charCoeffs_of_roots (A : Matrix (Fin 3) (Fin 3) ℝ) (hA : A.IsHermitian) (r s t : ℝ)
    (hpoly : ∀ x : ℝ, (x • (1 : Matrix (Fin 3) (Fin 3) ℝ) - A).det
      = (x - r) * (x - s) * (x - t)) :
    charC2 A = r + s + t ∧ charC1 A = r * s + r * t + s * t ∧ charC0 A = r * s * t := by
  have hp : ∀ x : ℝ, x ^ 3 - charC2 A * x ^ 2 + charC1 A * x - charC0 A
      = (x - r) * (x - s) * (x - t) := fun x => by
    rw [← charpoly_eq_of_symm A hA x, hpoly x]
  have p0 := hp 0
  have p1 := hp 1
  have pm := hp (-1)
  refine ⟨?_, ?_, ?_⟩
  · linear_combination (-1 / 2) * p1 + (-1 / 2) * pm + p0
  · linear_combination (1 / 2) * p1 + (-1 / 2) * pm
  · linear_combination (-1) * p0

theorem squaredNorm_eq_zero {K : Type} [LinearOrderedField K] (v : Fin 3 → K)
    (h : squaredNorm v = 0) : v 0 = 0 ∧ v 1 = 0 ∧ v 2 = 0 := by
  unfold squaredNorm at h
  have h0 := mul_self_nonneg (v 0)
  have h1 := mul_self_nonneg (v 1)
  have h2 := mul_self_nonneg (v 2)
  refine ⟨?_, ?_, ?_⟩ <;> apply mul_self_eq_zero.mp <;> linarith

/-- For a symmetric matrix and a simple root `r` of its characteristic polynomial, the
candidate selected from the rows of `A - r I` is non-zero. -/
theorem selectCross_ne_zero (ops : ScalarOps ℝ) (A : Matrix (Fin 3) (Fin 3) ℝ)
    (hA : A.IsHermitian) (r s t : ℝ)
    (hpoly : ∀ x : ℝ, (x • (1 : Matrix (Fin 3) (Fin 3) ℝ) - A).det
      = (x - r) * (x - s) * (x - t))
    (hrs : r ≠ s) (hrt : r ≠ t) : (selectCross ops (subDiagonal A r)).2.1 ≠ 0 := by
  obtain ⟨hc2, hc1, -⟩ := charCoeffs_of_roots A hA r s t hpoly
  obtain ⟨v, -, -, h2, l1, l2, l3⟩ := selectCross_spec ops (subDiagonal A r)
  rw [h2]
  intro hz
  rw [hz] at l1 l2 l3
  have z1 := squaredNorm_eq_zero _ (le_antisymm l1 (squaredNorm_nonneg _))
  have z2 := squaredNorm_eq_zero _ (le_antisymm l2 (squaredNorm_nonneg _))
  have z3 := squaredNorm_eq_zero _ (le_antisymm l3 (squaredNorm_nonneg _))
  have h10 : A 1 0 = A 0 1 := by simpa using hA.apply 0 1
  have h20 : A 2 0 = A 0 2 := by simpa using hA.apply 0 2
  have h21 : A 2 1 = A 1 2 := by simpa using hA.apply 1 2
  have e1 := z1.2.2
  have e2 := z2.2.1
  have e3 := z3.1
  simp [cross, subDiagonal] at e1 e2 e3
  have hsum : (r - s) * (r - t) = 0 := by
    have : (r - s) * (r - t) = charC1 A - 2 * r * charC2 A + 3 * r ^ 2 := by
      rw [hc1, hc2]; ring
    rw [this]
    simp only [charC1, charC2]
    rw [h10] at e1
    rw [h20] at e2
    rw [h21] at e3
    linear_combination e1 - e2 + e3
  rcases mul_eq_zero.mp hsum with h | h
  · exact hrs (sub_eq_zero.mp h)
  · exact hrt (sub_eq_zero.mp h)

theorem dot_mulVec_symm {K : Type} [LinearOrderedField K] (A : Matrix (Fin 3) (Fin 3) K)
    (h10 : A 1 0 = A 0 1) (h20 : A 2 0 = A 0 2) (h21 : A 2 1 = A 1 2) (u w : Fin 3 → K) :
    dot (A.mulVec u) w = dot u (A.mulVec w) := by
  simp only [dot, mulVec_apply3, h10, h20, h21]
  ring

theorem dot_smul_left {K : Type} [LinearOrderedField K] (r : K) (u w : Fin 3 → K) :
    dot (r • u) w = r * dot u w := by
  simp [dot]; ring

theorem dot_smul_right {K : Type} [LinearOrderedField K] (r : K) (u w : Fin 3 → K) :
    dot u (r • w) = r * dot u w := by
  simp [dot]; ring

/-- Eigenvectors of a symmetric matrix for different eigenvalues are orthogonal. -/
theorem dot_eq_zero_of_eigen {K : Type} [LinearOrderedField K] (A : Matrix (Fin 3) (Fin 3) K)
    (h10 : A 1 0 = A 0 1) (h20 : A 2 0 = A 0 2) (h21 : A 2 1 = A 1 2) (u w : Fin 3 → K)
    (r s : K) (hu : A.mulVec u = r • u) (hw : A.mulVec w = s • w) (hrs : r ≠ s) :
    dot u w = 0 := by
  have h := dot_mulVec_symm A h10 h20 h21 u w
  rw [hu, hw, dot_smul_left, dot_smul_right] at h
  have : (r - s) * dot u w = 0 := by linear_combination h
  rcases mul_eq_zero.mp this with h' | h'
  · exact absurd (sub_eq_zero.mp h') hrs
  · exact h'

end SymmetricProofs

section RotationProofs

variable {K : Type} [LinearOrderedField K]

theorem squaredNorm_cross_of_orthonormal (u w : Fin 3 → K) (hu : squaredNorm u = 1)
    (hw : squaredNorm w = 1) (huw : dot u w = 0) : squaredNorm (cross u w) = 1 := by
  rw [squaredNorm_cross, hu, hw, huw]; ring

theorem cross_ne_zero_iff (u w : Fin 3 → K) :
    cross u w ≠ 0 ↔ squaredNorm (cross u w) ≠ 0 := by
  constructor
  · intro h hz
    obtain ⟨h0, h1, h2⟩ := squaredNorm_eq_zero _ hz
    apply h
    ext i
    fin_cases i <;> simpa
  · intro h hz
    apply h
    rw [hz]
    simp [squaredNorm]

theorem cross_swap (u w : Fin 3 → K) : cross u w = -cross w u := by
  ext i
  fin_cases i <;> simp [cross] <;> ring

theorem squaredNorm_neg (v : Fin 3 → K) : squaredNorm (-v) = squaredNorm v := by
  simp [squaredNorm]

theorem vdiv_one (v : Fin 3 → K) : vdiv v 1 = v := by
  ext i
  simp [vdiv]

/-- A matrix whose columns are orthonormal with triple product `1` is a rotation. -/
theorem rotation_ofCols (a b c : Fin 3 → K) (ha : squaredNorm a = 1) (hb : squaredNorm b = 1)
    (hc : squaredNorm c = 1) (hab : dot a b = 0) (hac : dot a c = 0) (hbc : dot b c = 0)
    (htriple : dot a (cross b c) = 1) :
    (ofCols a b c).transpose * ofCols a b c = 1 ∧ (ofCols a b c).det = 1 := by
  constructor
  · ext i j
    simp only [squaredNorm, dot] at ha hb hc hab hac hbc
    fin_cases i <;> fin_cases j <;>
      simp [Matrix.mul_apply, Fin.sum_univ_three, ofCols, Matrix.transpose_apply] <;>
      first | linear_combination ha | linear_combination hb | linear_combination hc
            | linear_combination hab | linear_combination hac | linear_combination hbc
  · rw [Matrix.det_fin_three]
    simp only [dot, cross] at htriple
    simp [ofCols] at htriple ⊢
    linear_combination htriple

/-- The three cyclic placements of an orthonormal pair and its cross product. -/
theorem rotation_of_pair (u w : Fin 3 → K) (hu : squaredNorm u = 1) (hw : squaredNorm w = 1)
    (huw : dot u w = 0) :
    ((ofCols u w (cross u w)).transpose * ofCols u w (cross u w) = 1 ∧
      (ofCols u w (cross u w)).det = 1) ∧
    ((ofCols (cross u w) u w).transpose * ofCols (cross u w) u w = 1 ∧
      (ofCols (cross u w) u w).det = 1) ∧
    ((ofCols w (cross u w) u).transpose * ofCols w (cross u w) u = 1 ∧
      (ofCols w (cross u w) u).det = 1) := by
  have hx := squaredNorm_cross_of_orthonormal u w hu hw huw
  have hux : dot u (cross u w) = 0 := dot_cross_self_left u w
  have hwx : dot w (cross u w) = 0 := dot_cross_self_right u w
  have hwu : dot w u = 0 := by rw [dot_comm]; exact huw
  have hxu : dot (cross u w) u = 0 := by rw [dot_comm]; exact hux
  have hxw : dot (cross u w) w = 0 := by rw [dot_comm]; exact hwx
  have hxx : dot (cross u w) (cross u w) = 1 := hx
  refine ⟨rotation_ofCols _ _ _ hu hw hx huw hux hwx ?_,
    rotation_ofCols _ _ _ hx hu hw hxu hxw huw hxx,
    rotation_ofCols _ _ _ hw hx hu hwx hwu hxu ?_⟩
  · have : dot u (cross w (cross u w)) = dot (cross u w) (cross u w) := by
      simp [dot, cross]; ring
    rw [this, hxx]
  · have : dot w (cross (cross u w) u) = dot (cross u w) (cross u w) := by
      simp [dot, cross]; ring
    rw [this, hxx]

end RotationProofs

section NormalizedProofs

theorem normalized_of_unit (ops : ScalarOps ℝ) (hops : RealArith ops) (v : Fin 3 → ℝ)
    (hv : squaredNorm v = 1) : normalized ops v = v := by
  unfold normalized
  rw [hv, hops.1, Real.sqrt_one, vdiv_one]

theorem normalized_spec (ops : ScalarOps ℝ) (hops : RealArith ops) (v : Fin 3 → ℝ)
    (hv : squaredNorm v ≠ 0) :
    squaredNorm (normalized ops v) = 1 ∧
    ∀ u : Fin 3 → ℝ, dot v u = 0 → dot (normalized ops v) u = 0 := by
  refine ⟨squaredNorm_normalize ops hops v hv, fun u hu => ?_⟩
  unfold normalized
  rw [dot_vdiv_left, hu, zero_div]

end NormalizedProofs

section FrameProofs

theorem minMaxEl_cases {K : Type} [LinearOrderedField K] (m2 m1 m0 len3 : K) :
    minMaxEl m2 m1 m0 len3 = (1, 2) ∨ minMaxEl m2 m1 m0 len3 = (2, 1) ∨
    minMaxEl m2 m1 m0 len3 = (0, 2) ∨ minMaxEl m2 m1 m0 len3 = (0, 1) ∨
    minMaxEl m2 m1 m0 len3 = (1, 0) ∨ minMaxEl m2 m1 m0 len3 = (2, 0) := by
  unfold minMaxEl
  simp only [if_true, if_false, OfNat.ofNat_ne_one, Nat.succ_ne_self, gt_iff_lt]
  by_cases h1 : m1 ≤ m2
  · have h1' : ¬ m2 < m1 := not_lt.mpr h1
    simp only [h1, h1', if_true, if_false]
    by_cases h2 : len3 ≤ m1
    · have h2' : ¬ m2 < len3 := not_lt.mpr (h2.trans h1)
      simp [h2, h2']
    · by_cases h3 : m2 < len3
      · simp [h2, h3]
      · simp [h2, h3]
  · have h1' : m2 < m1 := not_le.mp h1
    simp only [h1, h1', if_true, if_false]
    by_cases h2 : len3 ≤ m2
    · have h2' : ¬ m1 < len3 := not_lt.mpr ((h2.trans_lt h1').le)
      simp [h2, h2']
    · by_cases h3 : m1 < len3
      · simp [h2, h3]
      · simp [h2, h3]

theorem reorthogonalize_cases {K : Type} [LinearOrderedField K] (ops : ScalarOps K)
    (a b c : Fin 3 → K) :
    reorthogonalize ops (ofCols a b c) 0 2
      = ofCols (normalized ops (cross b c))
          (normalized ops (cross c (normalized ops (cross b c)))) c ∧
    reorthogonalize ops (ofCols a b c) 0 1
      = ofCols (normalized ops (cross b c)) b
          (normalized ops (cross (normalized ops (cross b c)) b)) ∧
    reorthogonalize ops (ofCols a b c) 1 2
      = ofCols (normalized ops (cross (normalized ops (cross c a)) c))
          (normalized ops (cross c a)) c ∧
    reorthogonalize ops (ofCols a b c) 1 0
      = ofCols a (normalized ops (cross c a))
          (normalized ops (cross a (normalized ops (cross c a)))) ∧
    reorthogonalize ops (ofCols a b c) 2 1
      = ofCols (normalized ops (cross b (normalized ops (cross a b)))) b
          (normalized ops (cross a b)) ∧
    reorthogonalize ops (ofCols a b c) 2 0
      = ofCols a (normalized ops (cross (normalized ops (cross a b)) a))
          (normalized ops (cross a b)) := by
  refine ⟨?_, ?_, ?_, ?_, ?_, ?_⟩ <;>
  · ext i j
    fin_cases j <;> rfl

end FrameProofs

section RotationMain

theorem selectCross_unit (ops : ScalarOps ℝ) (hops : RealArith ops)
    (B : Matrix (Fin 3) (Fin 3) ℝ) (hne : (selectCross ops B).2.1 ≠ 0) :
    squaredNorm (selectCross ops B).1 = 1 := by
  obtain ⟨v, -, h1, h2, -, -, -⟩ := selectCross_spec ops B
  rw [h2] at hne
  rw [h1]
  exact squaredNorm_normalize ops hops v hne

/-- One re-orthogonalisation step: from a unit vector `p` and a vector `q` not parallel
to it, the normalised cross product `x` is a unit vector orthogonal to `p`, and the
cross products of `x` and `p` are already normalised. -/
theorem step_pair (ops : ScalarOps ℝ) (hops : RealArith ops) (p q X : Fin 3 → ℝ)
    (hp : squaredNorm p = 1) (hne : cross q p ≠ 0) (hX : X = cross q p ∨ X = cross p q) :
    squaredNorm (normalized ops X) = 1 ∧ dot (normalized ops X) p = 0 ∧
    dot p (normalized ops X) = 0 ∧
    normalized ops (cross (normalized ops X) p) = cross (normalized ops X) p ∧
    normalized ops (cross p (normalized ops X)) = cross p (normalized ops X) := by
  have hq : squaredNorm (cross q p) ≠ 0 := (cross_ne_zero_iff q p).mp hne
  have hXne : squaredNorm X ≠ 0 := by
    rcases hX with h | h
    · rw [h]; exact hq
    · rw [h, cross_swap, squaredNorm_neg]; exact hq
  have hXp : dot X p = 0 := by
    rcases hX with h | h
    · rw [h, dot_comm]; exact dot_cross_self_right q p
    · rw [h, dot_comm]; exact dot_cross_self_left p q
  obtain ⟨h1, h2⟩ := normalized_spec ops hops X hXne
  have h3 := h2 p hXp
  have h4 : dot p (normalized ops X) = 0 := by rw [dot_comm]; exact h3
  exact ⟨h1, h3, h4,
    normalized_of_unit ops hops _ (squaredNorm_cross_of_orthonormal _ _ h1 hp h3),
    normalized_of_unit ops hops _ (squaredNorm_cross_of_orthonormal _ _ hp h1 h4)⟩

/-- The all-distinct branch returns a rotation as soon as the candidate kept at `max_el`
is a unit vector and is not parallel to the one kept at `mid_el`. -/
theorem reorthogonalize_rotation (ops : ScalarOps ℝ) (hops : RealArith ops)
    (a b c : Fin 3 → ℝ) (ha : squaredNorm a = 1) (hb : squaredNorm b = 1)
    (hc : squaredNorm c = 1) (el : Nat × Nat)
    (hel : el = (1, 2) ∨ el = (2, 1) ∨ el = (0, 2) ∨ el = (0, 1) ∨ el = (1, 0) ∨ el = (2, 0))
    (hne : cross (getCol (ofCols a b c) (midEl el.1 el.2)) (getCol (ofCols a b c) el.2) ≠ 0) :
    (reorthogonalize ops (ofCols a b c) el.1 el.2).transpose
        * reorthogonalize ops (ofCols a b c) el.1 el.2 = 1 ∧
    (reorthogonalize ops (ofCols a b c) el.1 el.2).det = 1 := by
  obtain ⟨r02, r01, r12, r10, r21, r20⟩ := reorthogonalize_cases ops a b c
  rcases hel with h | h | h | h | h | h <;> subst h
  · -- min 1, max 2, mid 0
    have hne' : cross a c ≠ 0 := hne
    obtain ⟨h1, h2, h3, h4, h5⟩ := step_pair ops hops c a (cross c a) hc hne' (Or.inr rfl)
    show (reorthogonalize ops (ofCols a b c) 1 2).transpose * _ = 1 ∧ _
    rw [r12, h4]
    exact (rotation_of_pair _ c h1 hc h2).2.1
  · -- min 2, max 1, mid 0
    have hne' : cross a b ≠ 0 := hne
    obtain ⟨h1, h2, h3, h4, h5⟩ := step_pair ops hops b a (cross a b) hb hne' (Or.inl rfl)
    show (reorthogonalize ops (ofCols a b c) 2 1).transpose * _ = 1 ∧ _
    rw [r21, h5]
    exact (rotation_of_pair b _ hb h1 h3).2.1
  · -- min 0, max 2, mid 1
    have hne' : cross b c ≠ 0 := hne
    obtain ⟨h1, h2, h3, h4, h5⟩ := step_pair ops hops c b (cross b c) hc hne' (Or.inl rfl)
    show (reorthogonalize ops (ofCols a b c) 0 2).transpose * _ = 1 ∧ _
    rw [r02, h5]
    exact (rotation_of_pair c _ hc h1 h3).2.2
  · -- min 0, max 1, mid 2
    have hne' : cross c b ≠ 0 := hne
    obtain ⟨h1, h2, h3, h4, h5⟩ := step_pair ops hops b c (cross b c) hb hne' (Or.inr rfl)
    show (reorthogonalize ops (ofCols a b c) 0 1).transpose * _ = 1 ∧ _
    rw [r01, h4]
    exact (rotation_of_pair _ b h1 hb h2).1
  · -- min 1, max 0, mid 2
    have hne' : cross c a ≠ 0 := hne
    obtain ⟨h1, h2, h3, h4, h5⟩ := step_pair ops hops a c (cross c a) ha hne' (Or.inl rfl)
    show (reorthogonalize ops (ofCols a b c) 1 0).transpose * _ = 1 ∧ _
    rw [r10, h5]
    exact (rotation_of_pair a _ ha h1 h3).1
  · -- min 2, max 0, mid 1
    have hne' : cross b a ≠ 0 := hne
    obtain ⟨h1, h2, h3, h4, h5⟩ := step_pair ops hops a b (cross a b) ha hne' (Or.inr rfl)
    show (reorthogonalize ops (ofCols a b c) 2 0).transpose * _ = 1 ∧ _
    rw [r20, h4]
    exact (rotation_of_pair _ a h1 ha h2).2.2

/-- C8: in exact real arithmetic, for every 3x3 matrix (symmetric or not), whenever every
cross-product candidate that `eigen33 (mat, evecs, evals)` selects is non-zero and, in
the all-distinct branch, the candidates kept for the slots `max_el` and `mid_el` are not
parallel, the returned eigenvector matrix `V` is a proper rotation, `Vᵀ V = 1` and
`det V = 1`, in each of the four branches; `unitOrthogonal` is any function returning a
unit vector orthogonal to its unit argument. -/
theorem eigen33_rotation (ops : ScalarOps ℝ) (hops : RealArith ops)
    (unitOrthogonal : (Fin 3 → ℝ) → (Fin 3 → ℝ)) (huo : UnitOrthogonalSpec unitOrthogonal)
    (mat : Matrix (Fin 3) (Fin 3) ℝ) (hnd : CandidatesNonDegenerate ops mat) :
    (eigen33 ops unitOrthogonal mat).1.transpose * (eigen33 ops unitOrthogonal mat).1 = 1 ∧
    (eigen33 ops unitOrthogonal mat).1.det = 1 := by
  unfold CandidatesNonDegenerate at hnd
  unfold eigen33
  dsimp only at hnd ⊢
  split_ifs at hnd ⊢ with h1 h2 h3
  · simp
  · have hu := selectCross_unit ops hops _ hnd
    obtain ⟨hw, hwu⟩ := huo _ hu
    exact (rotation_of_pair _ _ hw hu hwu).2.1
  · have hu := selectCross_unit ops hops _ hnd
    obtain ⟨hw, hwu⟩ := huo _ hu
    exact (rotation_of_pair _ _ hu hw (by rw [dot_comm]; exact hwu)).1
  · obtain ⟨n2, n1, n0, hne⟩ := hnd
    exact reorthogonalize_rotation ops hops _ _ _ (selectCross_unit ops hops _ n0)
      (selectCross_unit ops hops _ n1) (selectCross_unit ops hops _ n2) _
      (minMaxEl_cases _ _ _ _) hne

end RotationMain

section EigenTripleProofs

/-- In a symmetric 3x3 problem, the cross product of two orthonormal vectors that are
both orthogonal to a unit eigenvector `a` is again an eigenvector for the eigenvalue
of `a`. -/
theorem cross_eigen (ops : ScalarOps ℝ) (hops : RealArith ops) (A : Matrix (Fin 3) (Fin 3) ℝ)
    (r : ℝ) (a b c : Fin 3 → ℝ) (hA : A.mulVec a = r • a) (ha : squaredNorm a = 1)
    (hb : squaredNorm b = 1) (hc : squaredNorm c = 1) (hab : dot a b = 0) (hac : dot a c = 0)
    (hbc : dot b c = 0) :
    A.mulVec (normalized ops (cross b c)) = r • normalized ops (cross b c) ∧
    squaredNorm (normalized ops (cross b c)) = 1 ∧
    dot (normalized ops (cross b c)) b = 0 ∧ dot (normalized ops (cross b c)) c = 0 ∧
    dot b (normalized ops (cross b c)) = 0 ∧ dot c (normalized ops (cross b c)) = 0 := by
  have hz1 := squaredNorm_cross_of_orthonormal b c hb hc hbc
  rw [normalized_of_unit ops hops _ hz1]
  have hzb : dot b (cross b c) = 0 := dot_cross_self_left b c
  have hzc : dot c (cross b c) = 0 := dot_cross_self_right b c
  refine ⟨?_, hz1, by rw [dot_comm]; exact hzb, by rw [dot_comm]; exact hzc, hzb, hzc⟩
  have hz : cross b c = dot a (cross b c) • a := by
    simp only [squaredNorm, dot] at ha hab hac
    ext i
    fin_cases i
    · simp [cross, dot]
      linear_combination (-(b 1 * c 2 - b 2 * c 1)) * ha
        + (-(a 1) * b 2 + a 2 * b 1) * hac + (a 1 * c 2 - a 2 * c 1) * hab
    · simp [cross, dot]
      linear_combination (-(b 2 * c 0 - b 0 * c 2)) * ha
        + (-(a 2) * b 0 + a 0 * b 2) * hac + (a 2 * c 0 - a 0 * c 2) * hab
    · simp [cross, dot]
      linear_combination (-(b 0 * c 1 - b 1 * c 0)) * ha
        + (-(a 0) * b 1 + a 1 * b 0) * hac + (a 0 * c 1 - a 1 * c 0) * hab
  rw [hz, Matrix.mulVec_smul, hA, smul_comm]

end EigenTripleProofs

section EigenTripleSteps

theorem isEigenTriple_step0 (ops : ScalarOps ℝ) (hops : RealArith ops)
    (A : Matrix (Fin 3) (Fin 3) ℝ) (r0 r1 r2 : ℝ) (a b c : Fin 3 → ℝ)
    (h : IsEigenTriple A r0 r1 r2 a b c) :
    IsEigenTriple A r0 r1 r2 (normalized ops (cross b c)) b c := by
  obtain ⟨⟨ea, eb, ec⟩, ⟨na, nb, nc⟩, ⟨oab, oac, obc⟩⟩ := h
  obtain ⟨k1, k2, k3, k4, -, -⟩ := cross_eigen ops hops A r0 a b c ea na nb nc oab oac obc
  exact ⟨⟨k1, eb, ec⟩, ⟨k2, nb, nc⟩, ⟨k3, k4, obc⟩⟩

theorem isEigenTriple_step1 (ops : ScalarOps ℝ) (hops : RealArith ops)
    (A : Matrix (Fin 3) (Fin 3) ℝ) (r0 r1 r2 : ℝ) (a b c : Fin 3 → ℝ)
    (h : IsEigenTriple A r0 r1 r2 a b c) :
    IsEigenTriple A r0 r1 r2 a (normalized ops (cross c a)) c := by
  obtain ⟨⟨ea, eb, ec⟩, ⟨na, nb, nc⟩, ⟨oab, oac, obc⟩⟩ := h
  obtain ⟨k1, k2, k3, k4, k5, k6⟩ := cross_eigen ops hops A r1 b c a eb nb nc na obc
    (by rw [dot_comm]; exact oab) (by rw [dot_comm]; exact oac)
  exact ⟨⟨ea, k1, ec⟩, ⟨na, k2, nc⟩, ⟨k6, oac, k3⟩⟩

theorem isEigenTriple_step2 (ops : ScalarOps ℝ) (hops : RealArith ops)
    (A : Matrix (Fin 3) (Fin 3) ℝ) (r0 r1 r2 : ℝ) (a b c : Fin 3 → ℝ)
    (h : IsEigenTriple A r0 r1 r2 a b c) :
    IsEigenTriple A r0 r1 r2 a b (normalized ops (cross a b)) := by
  obtain ⟨⟨ea, eb, ec⟩, ⟨na, nb, nc⟩, ⟨oab, oac, obc⟩⟩ := h
  obtain ⟨k1, k2, k3, k4, k5, k6⟩ := cross_eigen ops hops A r2 c a b ec nc na nb
    (by rw [dot_comm]; exact oac) (by rw [dot_comm]; exact obc) oab
  exact ⟨⟨ea, eb, k1⟩, ⟨na, nb, k2⟩, ⟨oab, k5, k6⟩⟩

/-- The end of the all-distinct branch keeps an orthonormal eigenbasis an orthonormal
eigenbasis, whichever slots `min_el` and `max_el` designate. -/
theorem reorthogonalize_eigenTriple (ops : ScalarOps ℝ) (hops : RealArith ops)
    (A : Matrix (Fin 3) (Fin 3) ℝ) (r0 r1 r2 : ℝ) (a b c : Fin 3 → ℝ)
    (h : IsEigenTriple A r0 r1 r2 a b c) (el : Nat × Nat)
    (hel : el = (1, 2) ∨ el = (2, 1) ∨ el = (0, 2) ∨ el = (0, 1) ∨ el = (1, 0) ∨
      el = (2, 0)) :
    ∃ a' b' c' : Fin 3 → ℝ, reorthogonalize ops (ofCols a b c) el.1 el.2 = ofCols a' b' c' ∧
      IsEigenTriple A r0 r1 r2 a' b' c' := by
  obtain ⟨r02, r01, r12, r10, r21, r20⟩ := reorthogonalize_cases ops a b c
  rcases hel with e | e | e | e | e | e <;> subst e
  · exact ⟨_, _, _, r12, isEigenTriple_step0 ops hops A r0 r1 r2 _ _ _
      (isEigenTriple_step1 ops hops A r0 r1 r2 _ _ _ h)⟩
  · exact ⟨_, _, _, r21, isEigenTriple_step0 ops hops A r0 r1 r2 _ _ _
      (isEigenTriple_step2 ops hops A r0 r1 r2 _ _ _ h)⟩
  · exact ⟨_, _, _, r02, isEigenTriple_step1 ops hops A r0 r1 r2 _ _ _
      (isEigenTriple_step0 ops hops A r0 r1 r2 _ _ _ h)⟩
  · exact ⟨_, _, _, r01, isEigenTriple_step2 ops hops A r0 r1 r2 _ _ _
      (isEigenTriple_step0 ops hops A r0 r1 r2 _ _ _ h)⟩
  · exact ⟨_, _, _, r10, isEigenTriple_step2 ops hops A r0 r1 r2 _ _ _
      (isEigenTriple_step1 ops hops A r0 r1 r2 _ _ _ h)⟩
  · exact ⟨_, _, _, r20, isEigenTriple_step1 ops hops A r0 r1 r2 _ _ _
      (isEigenTriple_step2 ops hops A r0 r1 r2 _ _ _ h)⟩

/-- Two ascending triples with the same monic cubic are equal. -/
theorem sorted_roots_unique (a b c a' b' c' : ℝ) (hab : a ≤ b) (hbc : b ≤ c)
    (hab' : a' ≤ b') (hbc' : b' ≤ c')
    (h : ∀ x : ℝ, (x - a) * (x - b) * (x - c) = (x - a') * (x - b') * (x - c')) :
    a = a' ∧ b = b' ∧ c = c' := by
  have mem : ∀ {x p q s : ℝ}, (x - p) * (x - q) * (x - s) = 0 → x = p ∨ x = q ∨ x = s := by
    intro x p q s hx
    rcases mul_eq_zero.mp hx with h1 | h1
    · rcases mul_eq_zero.mp h1 with h2 | h2
      · exact Or.inl (sub_eq_zero.mp h2)
      · exact Or.inr (Or.inl (sub_eq_zero.mp h2))
    · exact Or.inr (Or.inr (sub_eq_zero.mp h1))
  have ha : a = a' ∨ a = b' ∨ a = c' := mem (by rw [← h a]; simp)
  have ha' : a' = a ∨ a' = b ∨ a' = c := mem (by rw [h a']; simp)
  have hc : c = a' ∨ c = b' ∨ c = c' := mem (by rw [← h c]; simp)
  have hc' : c' = a ∨ c' = b ∨ c' = c := mem (by rw [h c']; simp)
  have e1 : a = a' := by
    apply le_antisymm
    · rcases ha' with e | e | e <;> linarith
    · rcases ha with e | e | e <;> linarith
  have e3 : c = c' := by
    apply le_antisymm
    · rcases hc with e | e | e <;> linarith
    · rcases hc' with e | e | e <;> linarith
  have h1 := h 0
  have h2 := h 1
  have h3 := h (-1)
  refine ⟨e1, ?_, e3⟩
  subst e1 e3
  linear_combination (-1 / 2) * h2 + (-1 / 2) * h3 + h1

end EigenTripleSteps

section DistinctProofs

theorem getCol_ofCols {K : Type} [LinearOrderedField K] (a b c : Fin 3 → K) :
    getCol (ofCols a b c) 0 = a ∧ getCol (ofCols a b c) 1 = b ∧ getCol (ofCols a b c) 2 = c :=
  ⟨rfl, rfl, rfl⟩

/-- In an orthonormal triple the vectors kept at `mid_el` and `max_el` are not
parallel. -/
theorem kept_not_parallel {K : Type} [LinearOrderedField K] (a b c : Fin 3 → K)
    (ha : squaredNorm a = 1) (hb : squaredNorm b = 1) (hc : squaredNorm c = 1)
    (hab : dot a b = 0) (hac : dot a c = 0) (hbc : dot b c = 0) (el : Nat × Nat)
    (hel : el = (1, 2) ∨ el = (2, 1) ∨ el = (0, 2) ∨ el = (0, 1) ∨ el = (1, 0) ∨
      el = (2, 0)) :
    cross (getCol (ofCols a b c) (midEl el.1 el.2)) (getCol (ofCols a b c) el.2) ≠ 0 := by
  have hba : dot b a = 0 := by rw [dot_comm]; exact hab
  have hca : dot c a = 0 := by rw [dot_comm]; exact hac
  have hcb : dot c b = 0 := by rw [dot_comm]; exact hbc
  have key : ∀ u w : Fin 3 → K, squaredNorm u = 1 → squaredNorm w = 1 → dot u w = 0 →
      cross u w ≠ 0 := fun u w hu hw huw =>
    (cross_ne_zero_iff u w).mpr (by
      rw [squaredNorm_cross_of_orthonormal u w hu hw huw]; exact one_ne_zero)
  rcases hel with e | e | e | e | e | e <;> subst e
  · exact key a c ha hc hac
  · exact key a b ha hb hab
  · exact key b c hb hc hbc
  · exact key c b hc hb hcb
  · exact key c a hc ha hca
  · exact key b a hb ha hba

/-- The all-distinct branch on a matrix whose scaled version is positive semi-definite
with determinant at least epsilon and eigenvalues more than epsilon apart: the call
returns an orthonormal eigenbasis of the scaled matrix and its eigenvalues times the
scale, and every candidate it selects is non-degenerate. -/
theorem eigen33_distinct (ops : ScalarOps ℝ) (hops : RealArith ops)
    (unitOrthogonal : (Fin 3 → ℝ) → (Fin 3 → ℝ)) (mat : Matrix (Fin 3) (Fin 3) ℝ)
    (hM : mat.PosSemidef) (l0 l1 l2 : ℝ)
    (hchar : ∀ x : ℝ, (x • (1 : Matrix (Fin 3) (Fin 3) ℝ)
        - divScalar mat (eigenScale ops mat)).det = (x - l0) * (x - l1) * (x - l2))
    (hdet : ops.epsilon ≤ (divScalar mat (eigenScale ops mat)).det)
    (h01 : l0 + ops.epsilon < l1) (h12 : l1 + ops.epsilon < l2) :
    (∃ a b c : Fin 3 → ℝ, (eigen33 ops unitOrthogonal mat).1 = ofCols a b c ∧
      IsEigenTriple (divScalar mat (eigenScale ops mat)) l0 l1 l2 a b c) ∧
    (eigen33 ops unitOrthogonal mat).2
      = ![l0 * eigenScale ops mat, l1 * eigenScale ops mat, l2 * eigenScale ops mat] ∧
    CandidatesNonDegenerate ops mat := by
  have heps : 0 < ops.epsilon := hops.2.2.2.2.1
  have hs : 0 < eigenScale ops mat := eigenScale_pos ops hops.2.2.2.2.2.2.1 mat
  have hA : (divScalar mat (eigenScale ops mat)).PosSemidef :=
    posSemidef_divScalar mat hM _ hs
  obtain ⟨s1, s2, s3⟩ := computeRoots_exact ops hops _ hA (Or.inr hdet)
  obtain ⟨e0, e1, e2⟩ := sorted_roots_unique _ _ _ l0 l1 l2 s1 s2 (by linarith) (by linarith)
    (fun x => (s3 x).trans (hchar x))
  have h10 : divScalar mat (eigenScale ops mat) 1 0 = divScalar mat (eigenScale ops mat) 0 1 := by
    simpa using hA.1.apply 0 1
  have h20 : divScalar mat (eigenScale ops mat) 2 0 = divScalar mat (eigenScale ops mat) 0 2 := by
    simpa using hA.1.apply 0 2
  have h21 : divScalar mat (eigenScale ops mat) 2 1 = divScalar mat (eigenScale ops mat) 1 2 := by
    simpa using hA.1.apply 1 2
  -- the three candidates
  have hne0 : (selectCross ops (subDiagonal (divScalar mat (eigenScale ops mat)) l0)).2.1 ≠ 0 :=
    selectCross_ne_zero ops _ hA.1 l0 l1 l2 hchar (by linarith) (by linarith)
  have hne1 : (selectCross ops (subDiagonal (divScalar mat (eigenScale ops mat)) l1)).2.1 ≠ 0 :=
    selectCross_ne_zero ops _ hA.1 l1 l0 l2 (fun x => by rw [hchar x]; ring) (by linarith)
      (by linarith)
  have hne2 : (selectCross ops (subDiagonal (divScalar mat (eigenScale ops mat)) l2)).2.1 ≠ 0 :=
    selectCross_ne_zero ops _ hA.1 l2 l0 l1 (fun x => by rw [hchar x]; ring) (by linarith)
      (by linarith)
  have hker : ∀ l : ℝ, (l - l0) * (l - l1) * (l - l2) = 0 →
      (selectCross ops (subDiagonal (divScalar mat (eigenScale ops mat)) l)).2.1 ≠ 0 →
      squaredNorm (selectCross ops (subDiagonal (divScalar mat (eigenScale ops mat)) l)).1 = 1 ∧
      (divScalar mat (eigenScale ops mat)).mulVec
          (selectCross ops (subDiagonal (divScalar mat (eigenScale ops mat)) l)).1
        = l • (selectCross ops (subDiagonal (divScalar mat (eigenScale ops mat)) l)).1 := by
    intro l hl hne
    have hd : (subDiagonal (divScalar mat (eigenScale ops mat)) l).det = 0 := by
      rw [det_subDiagonal, hchar l, hl, neg_zero]
    obtain ⟨k1, k2⟩ := selectCross_kernel ops hops _ hd hne
    rw [subDiagonal_mulVec] at k2
    exact ⟨k1, sub_eq_zero.mp k2⟩
  obtain ⟨n0, v0⟩ := hker l0 (by ring) hne0
  obtain ⟨n1, v1⟩ := hker l1 (by ring) hne1
  obtain ⟨n2, v2⟩ := hker l2 (by ring) hne2
  have o01 := dot_eq_zero_of_eigen _ h10 h20 h21 _ _ l0 l1 v0 v1 (by linarith)
  have o02 := dot_eq_zero_of_eigen _ h10 h20 h21 _ _ l0 l2 v0 v2 (by linarith)
  have o12 := dot_eq_zero_of_eigen _ h10 h20 h21 _ _ l1 l2 v1 v2 (by linarith)
  have htriple : IsEigenTriple (divScalar mat (eigenScale ops mat)) l0 l1 l2
      (selectCross ops (subDiagonal (divScalar mat (eigenScale ops mat)) l0)).1
      (selectCross ops (subDiagonal (divScalar mat (eigenScale ops mat)) l1)).1
      (selectCross ops (subDiagonal (divScalar mat (eigenScale ops mat)) l2)).1 :=
    ⟨⟨v0, v1, v2⟩, ⟨n0, n1, n2⟩, ⟨o01, o02, o12⟩⟩
  have c1 : ¬ l2 - l0 ≤ ops.epsilon := by linarith
  have c2 : ¬ l1 - l0 ≤ ops.epsilon := by linarith
  have c3 : ¬ l2 - l1 ≤ ops.epsilon := by linarith
  refine ⟨?_, ?_, ?_⟩
  · unfold eigen33
    dsimp only
    rw [e0, e1, e2, if_neg c1, if_neg c2, if_neg c3]
    exact reorthogonalize_eigenTriple ops hops _ l0 l1 l2 _ _ _ htriple _
      (minMaxEl_cases _ _ _ _)
  · ext i
    fin_cases i
    · show computeRoots ops (divScalar mat (eigenScale ops mat)) 0 * eigenScale ops mat = _
      rw [e0]; rfl
    · show computeRoots ops (divScalar mat (eigenScale ops mat)) 1 * eigenScale ops mat = _
      rw [e1]; rfl
    · show computeRoots ops (divScalar mat (eigenScale ops mat)) 2 * eigenScale ops mat = _
      rw [e2]; rfl
  · unfold CandidatesNonDegenerate
    dsimp only
    rw [e0, e1, e2, if_neg c1, if_neg c2, if_neg c3]
    exact ⟨hne2, hne1, hne0, kept_not_parallel _ _ _ n0 n1 n2 o01 o02 o12 _
      (minMaxEl_cases _ _ _ _)⟩

end DistinctProofs

section EigenpairProofs

theorem eigenScale_eq {K : Type} [LinearOrderedField K] (ops : ScalarOps K)
    (mat : Matrix (Fin 3) (Fin 3) K) (h : ops.numericMin < maxAbsCoeff mat) :
    eigenScale ops mat = maxAbsCoeff mat := by
  unfold eigenScale
  exact if_neg (not_le.mpr h)

theorem mulVec_of_divScalar {K : Type} [LinearOrderedField K] (mat : Matrix (Fin 3) (Fin 3) K)
    (s : K) (hs : s ≠ 0) (v : Fin 3 → K) :
    mat.mulVec v = s • (divScalar mat s).mulVec v := by
  rw [divScalar_eq_smul, Matrix.smul_mulVec_assoc, smul_smul, mul_inv_cancel₀ hs, one_smul]

/-- The all-distinct case with the scale written as `max |M_ij|`. -/
theorem eigen33_distinct_max (ops : ScalarOps ℝ) (hops : RealArith ops)
    (unitOrthogonal : (Fin 3 → ℝ) → (Fin 3 → ℝ)) (mat : Matrix (Fin 3) (Fin 3) ℝ)
    (hM : mat.PosSemidef) (hscale : ops.numericMin < maxAbsCoeff mat) (l0 l1 l2 : ℝ)
    (hchar : ∀ x : ℝ, (x • (1 : Matrix (Fin 3) (Fin 3) ℝ)
        - divScalar mat (maxAbsCoeff mat)).det = (x - l0) * (x - l1) * (x - l2))
    (hdet : ops.epsilon ≤ (divScalar mat (maxAbsCoeff mat)).det)
    (h01 : l0 + ops.epsilon < l1) (h12 : l1 + ops.epsilon < l2) :
    (∀ i : Fin 3,
      mat.mulVec (fun k => (eigen33 ops unitOrthogonal mat).1 k i)
        = (eigen33 ops unitOrthogonal mat).2 i • (fun k => (eigen33 ops unitOrthogonal mat).1 k i) ∧
      squaredNorm (fun k => (eigen33 ops unitOrthogonal mat).1 k i) = 1) ∧
    CandidatesNonDegenerate ops mat := by
  have hsc := eigenScale_eq ops mat hscale
  rw [← hsc] at hchar hdet
  have hs : 0 < eigenScale ops mat := eigenScale_pos ops hops.2.2.2.2.2.2.1 mat
  obtain ⟨⟨a, b, c, hV, ⟨ea, eb, ec⟩, ⟨na, nb, nc⟩, -⟩, hvals, hnd⟩ :=
    eigen33_distinct ops hops unitOrthogonal mat hM l0 l1 l2 hchar hdet h01 h12
  refine ⟨fun i => ?_, hnd⟩
  rw [hV, hvals]
  have hmul : ∀ (v : Fin 3 → ℝ) (l : ℝ),
      (divScalar mat (eigenScale ops mat)).mulVec v = l • v →
      mat.mulVec v = (l * eigenScale ops mat) • v := fun v l hv => by
    rw [mulVec_of_divScalar mat _ hs.ne', hv, smul_smul, mul_comm]
  fin_cases i
  · exact ⟨hmul a l0 ea, na⟩
  · exact ⟨hmul b l1 eb, nb⟩
  · exact ⟨hmul c l2 ec, nc⟩

/-- C7, as amended: in exact real arithmetic, for every symmetric positive-definite 3x3
matrix `M` whose largest entry magnitude `s = max |M_ij|` is above
`numeric_limits<Scalar>::min ()`, such that `det (M / s)` is at least machine epsilon and
the eigenvalues `l0 < l1 < l2` of `M / s` are pairwise more than machine epsilon apart,
`eigen33 (mat, evecs, evals)` returns `evals` and `evecs` with
`M * evecs.col (i) = evals (i) * evecs.col (i)` for `i = 0, 1, 2`, each column being a
unit vector. -/
theorem eigen33_eigenpairs (ops : ScalarOps ℝ) (hops : RealArith ops)
    (unitOrthogonal : (Fin 3 → ℝ) → (Fin 3 → ℝ)) (mat : Matrix (Fin 3) (Fin 3) ℝ)
    (hM : mat.PosDef) (hscale : ops.numericMin < maxAbsCoeff mat) (l0 l1 l2 : ℝ)
    (hchar : ∀ x : ℝ, (x • (1 : Matrix (Fin 3) (Fin 3) ℝ)
        - divScalar mat (maxAbsCoeff mat)).det = (x - l0) * (x - l1) * (x - l2))
    (hdet : ops.epsilon ≤ (divScalar mat (maxAbsCoeff mat)).det)
    (h01 : l0 + ops.epsilon < l1) (h12 : l1 + ops.epsilon < l2) :
    ∀ i : Fin 3,
      mat.mulVec (fun k => (eigen33 ops unitOrthogonal mat).1 k i)
        = (eigen33 ops unitOrthogonal mat).2 i • (fun k => (eigen33 ops unitOrthogonal mat).1 k i) ∧
      squaredNorm (fun k => (eigen33 ops unitOrthogonal mat).1 k i) = 1 :=
  (eigen33_distinct_max ops hops unitOrthogonal mat hM.posSemidef hscale l0 l1 l2 hchar hdet
    h01 h12).1

end EigenpairProofs

/-! ## Concrete inputs -/

section ModelProofs

/-- Eigen's choice of an orthogonal vector meets the contract of `unitOrthogonal`. -/
theorem eigenUnitOrthogonal_spec (ops : ScalarOps ℝ) (hops : RealArith ops) (prec : ℝ)
    (hprec : 0 ≤ prec) : UnitOrthogonalSpec (eigenUnitOrthogonal ops prec) := by
  intro u hu
  have hsq : ∀ p q : ℝ, p * p + q * q ≠ 0 →
      Real.sqrt (p * p + q * q) * Real.sqrt (p * p + q * q) = p * p + q * q ∧
      Real.sqrt (p * p + q * q) ≠ 0 := by
    intro p q hpq
    have hnn : 0 ≤ p * p + q * q := add_nonneg (mul_self_nonneg p) (mul_self_nonneg q)
    refine ⟨Real.mul_self_sqrt hnn, ?_⟩
    intro h0
    rw [Real.sqrt_eq_zero hnn] at h0
    exact hpq h0
  unfold eigenUnitOrthogonal
  rw [hops.1]
  split_ifs with h
  · have hxy : u 0 * u 0 + u 1 * u 1 ≠ 0 := by
      intro h0
      have hx : u 0 = 0 := by
        have := mul_self_nonneg (u 0); have := mul_self_nonneg (u 1)
        exact mul_self_eq_zero.mp (by linarith)
      have hy : u 1 = 0 := by
        have := mul_self_nonneg (u 0); have := mul_self_nonneg (u 1)
        exact mul_self_eq_zero.mp (by linarith)
      have hz : 0 ≤ |u 2| * prec := mul_nonneg (abs_nonneg _) hprec
      rcases h with h | h
      · exact h (by rw [hx, abs_zero]; exact hz)
      · exact h (by rw [hy, abs_zero]; exact hz)
    obtain ⟨s1, s2⟩ := hsq _ _ hxy
    constructor
    · simp only [squaredNorm, Matrix.cons_val_zero, Matrix.cons_val_one, Matrix.cons_val_two,
        Matrix.head_cons, Matrix.tail_cons]
      field_simp
      rw [s1]; ring
    · simp only [dot, Matrix.cons_val_zero, Matrix.cons_val_one, Matrix.cons_val_two,
        Matrix.head_cons, Matrix.tail_cons]
      field_simp
      ring
  · push_neg at h
    have hyz : u 1 * u 1 + u 2 * u 2 ≠ 0 := by
      intro h0
      have hy : u 1 = 0 := by
        have := mul_self_nonneg (u 1); have := mul_self_nonneg (u 2)
        exact mul_self_eq_zero.mp (by linarith)
      have hz : u 2 = 0 := by
        have := mul_self_nonneg (u 1); have := mul_self_nonneg (u 2)
        exact mul_self_eq_zero.mp (by linarith)
      have hx : u 0 = 0 := by
        have := h.1
        rw [hz, abs_zero, zero_mul] at this
        exact abs_eq_zero.mp (le_antisymm this (abs_nonneg _))
      unfold squaredNorm at hu
      rw [hx, hy, hz] at hu
      norm_num at hu
    obtain ⟨s1, s2⟩ := hsq _ _ hyz
    constructor
    · simp only [squaredNorm, Matrix.cons_val_zero, Matrix.cons_val_one, Matrix.cons_val_two,
        Matrix.head_cons, Matrix.tail_cons]
      field_simp
      rw [s1]; ring
    · simp only [dot, Matrix.cons_val_zero, Matrix.cons_val_one, Matrix.cons_val_two,
        Matrix.head_cons, Matrix.tail_cons]
      field_simp
      ring

end ModelProofs

section Diag123

theorem posDef_diag123 : (Matrix.diagonal ![1, 2, 3] : Matrix (Fin 3) (Fin 3) ℝ).PosDef :=
  Matrix.PosDef.diagonal (fun i => by fin_cases i <;> simp)

theorem maxAbsCoeff_diag123 :
    maxAbsCoeff (Matrix.diagonal ![1, 2, 3] : Matrix (Fin 3) (Fin 3) ℝ) = 3 := by
  simp [maxAbsCoeff, Matrix.diagonal]
  norm_num

theorem divScalar_diag123 :
    divScalar (Matrix.diagonal ![1, 2, 3] : Matrix (Fin 3) (Fin 3) ℝ)
        (maxAbsCoeff (Matrix.diagonal ![1, 2, 3] : Matrix (Fin 3) (Fin 3) ℝ))
      = Matrix.diagonal ![1 / 3, 2 / 3, 1] := by
  rw [maxAbsCoeff_diag123]
  ext i j
  fin_cases i <;> fin_cases j <;> simp [divScalar, Matrix.diagonal]

theorem char_diag123 (x : ℝ) :
    (x • (1 : Matrix (Fin 3) (Fin 3) ℝ)
        - divScalar (Matrix.diagonal ![1, 2, 3] : Matrix (Fin 3) (Fin 3) ℝ)
            (maxAbsCoeff (Matrix.diagonal ![1, 2, 3] : Matrix (Fin 3) (Fin 3) ℝ))).det
      = (x - 1 / 3) * (x - 2 / 3) * (x - 1) := by
  rw [divScalar_diag123, Matrix.det_fin_three]
  simp [Matrix.diagonal]

theorem det_diag123 :
    (1 / 2 ^ 23 : ℝ) ≤
      (divScalar (Matrix.diagonal ![1, 2, 3] : Matrix (Fin 3) (Fin 3) ℝ)
        (maxAbsCoeff (Matrix.diagonal ![1, 2, 3] : Matrix (Fin 3) (Fin 3) ℝ))).det := by
  rw [divScalar_diag123, Matrix.det_diagonal, Fin.prod_univ_three]
  norm_num

end Diag123

section TinyProofs

/-- Below the rescaling threshold: when `max |M_ij| ≤ numeric_limits<Scalar>::min ()` the
matrix is not rescaled; if moreover `|c0|` is below epsilon, the discriminant of the
quadratic branch is negative and `c2 / 2` is at most epsilon, the call returns the
identity as `evecs` and `0` as first eigenvalue. -/
theorem eigen33_tiny (ops : ScalarOps ℝ) (hops : RealArith ops)
    (unitOrthogonal : (Fin 3 → ℝ) → (Fin 3 → ℝ)) (mat : Matrix (Fin 3) (Fin 3) ℝ)
    (hsmall : maxAbsCoeff mat ≤ ops.numericMin) (h0 : |charC0 mat| < ops.epsilon)
    (hd : charC2 mat * charC2 mat - 4 * charC1 mat < 0)
    (h2 : 1 / 2 * charC2 mat ≤ ops.epsilon) :
    (eigen33 ops unitOrthogonal mat).1 = 1 ∧ (eigen33 ops unitOrthogonal mat).2 0 = 0 := by
  have hscale : eigenScale ops mat = 1 := by
    unfold eigenScale
    exact if_pos hsmall
  have hscaled : divScalar mat 1 = mat := by
    rw [divScalar_eq_smul, inv_one, one_smul]
  have hroots : computeRoots ops mat = ![0, 1 / 2 * charC2 mat, 1 / 2 * charC2 mat] := by
    rw [computeRoots_eq, if_pos h0]
    unfold computeRoots2
    simp only [if_pos hd, hops.1, Real.sqrt_zero, sub_zero, add_zero]
  unfold eigen33
  simp only [hscale, hscaled, hroots]
  constructor
  · rw [if_pos (by simpa using h2)]
  · simp

theorem posDef_tiny :
    (Matrix.diagonal ![1 / 2 ^ 128, 2 / 2 ^ 128, 3 / 2 ^ 128] :
      Matrix (Fin 3) (Fin 3) ℝ).PosDef :=
  Matrix.PosDef.diagonal (fun i => by fin_cases i <;> simp)

theorem maxAbsCoeff_diagonal {K : Type} [LinearOrderedField K] (a b c : K) (ha : 0 ≤ a)
    (hab : a ≤ b) (hbc : b ≤ c) :
    maxAbsCoeff (Matrix.diagonal ![a, b, c] : Matrix (Fin 3) (Fin 3) K) = c := by
  have hb := ha.trans hab
  have hc := hb.trans hbc
  have e : maxAbsCoeff (Matrix.diagonal ![a, b, c] : Matrix (Fin 3) (Fin 3) K)
      = max |a| (max |0| (max |0| (max |0| (max |b| (max |0| (max |0| (max |0| |c|))))))) := by
    simp [maxAbsCoeff, Matrix.diagonal]
  rw [e, abs_zero, abs_of_nonneg ha, abs_of_nonneg hb, abs_of_nonneg hc]
  simp only [max_eq_right hc, max_eq_right hbc, max_eq_right (hab.trans hbc)]

theorem maxAbsCoeff_tiny :
    maxAbsCoeff (Matrix.diagonal ![1 / 2 ^ 128, 2 / 2 ^ 128, 3 / 2 ^ 128] :
      Matrix (Fin 3) (Fin 3) ℝ) = 3 / 2 ^ 128 :=
  maxAbsCoeff_diagonal _ _ _ (by positivity) (by norm_num) (by norm_num)

theorem divScalar_tiny :
    divScalar (Matrix.diagonal ![1 / 2 ^ 128, 2 / 2 ^ 128, 3 / 2 ^ 128] :
        Matrix (Fin 3) (Fin 3) ℝ)
      (maxAbsCoeff (Matrix.diagonal ![1 / 2 ^ 128, 2 / 2 ^ 128, 3 / 2 ^ 128] :
        Matrix (Fin 3) (Fin 3) ℝ))
      = Matrix.diagonal ![1 / 3, 2 / 3, 1] := by
  rw [maxAbsCoeff_tiny]
  ext i j
  fin_cases i <;> fin_cases j <;> simp [divScalar, Matrix.diagonal] <;> norm_num

end TinyProofs

section Witnesses

theorem scale_diag123 : (1 / 2 ^ 126 : ℝ) < maxAbsCoeff (Matrix.diagonal ![1, 2, 3] : Matrix (Fin 3) (Fin 3) ℝ) := by
  rw [maxAbsCoeff_diag123]
  norm_num

/-- Witness for C7 as amended: `diag (1, 2, 3)` in single precision. -/
theorem eigen33_eigenpairs_witness :
    RealArith (⟨Real.sqrt, fun y x => Complex.arg ⟨x, y⟩, Real.cos, Real.sin, 1 / 2 ^ 23, 1 / 2 ^ 126⟩ :
        ScalarOps ℝ) ∧
    (Matrix.diagonal ![1, 2, 3] : Matrix (Fin 3) (Fin 3) ℝ).PosDef ∧
    (1 / 2 ^ 126 : ℝ) < maxAbsCoeff (Matrix.diagonal ![1, 2, 3] : Matrix (Fin 3) (Fin 3) ℝ) ∧
    (∀ x : ℝ, (x • (1 : Matrix (Fin 3) (Fin 3) ℝ)
        - divScalar (Matrix.diagonal ![1, 2, 3] : Matrix (Fin 3) (Fin 3) ℝ) (maxAbsCoeff (Matrix.diagonal ![1, 2, 3] : Matrix (Fin 3) (Fin 3) ℝ))).det = (x - 1 / 3) * (x - 2 / 3) * (x - 1)) ∧
    (1 / 2 ^ 23 : ℝ) ≤ (divScalar (Matrix.diagonal ![1, 2, 3] : Matrix (Fin 3) (Fin 3) ℝ) (maxAbsCoeff (Matrix.diagonal ![1, 2, 3] : Matrix (Fin 3) (Fin 3) ℝ))).det ∧
    (1 / 3 + 1 / 2 ^ 23 : ℝ) < 2 / 3 ∧ (2 / 3 + 1 / 2 ^ 23 : ℝ) < 1 ∧
    ∀ i : Fin 3,
      (Matrix.diagonal ![1, 2, 3] : Matrix (Fin 3) (Fin 3) ℝ).mulVec (fun k => (eigen33 (⟨Real.sqrt, fun y x => Complex.arg ⟨x, y⟩, Real.cos, Real.sin, 1 / 2 ^ 23, 1 / 2 ^ 126⟩ :
        ScalarOps ℝ)
      (eigenUnitOrthogonal (⟨Real.sqrt, fun y x => Complex.arg ⟨x, y⟩, Real.cos, Real.sin, 1 / 2 ^ 23, 1 / 2 ^ 126⟩ :
        ScalarOps ℝ) (1 / 10 ^ 5))
      (Matrix.diagonal ![1, 2, 3] : Matrix (Fin 3) (Fin 3) ℝ)).1 k i)
        = (eigen33 (⟨Real.sqrt, fun y x => Complex.arg ⟨x, y⟩, Real.cos, Real.sin, 1 / 2 ^ 23, 1 / 2 ^ 126⟩ :
        ScalarOps ℝ)
      (eigenUnitOrthogonal (⟨Real.sqrt, fun y x => Complex.arg ⟨x, y⟩, Real.cos, Real.sin, 1 / 2 ^ 23, 1 / 2 ^ 126⟩ :
        ScalarOps ℝ) (1 / 10 ^ 5))
      (Matrix.diagonal ![1, 2, 3] : Matrix (Fin 3) (Fin 3) ℝ)).2 i • (fun k => (eigen33 (⟨Real.sqrt, fun y x => Complex.arg ⟨x, y⟩, Real.cos, Real.sin, 1 / 2 ^ 23, 1 / 2 ^ 126⟩ :
        ScalarOps ℝ)
      (eigenUnitOrthogonal (⟨Real.sqrt, fun y x => Complex.arg ⟨x, y⟩, Real.cos, Real.sin, 1 / 2 ^ 23, 1 / 2 ^ 126⟩ :
        ScalarOps ℝ) (1 / 10 ^ 5))
      (Matrix.diagonal ![1, 2, 3] : Matrix (Fin 3) (Fin 3) ℝ)).1 k i) ∧
      squaredNorm (fun k => (eigen33 (⟨Real.sqrt, fun y x => Complex.arg ⟨x, y⟩, Real.cos, Real.sin, 1 / 2 ^ 23, 1 / 2 ^ 126⟩ :
        ScalarOps ℝ)
      (eigenUnitOrthogonal (⟨Real.sqrt, fun y x => Complex.arg ⟨x, y⟩, Real.cos, Real.sin, 1 / 2 ^ 23, 1 / 2 ^ 126⟩ :
        ScalarOps ℝ) (1 / 10 ^ 5))
      (Matrix.diagonal ![1, 2, 3] : Matrix (Fin 3) (Fin 3) ℝ)).1 k i) = 1 :=
  ⟨realArith_single, posDef_diag123, scale_diag123, char_diag123, det_diag123,
    by norm_num, by norm_num,
    eigen33_eigenpairs _ realArith_single _ _ posDef_diag123 scale_diag123 (1 / 3) (2 / 3) 1
      char_diag123 det_diag123 (by norm_num) (by norm_num)⟩

/-- Counterexample to C7 as stated: in single precision the positive-definite matrix
`2^-128 diag (1, 2, 3)` has `s = max |M_ij| = 3 * 2^-128`, `det (M / s) = 2/9` and the
eigenvalues `1/3, 2/3, 1` of `M / s` are far more than epsilon apart, but `s` is below
`numeric_limits<float>::min ()`, the call does not rescale, and it returns the identity
with `evals (0) = 0`, so `M * evecs.col (0) ≠ evals (0) * evecs.col (0)`. -/
theorem eigen33_eigenpairs_counterexample :
    (Matrix.diagonal ![1 / 2 ^ 128, 2 / 2 ^ 128, 3 / 2 ^ 128] : Matrix (Fin 3) (Fin 3) ℝ).PosDef ∧
    (∀ x : ℝ, (x • (1 : Matrix (Fin 3) (Fin 3) ℝ)
        - divScalar (Matrix.diagonal ![1 / 2 ^ 128, 2 / 2 ^ 128, 3 / 2 ^ 128] : Matrix (Fin 3) (Fin 3) ℝ) (maxAbsCoeff (Matrix.diagonal ![1 / 2 ^ 128, 2 / 2 ^ 128, 3 / 2 ^ 128] : Matrix (Fin 3) (Fin 3) ℝ))).det = (x - 1 / 3) * (x - 2 / 3) * (x - 1)) ∧
    (1 / 2 ^ 23 : ℝ) ≤ (divScalar (Matrix.diagonal ![1 / 2 ^ 128, 2 / 2 ^ 128, 3 / 2 ^ 128] : Matrix (Fin 3) (Fin 3) ℝ) (maxAbsCoeff (Matrix.diagonal ![1 / 2 ^ 128, 2 / 2 ^ 128, 3 / 2 ^ 128] : Matrix (Fin 3) (Fin 3) ℝ))).det ∧
    (1 / 3 + 1 / 2 ^ 23 : ℝ) < 2 / 3 ∧ (2 / 3 + 1 / 2 ^ 23 : ℝ) < 1 ∧
    ¬ ∀ i : Fin 3,
      (Matrix.diagonal ![1 / 2 ^ 128, 2 / 2 ^ 128, 3 / 2 ^ 128] : Matrix (Fin 3) (Fin 3) ℝ).mulVec (fun k => (eigen33 (⟨Real.sqrt, fun y x => Complex.arg ⟨x, y⟩, Real.cos, Real.sin, 1 / 2 ^ 23, 1 / 2 ^ 126⟩ :
        ScalarOps ℝ)
      (eigenUnitOrthogonal (⟨Real.sqrt, fun y x => Complex.arg ⟨x, y⟩, Real.cos, Real.sin, 1 / 2 ^ 23, 1 / 2 ^ 126⟩ :
        ScalarOps ℝ) (1 / 10 ^ 5))
      (Matrix.diagonal ![1 / 2 ^ 128, 2 / 2 ^ 128, 3 / 2 ^ 128] : Matrix (Fin 3) (Fin 3) ℝ)).1 k i)
        = (eigen33 (⟨Real.sqrt, fun y x => Complex.arg ⟨x, y⟩, Real.cos, Real.sin, 1 / 2 ^ 23, 1 / 2 ^ 126⟩ :
        ScalarOps ℝ)
      (eigenUnitOrthogonal (⟨Real.sqrt, fun y x => Complex.arg ⟨x, y⟩, Real.cos, Real.sin, 1 / 2 ^ 23, 1 / 2 ^ 126⟩ :
        ScalarOps ℝ) (1 / 10 ^ 5))
      (Matrix.diagonal ![1 / 2 ^ 128, 2 / 2 ^ 128, 3 / 2 ^ 128] : Matrix (Fin 3) (Fin 3) ℝ)).2 i • (fun k => (eigen33 (⟨Real.sqrt, fun y x => Complex.arg ⟨x, y⟩, Real.cos, Real.sin, 1 / 2 ^ 23, 1 / 2 ^ 126⟩ :
        ScalarOps ℝ)
      (eigenUnitOrthogonal (⟨Real.sqrt, fun y x => Complex.arg ⟨x, y⟩, Real.cos, Real.sin, 1 / 2 ^ 23, 1 / 2 ^ 126⟩ :
        ScalarOps ℝ) (1 / 10 ^ 5))
      (Matrix.diagonal ![1 / 2 ^ 128, 2 / 2 ^ 128, 3 / 2 ^ 128] : Matrix (Fin 3) (Fin 3) ℝ)).1 k i) := by
  refine ⟨posDef_tiny, fun x => ?_, ?_, by norm_num, by norm_num, fun h => ?_⟩
  · rw [divScalar_tiny, Matrix.det_fin_three]
    simp [Matrix.diagonal]
  · rw [divScalar_tiny, Matrix.det_diagonal, Fin.prod_univ_three]
    norm_num
  · obtain ⟨hV, h0⟩ := eigen33_tiny (⟨Real.sqrt, fun y x => Complex.arg ⟨x, y⟩, Real.cos, Real.sin, 1 / 2 ^ 23, 1 / 2 ^ 126⟩ :
        ScalarOps ℝ) realArith_single
      (eigenUnitOrthogonal (⟨Real.sqrt, fun y x => Complex.arg ⟨x, y⟩, Real.cos, Real.sin, 1 / 2 ^ 23, 1 / 2 ^ 126⟩ :
        ScalarOps ℝ) (1 / 10 ^ 5)) (Matrix.diagonal ![1 / 2 ^ 128, 2 / 2 ^ 128, 3 / 2 ^ 128] : Matrix (Fin 3) (Fin 3) ℝ)
      (by rw [maxAbsCoeff_tiny]; norm_num)
      (by simp [charC0, Matrix.diagonal]; norm_num [abs_of_pos])
      (by simp [charC1, charC2, Matrix.diagonal]; norm_num)
      (by simp [charC2, Matrix.diagonal]; norm_num)
    have h1 := congrFun (h 0) 0
    rw [hV, h0] at h1
    simp [Matrix.mulVec, Matrix.dotProduct, Fin.sum_univ_three, Matrix.diagonal] at h1

/-- Witness for C8: `diag (1, 2, 3)` in single precision, which takes the all-distinct
branch, with Eigen's `unitOrthogonal`. -/
theorem eigen33_rotation_witness :
    RealArith (⟨Real.sqrt, fun y x => Complex.arg ⟨x, y⟩, Real.cos, Real.sin, 1 / 2 ^ 23, 1 / 2 ^ 126⟩ :
        ScalarOps ℝ) ∧
    UnitOrthogonalSpec (eigenUnitOrthogonal (⟨Real.sqrt, fun y x => Complex.arg ⟨x, y⟩, Real.cos, Real.sin, 1 / 2 ^ 23, 1 / 2 ^ 126⟩ :
        ScalarOps ℝ) (1 / 10 ^ 5)) ∧
    CandidatesNonDegenerate (⟨Real.sqrt, fun y x => Complex.arg ⟨x, y⟩, Real.cos, Real.sin, 1 / 2 ^ 23, 1 / 2 ^ 126⟩ :
        ScalarOps ℝ) (Matrix.diagonal ![1, 2, 3] : Matrix (Fin 3) (Fin 3) ℝ) ∧
    ((eigen33 (⟨Real.sqrt, fun y x => Complex.arg ⟨x, y⟩, Real.cos, Real.sin, 1 / 2 ^ 23, 1 / 2 ^ 126⟩ :
        ScalarOps ℝ)
      (eigenUnitOrthogonal (⟨Real.sqrt, fun y x => Complex.arg ⟨x, y⟩, Real.cos, Real.sin, 1 / 2 ^ 23, 1 / 2 ^ 126⟩ :
        ScalarOps ℝ) (1 / 10 ^ 5))
      (Matrix.diagonal ![1, 2, 3] : Matrix (Fin 3) (Fin 3) ℝ)).1.transpose * (eigen33 (⟨Real.sqrt, fun y x => Complex.arg ⟨x, y⟩, Real.cos, Real.sin, 1 / 2 ^ 23, 1 / 2 ^ 126⟩ :
        ScalarOps ℝ)
      (eigenUnitOrthogonal (⟨Real.sqrt, fun y x => Complex.arg ⟨x, y⟩, Real.cos, Real.sin, 1 / 2 ^ 23, 1 / 2 ^ 126⟩ :
        ScalarOps ℝ) (1 / 10 ^ 5))
      (Matrix.diagonal ![1, 2, 3] : Matrix (Fin 3) (Fin 3) ℝ)).1 = 1 ∧
     (eigen33 (⟨Real.sqrt, fun y x => Complex.arg ⟨x, y⟩, Real.cos, Real.sin, 1 / 2 ^ 23, 1 / 2 ^ 126⟩ :
        ScalarOps ℝ)
      (eigenUnitOrthogonal (⟨Real.sqrt, fun y x => Complex.arg ⟨x, y⟩, Real.cos, Real.sin, 1 / 2 ^ 23, 1 / 2 ^ 126⟩ :
        ScalarOps ℝ) (1 / 10 ^ 5))
      (Matrix.diagonal ![1, 2, 3] : Matrix (Fin 3) (Fin 3) ℝ)).1.det = 1) :=
  have hnd : CandidatesNonDegenerate (⟨Real.sqrt, fun y x => Complex.arg ⟨x, y⟩, Real.cos, Real.sin, 1 / 2 ^ 23, 1 / 2 ^ 126⟩ :
        ScalarOps ℝ) (Matrix.diagonal ![1, 2, 3] : Matrix (Fin 3) (Fin 3) ℝ) :=
    (eigen33_distinct_max _ realArith_single (eigenUnitOrthogonal (⟨Real.sqrt, fun y x => Complex.arg ⟨x, y⟩, Real.cos, Real.sin, 1 / 2 ^ 23, 1 / 2 ^ 126⟩ :
        ScalarOps ℝ) (1 / 10 ^ 5)) _ posDef_diag123.posSemidef scale_diag123
      (1 / 3) (2 / 3) 1 char_diag123 det_diag123 (by norm_num) (by norm_num)).2
  ⟨realArith_single, eigenUnitOrthogonal_spec _ realArith_single _ (by positivity), hnd,
    eigen33_rotation _ realArith_single _
      (eigenUnitOrthogonal_spec _ realArith_single _ (by positivity)) _ hnd⟩

end Witnesses

/-! ## Quadratic solver -/

section QuadraticProofs

/-- The two upper slots of `computeRoots2 (b, c)` when the discriminant is not negative:
half of `b` minus and plus half the square root of `b * b - 4 c`. -/
theorem computeRoots2_of_discr (ops : ScalarOps ℝ) (hops : RealArith ops) (b c : ℝ)
    (hd : 0 ≤ b ^ 2 - 4 * c) :
    computeRoots2 ops b c = ![0, (1 / 2) * (b - Real.sqrt (b ^ 2 - 4 * c)),
      (1 / 2) * (b + Real.sqrt (b ^ 2 - 4 * c))] := by
  obtain ⟨hsqrt, -, -, -, -, -, -, -⟩ := hops
  unfold computeRoots2
  have e : b * b - 4 * c = b ^ 2 - 4 * c := by ring
  simp only [hsqrt, e, if_neg (not_lt.mpr hd)]

/-- The output of `computeRoots2 (b, c)` when the discriminant is negative. -/
theorem computeRoots2_of_neg_discr (ops : ScalarOps ℝ) (hops : RealArith ops) (b c : ℝ)
    (hd : b ^ 2 - 4 * c < 0) :
    computeRoots2 ops b c = ![0, b / 2, b / 2] := by
  obtain ⟨hsqrt, -, -, -, -, -, -, -⟩ := hops
  unfold computeRoots2
  have e : b * b - 4 * c = b ^ 2 - 4 * c := by ring
  simp only [hsqrt, e, if_pos hd, Real.sqrt_zero]
  ext i; fin_cases i <;> simp <;> ring

/-- C20: for all real `b` and `c`, `computeRoots2` is total and sets `roots (0) = 0`;
when `b^2 - 4c < 0` the discriminant is clamped to zero, so `roots (1) = roots (2) = b / 2`. -/
theorem computeRoots2_clamped (ops : ScalarOps ℝ) (hops : RealArith ops) (b c : ℝ) :
    computeRoots2 ops b c 0 = 0 ∧
    (b ^ 2 - 4 * c < 0 → computeRoots2 ops b c 1 = b / 2 ∧ computeRoots2 ops b c 2 = b / 2) := by
  refine ⟨rfl, fun hd => ?_⟩
  rw [computeRoots2_of_neg_discr ops hops b c hd]
  exact ⟨rfl, rfl⟩

/-- Witness for C20: `b = 2`, `c = 5` in single precision (discriminant `-16`). -/
theorem computeRoots2_clamped_witness :
    RealArith ⟨Real.sqrt, fun y x => Complex.arg ⟨x, y⟩, Real.cos, Real.sin,
      1 / 2 ^ 23, 1 / 2 ^ 126⟩ ∧ (2 : ℝ) ^ 2 - 4 * 5 < 0 ∧
    computeRoots2 ⟨Real.sqrt, fun y x => Complex.arg ⟨x, y⟩, Real.cos, Real.sin,
        1 / 2 ^ 23, 1 / 2 ^ 126⟩ 2 5 0 = 0 ∧
    computeRoots2 ⟨Real.sqrt, fun y x => Complex.arg ⟨x, y⟩, Real.cos, Real.sin,
        1 / 2 ^ 23, 1 / 2 ^ 126⟩ 2 5 1 = 2 / 2 ∧
    computeRoots2 ⟨Real.sqrt, fun y x => Complex.arg ⟨x, y⟩, Real.cos, Real.sin,
        1 / 2 ^ 23, 1 / 2 ^ 126⟩ 2 5 2 = 2 / 2 :=
  have hd : (2 : ℝ) ^ 2 - 4 * 5 < 0 := by norm_num
  ⟨realArith_single, hd, (computeRoots2_clamped _ realArith_single 2 5).1,
    (computeRoots2_clamped _ realArith_single 2 5).2 hd⟩

end QuadraticProofs

/-! ## Eigenvalues of a 3x3 matrix: order, trace and determinant -/

section OrderProofs

/-- When the coefficients `c1` and `c2` are not negative, every branch of `computeRoots`
returns its three values in ascending order. -/
theorem computeRoots_sorted_of_nonneg (ops : ScalarOps ℝ) (hops : RealArith ops)
    (M : Matrix (Fin 3) (Fin 3) ℝ) (h1 : 0 ≤ charC1 M) (h2 : 0 ≤ charC2 M) :
    computeRoots ops M 0 ≤ computeRoots ops M 1 ∧ computeRoots ops M 1 ≤ computeRoots ops M 2 := by
  have hquad := computeRoots2_sorted ops hops _ _ h2 h1
  rw [computeRoots_eq]
  split_ifs
  · exact hquad
  · exact hquad
  · obtain ⟨s1, s2, -⟩ := sort3_spec (cubicRoots ops (charC0 M) (charC1 M) (charC2 M))
    exact ⟨s1, s2⟩

theorem charC1_divScalar {K : Type} [LinearOrderedField K] (M : Matrix (Fin 3) (Fin 3) K)
    (s : K) : charC1 (divScalar M s) = charC1 M / (s * s) := by
  unfold charC1 divScalar
  by_cases hs : s = 0
  · subst hs; simp
  · field_simp

theorem charC2_divScalar {K : Type} [LinearOrderedField K] (M : Matrix (Fin 3) (Fin 3) K)
    (s : K) : charC2 (divScalar M s) = charC2 M / s := by
  unfold charC2 divScalar
  by_cases hs : s = 0
  · subst hs; simp
  · field_simp

/-- C11 (amended): in exact real arithmetic, for every 3x3 matrix whose trace `c2` and
sum of principal 2x2 minors `c1` are not negative (every symmetric positive semi-definite
matrix is one), `computeRoots` and `eigen33 (mat, evals)` return non-decreasing values. -/
theorem computeRoots_sorted (ops : ScalarOps ℝ) (hops : RealArith ops)
    (M : Matrix (Fin 3) (Fin 3) ℝ) (h1 : 0 ≤ charC1 M) (h2 : 0 ≤ charC2 M) :
    (computeRoots ops M 0 ≤ computeRoots ops M 1 ∧ computeRoots ops M 1 ≤ computeRoots ops M 2) ∧
    (eigen33Values ops M 0 ≤ eigen33Values ops M 1 ∧
      eigen33Values ops M 1 ≤ eigen33Values ops M 2) := by
  refine ⟨computeRoots_sorted_of_nonneg ops hops M h1 h2, ?_⟩
  have hs := eigenScale_pos ops hops.2.2.2.2.2.2.1 M
  obtain ⟨k1, k2⟩ := computeRoots_sorted_of_nonneg ops hops (divScalar M (eigenScale ops M))
    (by rw [charC1_divScalar]; exact div_nonneg h1 (mul_pos hs hs).le)
    (by rw [charC2_divScalar]; exact div_nonneg h2 hs.le)
  exact ⟨mul_le_mul_of_nonneg_right k1 hs.le, mul_le_mul_of_nonneg_right k2 hs.le⟩

theorem charC_diag {K : Type} [LinearOrderedField K] (a b c : K) :
    charC0 (Matrix.diagonal ![a, b, c]) = a * b * c ∧
    charC1 (Matrix.diagonal ![a, b, c]) = a * b + a * c + b * c ∧
    charC2 (Matrix.diagonal ![a, b, c]) = a + b + c := by
  refine ⟨?_, ?_, ?_⟩
  · simp [charC0, Matrix.diagonal]
  · simp [charC1, Matrix.diagonal]
  · simp [charC2, Matrix.diagonal]

/-- Witness for C11 (amended): the indefinite matrix `diag (-1, 2, 3)` in single
precision (`c1 = 1`, `c2 = 4`). -/
theorem computeRoots_sorted_witness :
    RealArith ⟨Real.sqrt, fun y x => Complex.arg ⟨x, y⟩, Real.cos, Real.sin,
      1 / 2 ^ 23, 1 / 2 ^ 126⟩ ∧
    (0 : ℝ) ≤ charC1 (Matrix.diagonal ![-1, 2, 3]) ∧
    (0 : ℝ) ≤ charC2 (Matrix.diagonal ![-1, 2, 3]) ∧
    (computeRoots ⟨Real.sqrt, fun y x => Complex.arg ⟨x, y⟩, Real.cos, Real.sin,
        1 / 2 ^ 23, 1 / 2 ^ 126⟩ (Matrix.diagonal ![-1, 2, 3]) 0
      ≤ computeRoots ⟨Real.sqrt, fun y x => Complex.arg ⟨x, y⟩, Real.cos, Real.sin,
        1 / 2 ^ 23, 1 / 2 ^ 126⟩ (Matrix.diagonal ![-1, 2, 3]) 1 ∧
     computeRoots ⟨Real.sqrt, fun y x => Complex.arg ⟨x, y⟩, Real.cos, Real.sin,
        1 / 2 ^ 23, 1 / 2 ^ 126⟩ (Matrix.diagonal ![-1, 2, 3]) 1
      ≤ computeRoots ⟨Real.sqrt, fun y x => Complex.arg ⟨x, y⟩, Real.cos, Real.sin,
        1 / 2 ^ 23, 1 / 2 ^ 126⟩ (Matrix.diagonal ![-1, 2, 3]) 2) ∧
    (eigen33Values ⟨Real.sqrt, fun y x => Complex.arg ⟨x, y⟩, Real.cos, Real.sin,
        1 / 2 ^ 23, 1 / 2 ^ 126⟩ (Matrix.diagonal ![-1, 2, 3]) 0
      ≤ eigen33Values ⟨Real.sqrt, fun y x => Complex.arg ⟨x, y⟩, Real.cos, Real.sin,
        1 / 2 ^ 23, 1 / 2 ^ 126⟩ (Matrix.diagonal ![-1, 2, 3]) 1 ∧
     eigen33Values ⟨Real.sqrt, fun y x => Complex.arg ⟨x, y⟩, Real.cos, Real.sin,
        1 / 2 ^ 23, 1 / 2 ^ 126⟩ (Matrix.diagonal ![-1, 2, 3]) 1
      ≤ eigen33Values ⟨Real.sqrt, fun y x => Complex.arg ⟨x, y⟩, Real.cos, Real.sin,
        1 / 2 ^ 23, 1 / 2 ^ 126⟩ (Matrix.diagonal ![-1, 2, 3]) 2) :=
  have h1 : (0 : ℝ) ≤ charC1 (Matrix.diagonal ![-1, 2, 3]) := by
    rw [(charC_diag (-1 : ℝ) 2 3).2.1]; norm_num
  have h2 : (0 : ℝ) ≤ charC2 (Matrix.diagonal ![-1, 2, 3]) := by
    rw [(charC_diag (-1 : ℝ) 2 3).2.2]; norm_num
  ⟨realArith_single, h1, h2,
    (computeRoots_sorted _ realArith_single _ h1 h2).1,
    (computeRoots_sorted _ realArith_single _ h1 h2).2⟩

theorem maxAbsCoeff_diag_neg :
    maxAbsCoeff (Matrix.diagonal ![-1, -1, 0] : Matrix (Fin 3) (Fin 3) ℝ) = 1 := by
  have e : maxAbsCoeff (Matrix.diagonal ![-1, -1, 0] : Matrix (Fin 3) (Fin 3) ℝ)
      = max |(-1 : ℝ)| (max |0| (max |0| (max |0| (max |(-1 : ℝ)| (max |0| (max |0|
          (max |0| |0|))))))) := by
    simp [maxAbsCoeff, Matrix.diagonal]
  rw [e]
  norm_num

/-- The root solver on `diag (-1, -1, 0)` in single precision: `c0 = 0` selects the
quadratic branch, which returns `(0, -1, -1)`. -/
theorem computeRoots_diag_neg :
    computeRoots ⟨Real.sqrt, fun y x => Complex.arg ⟨x, y⟩, Real.cos, Real.sin,
        1 / 2 ^ 23, 1 / 2 ^ 126⟩ (Matrix.diagonal ![-1, -1, 0]) = ![0, -1, -1] := by
  obtain ⟨e0, e1, e2⟩ := charC_diag (-1 : ℝ) (-1) 0
  rw [computeRoots_eq, e0, e1, e2]
  have hlt : |(-1 : ℝ) * -1 * 0| < 1 / 2 ^ 23 := by
    rw [mul_zero, abs_zero]; positivity
  rw [if_pos hlt]
  have h := computeRoots2_sum_prod ⟨Real.sqrt, fun y x => Complex.arg ⟨x, y⟩, Real.cos,
    Real.sin, 1 / 2 ^ 23, 1 / 2 ^ 126⟩ realArith_single (-1) (-1)
  have a1 : (-1 : ℝ) + -1 + 0 = -1 + -1 := by ring
  have a2 : (-1 : ℝ) * -1 + -1 * 0 + -1 * 0 = -1 * -1 := by ring
  rw [a1, a2, h, min_self, max_self]

/-- Counterexample for C11 as stated: for the symmetric (negative semi-definite) matrix
`diag (-1, -1, 0)` in single precision, `computeRoots` and `eigen33 (mat, evals)` both
return `(0, -1, -1)`, which is not non-decreasing. -/
theorem computeRoots_sorted_counterexample :
    (Matrix.diagonal ![-1, -1, 0] : Matrix (Fin 3) (Fin 3) ℝ).IsSymm ∧
    ¬ (computeRoots ⟨Real.sqrt, fun y x => Complex.arg ⟨x, y⟩, Real.cos, Real.sin,
        1 / 2 ^ 23, 1 / 2 ^ 126⟩ (Matrix.diagonal ![-1, -1, 0]) 0
      ≤ computeRoots ⟨Real.sqrt, fun y x => Complex.arg ⟨x, y⟩, Real.cos, Real.sin,
        1 / 2 ^ 23, 1 / 2 ^ 126⟩ (Matrix.diagonal ![-1, -1, 0]) 1) ∧
    ¬ (eigen33Values ⟨Real.sqrt, fun y x => Complex.arg ⟨x, y⟩, Real.cos, Real.sin,
        1 / 2 ^ 23, 1 / 2 ^ 126⟩ (Matrix.diagonal ![-1, -1, 0]) 0
      ≤ eigen33Values ⟨Real.sqrt, fun y x => Complex.arg ⟨x, y⟩, Real.cos, Real.sin,
        1 / 2 ^ 23, 1 / 2 ^ 126⟩ (Matrix.diagonal ![-1, -1, 0]) 1) := by
  have hscale : eigenScale ⟨Real.sqrt, fun y x => Complex.arg ⟨x, y⟩, Real.cos, Real.sin,
      1 / 2 ^ 23, 1 / 2 ^ 126⟩ (Matrix.diagonal ![-1, -1, 0] : Matrix (Fin 3) (Fin 3) ℝ) = 1 := by
    rw [eigenScale_eq _ _ (by rw [maxAbsCoeff_diag_neg]; norm_num), maxAbsCoeff_diag_neg]
  have hdiv : divScalar (Matrix.diagonal ![-1, -1, 0] : Matrix (Fin 3) (Fin 3) ℝ) 1
      = Matrix.diagonal ![-1, -1, 0] := by
    ext i j; simp [divScalar]
  have hv : eigen33Values ⟨Real.sqrt, fun y x => Complex.arg ⟨x, y⟩, Real.cos, Real.sin,
      1 / 2 ^ 23, 1 / 2 ^ 126⟩ (Matrix.diagonal ![-1, -1, 0]) = ![0, -1, -1] := by
    unfold eigen33Values
    simp only [hscale, hdiv, computeRoots_diag_neg, mul_one]
  refine ⟨Matrix.isSymm_diagonal _, ?_, ?_⟩
  · rw [computeRoots_diag_neg]
    norm_num
  · rw [hv]
    norm_num

end OrderProofs

section TraceProofs

variable {K : Type} [LinearOrderedField K]

theorem sort3_sum (r : K × K × K) :
    (sort3 r).1 + (sort3 r).2.1 + (sort3 r).2.2 = r.1 + r.2.1 + r.2.2 := by
  obtain ⟨a, b, c⟩ := r
  unfold sort3
  dsimp only
  by_cases h1 : a ≥ b
  · rw [if_pos h1]
    dsimp only
    by_cases h2 : a ≥ c
    · rw [if_pos h2]
      by_cases h3 : b ≥ c
      · rw [if_pos h3]; ring
      · rw [if_neg h3]; ring
    · rw [if_neg h2]; ring
  · rw [if_neg h1]
    dsimp only
    by_cases h2 : b ≥ c
    · rw [if_pos h2]
      by_cases h3 : a ≥ c
      · rw [if_pos h3]; ring
      · rw [if_neg h3]; ring
    · rw [if_neg h2]

theorem cubicRoots_sum (ops : ScalarOps K) (c0 c1 c2 : K) :
    (cubicRoots ops c0 c1 c2).1 + (cubicRoots ops c0 c1 c2).2.1 + (cubicRoots ops c0 c1 c2).2.2
      = c2 := by
  unfold cubicRoots
  dsimp only
  ring

theorem computeRoots2_sum (ops : ScalarOps K) (b c : K) :
    computeRoots2 ops b c 0 + computeRoots2 ops b c 1 + computeRoots2 ops b c 2 = b := by
  unfold computeRoots2
  simp only [Matrix.cons_val_zero, Matrix.cons_val_one, Matrix.cons_val_two,
    Matrix.head_cons, Matrix.tail_cons]
  ring

/-- Every branch of `computeRoots` returns three values whose sum is `c2`. -/
theorem computeRoots_sum (ops : ScalarOps K) (m : Matrix (Fin 3) (Fin 3) K) :
    computeRoots ops m 0 + computeRoots ops m 1 + computeRoots ops m 2 = charC2 m := by
  rw [computeRoots_eq]
  split_ifs
  · exact computeRoots2_sum ops _ _
  · exact computeRoots2_sum ops _ _
  · show (sort3 _).1 + (sort3 _).2.1 + (sort3 _).2.2 = _
    rw [sort3_sum, cubicRoots_sum]

theorem maxAbsCoeff_diag_le (m : Matrix (Fin 3) (Fin 3) K) :
    |m 0 0| ≤ maxAbsCoeff m ∧ |m 1 1| ≤ maxAbsCoeff m ∧ |m 2 2| ≤ maxAbsCoeff m := by
  unfold maxAbsCoeff
  refine ⟨le_max_left _ _, ?_, ?_⟩
  · simp only [le_max_iff, le_refl, true_or, or_true]
  · simp only [le_max_iff, le_refl, true_or, or_true]

/-- C12: for every 3x3 matrix, the three eigenvalues written by `eigen33 (mat, evals)`
sum to `trace M = M00 + M11 + M22`, in every branch of `computeRoots` (quadratic, cubic
and quadratic fallback) and whatever the library functions return. -/
theorem eigen33Values_sum (ops : ScalarOps K) (mat : Matrix (Fin 3) (Fin 3) K) :
    eigen33Values ops mat 0 + eigen33Values ops mat 1 + eigen33Values ops mat 2
      = mat 0 0 + mat 1 1 + mat 2 2 ∧
    mat 0 0 + mat 1 1 + mat 2 2 = mat.trace := by
  refine ⟨?_, (Matrix.trace_fin_three mat).symm⟩
  show computeRoots ops (divScalar mat (eigenScale ops mat)) 0 * eigenScale ops mat
      + computeRoots ops (divScalar mat (eigenScale ops mat)) 1 * eigenScale ops mat
      + computeRoots ops (divScalar mat (eigenScale ops mat)) 2 * eigenScale ops mat = _
  rw [← add_mul, ← add_mul, computeRoots_sum]
  show (mat 0 0 / eigenScale ops mat + mat 1 1 / eigenScale ops mat
      + mat 2 2 / eigenScale ops mat) * eigenScale ops mat = _
  by_cases hs : eigenScale ops mat = 0
  · have hmax : maxAbsCoeff mat = 0 := by
      unfold eigenScale at hs
      dsimp only at hs
      split_ifs at hs
      · exact absurd hs one_ne_zero
      · exact hs
    obtain ⟨h0, h1, h2⟩ := maxAbsCoeff_diag_le mat
    rw [hmax] at h0 h1 h2
    rw [abs_nonpos_iff.mp h0, abs_nonpos_iff.mp h1, abs_nonpos_iff.mp h2, hs]
    ring
  · field_simp

end TraceProofs

section ProductProofs

theorem charC_nonneg_of_posSemidef (M : Matrix (Fin 3) (Fin 3) ℝ) (hM : M.PosSemidef) :
    0 ≤ charC0 M ∧ 0 ≤ charC1 M ∧ 0 ≤ charC2 M := by
  obtain ⟨l0, l1, l2, hc2, hc1, hc0, -, hnn⟩ := exists_eigenvalues M hM.1
  obtain ⟨h0, h1, h2⟩ := hnn hM
  rw [hc0, hc1, hc2]
  have := mul_nonneg h0 h1; have := mul_nonneg h0 h2; have := mul_nonneg h1 h2
  exact ⟨mul_nonneg (mul_nonneg h0 h1) h2, by linarith, by linarith⟩

theorem det_divScalar {K : Type} [LinearOrderedField K] (M : Matrix (Fin 3) (Fin 3) K)
    (s : K) (hs : s ≠ 0) : (divScalar M s).det * s ^ 3 = M.det := by
  rw [divScalar_eq_smul, Matrix.det_smul, Fintype.card_fin]
  field_simp

/-- The product of the three values returned by `computeRoots` on a symmetric positive
semi-definite matrix: the determinant when it is at least epsilon, zero otherwise. -/
theorem computeRoots_prod (ops : ScalarOps ℝ) (hops : RealArith ops)
    (N : Matrix (Fin 3) (Fin 3) ℝ) (hN : N.PosSemidef) :
    computeRoots ops N 0 * computeRoots ops N 1 * computeRoots ops N 2
      = if ops.epsilon ≤ N.det then N.det else 0 := by
  by_cases hd : ops.epsilon ≤ N.det
  · rw [if_pos hd]
    obtain ⟨-, -, hp⟩ := computeRoots_exact ops hops N hN (Or.inr hd)
    have h0 := hp 0
    simp only [zero_smul, zero_sub, Matrix.det_neg, Fintype.card_fin] at h0
    linear_combination (-1 : ℝ) * h0
  · rw [if_neg hd]
    have hc0 := (charC_nonneg_of_posSemidef N hN).1
    have hlt : |charC0 N| < ops.epsilon := by
      rw [abs_of_nonneg hc0, charC0_eq_det N hN.1]
      exact not_le.mp hd
    rw [computeRoots_eq, if_pos hlt]
    have : computeRoots2 ops (charC2 N) (charC1 N) 0 = 0 := rfl
    rw [this, zero_mul, zero_mul]

/-- C13: in exact real arithmetic, for every symmetric positive semi-definite 3x3 matrix
`M` with `s = max |M_ij|` above the degeneracy threshold, the product of the three
eigenvalues written by `eigen33 (mat, evals)` equals `det M` when `det (M / s)` is at
least machine epsilon and equals `0` otherwise, so that
`|lambda0 lambda1 lambda2 - det M| < epsilon s^3` in all cases. -/
theorem eigen33Values_prod (ops : ScalarOps ℝ) (hops : RealArith ops)
    (mat : Matrix (Fin 3) (Fin 3) ℝ) (hM : mat.PosSemidef)
    (hscale : ops.numericMin < maxAbsCoeff mat) :
    eigen33Values ops mat 0 * eigen33Values ops mat 1 * eigen33Values ops mat 2
      = (if ops.epsilon ≤ (divScalar mat (maxAbsCoeff mat)).det then mat.det else 0) ∧
    |eigen33Values ops mat 0 * eigen33Values ops mat 1 * eigen33Values ops mat 2 - mat.det|
      < ops.epsilon * maxAbsCoeff mat ^ 3 := by
  have hs : 0 < maxAbsCoeff mat := lt_trans hops.2.2.2.2.2.2.1 hscale
  have heps : 0 < ops.epsilon := hops.2.2.2.2.1
  have hN := posSemidef_divScalar mat hM _ hs
  have hdet := det_divScalar mat _ hs.ne'
  have hprod : eigen33Values ops mat 0 * eigen33Values ops mat 1 * eigen33Values ops mat 2
      = (computeRoots ops (divScalar mat (maxAbsCoeff mat)) 0
          * computeRoots ops (divScalar mat (maxAbsCoeff mat)) 1
          * computeRoots ops (divScalar mat (maxAbsCoeff mat)) 2) * maxAbsCoeff mat ^ 3 := by
    unfold eigen33Values
    simp only [eigenScale_eq ops mat hscale]
    ring
  have hnn : 0 ≤ (divScalar mat (maxAbsCoeff mat)).det := by
    rw [← charC0_eq_det _ hN.1]
    exact (charC_nonneg_of_posSemidef _ hN).1
  rw [hprod, computeRoots_prod ops hops _ hN]
  by_cases hd : ops.epsilon ≤ (divScalar mat (maxAbsCoeff mat)).det
  · rw [if_pos hd, if_pos hd, hdet, sub_self, abs_zero]
    exact ⟨rfl, mul_pos heps (pow_pos hs 3)⟩
  · rw [if_neg hd, if_neg hd, zero_mul, zero_sub, abs_neg, ← hdet,
      abs_of_nonneg (mul_nonneg hnn (pow_pos hs 3).le)]
    exact ⟨rfl, mul_lt_mul_of_pos_right (not_le.mp hd) (pow_pos hs 3)⟩

/-- Witness for C13: `diag (1, 2, 3)` in single precision. -/
theorem eigen33Values_prod_witness :
    RealArith ⟨Real.sqrt, fun y x => Complex.arg ⟨x, y⟩, Real.cos, Real.sin,
      1 / 2 ^ 23, 1 / 2 ^ 126⟩ ∧
    (Matrix.diagonal ![1, 2, 3] : Matrix (Fin 3) (Fin 3) ℝ).PosSemidef ∧
    (1 / 2 ^ 126 : ℝ) < maxAbsCoeff (Matrix.diagonal ![1, 2, 3] : Matrix (Fin 3) (Fin 3) ℝ) ∧
    eigen33Values ⟨Real.sqrt, fun y x => Complex.arg ⟨x, y⟩, Real.cos, Real.sin,
        1 / 2 ^ 23, 1 / 2 ^ 126⟩ (Matrix.diagonal ![1, 2, 3]) 0
      * eigen33Values ⟨Real.sqrt, fun y x => Complex.arg ⟨x, y⟩, Real.cos, Real.sin,
        1 / 2 ^ 23, 1 / 2 ^ 126⟩ (Matrix.diagonal ![1, 2, 3]) 1
      * eigen33Values ⟨Real.sqrt, fun y x => Complex.arg ⟨x, y⟩, Real.cos, Real.sin,
        1 / 2 ^ 23, 1 / 2 ^ 126⟩ (Matrix.diagonal ![1, 2, 3]) 2
      = (if (1 / 2 ^ 23 : ℝ) ≤ (divScalar (Matrix.diagonal ![1, 2, 3])
            (maxAbsCoeff (Matrix.diagonal ![1, 2, 3] : Matrix (Fin 3) (Fin 3) ℝ))).det
          then (Matrix.diagonal ![1, 2, 3] : Matrix (Fin 3) (Fin 3) ℝ).det else 0) ∧
    |eigen33Values ⟨Real.sqrt, fun y x => Complex.arg ⟨x, y⟩, Real.cos, Real.sin,
        1 / 2 ^ 23, 1 / 2 ^ 126⟩ (Matrix.diagonal ![1, 2, 3]) 0
      * eigen33Values ⟨Real.sqrt, fun y x => Complex.arg ⟨x, y⟩, Real.cos, Real.sin,
        1 / 2 ^ 23, 1 / 2 ^ 126⟩ (Matrix.diagonal ![1, 2, 3]) 1
      * eigen33Values ⟨Real.sqrt, fun y x => Complex.arg ⟨x, y⟩, Real.cos, Real.sin,
        1 / 2 ^ 23, 1 / 2 ^ 126⟩ (Matrix.diagonal ![1, 2, 3]) 2
      - (Matrix.diagonal ![1, 2, 3] : Matrix (Fin 3) (Fin 3) ℝ).det|
      < (1 / 2 ^ 23 : ℝ)
        * maxAbsCoeff (Matrix.diagonal ![1, 2, 3] : Matrix (Fin 3) (Fin 3) ℝ) ^ 3 :=
  ⟨realArith_single, posSemidef_diag123, scale_diag123,
    eigen33Values_prod _ realArith_single _ posSemidef_diag123 scale_diag123⟩

end ProductProofs

/-! ## Decomposition of a 2x2 matrix -/

section Eigen22Proofs

theorem ofCoeffs2_symm {K : Type} (o : StorageOrder) (x y z : K) :
    ofCoeffs2 o ![x, y, y, z] = !![x, y; y, z] := by
  cases o <;> rfl

theorem coeff2_diagonal {K : Type} [Zero K] (o : StorageOrder) (a d : K) :
    coeff2 o (Matrix.diagonal ![a, d]) = ![a, 0, 0, d] := by
  cases o <;> (ext i; fin_cases i <;> simp [coeff2, Matrix.diagonal])

theorem coeff2_symm {K : Type} (o : StorageOrder) (M : Matrix (Fin 2) (Fin 2) K)
    (hM : M.IsSymm) : coeff2 o M = ![M 0 0, M 0 1, M 0 1, M 1 1] := by
  have h : M 1 0 = M 0 1 := hM.apply 0 1
  cases o <;> simp [coeff2, h]

/-- The diagonal branch of the full 2x2 decomposition. -/
theorem eigen22_of_le {K : Type} [LinearOrderedField K] (ops : ScalarOps K) (o : StorageOrder)
    (mat : Matrix (Fin 2) (Fin 2) K) (h : |coeff2 o mat 1| ≤ ops.numericMin) :
    eigen22 ops o mat =
      if coeff2 o mat 0 < coeff2 o mat 3 then (1, ![coeff2 o mat 0, coeff2 o mat 3])
      else (!![0, 1; 1, 0], ![coeff2 o mat 3, coeff2 o mat 0]) := by
  unfold eigen22
  simp only [if_pos h, ofCoeffs2_symm]
  rw [← Matrix.one_fin_two]

/-- The general branch of the full 2x2 decomposition in exact real arithmetic: with
`c = coeff (1)`, `t` the square root of the clamped discriminant and
`y = coeff (0) - (trace - t)`, the eigenvector matrix is `[[-c, y], [y, c]]` divided by
the norm of `(-c, y)`. -/
theorem eigen22_of_lt (ops : ScalarOps ℝ) (hops : RealArith ops) (o : StorageOrder)
    (mat : Matrix (Fin 2) (Fin 2) ℝ) (h : ops.numericMin < |coeff2 o mat 1|) :
    ∃ t x y : ℝ,
      t = (if (1 / 2 * (coeff2 o mat 0 + coeff2 o mat 3)) * (1 / 2 * (coeff2 o mat 0 + coeff2 o mat 3))
            - (coeff2 o mat 0 * coeff2 o mat 3 - coeff2 o mat 1 * coeff2 o mat 1) < 0 then 0
          else Real.sqrt ((1 / 2 * (coeff2 o mat 0 + coeff2 o mat 3)) * (1 / 2 * (coeff2 o mat 0 + coeff2 o mat 3))
            - (coeff2 o mat 0 * coeff2 o mat 3 - coeff2 o mat 1 * coeff2 o mat 1))) ∧
      x * x + y * y = 1 ∧
      x * (coeff2 o mat 0 - (1 / 2 * (coeff2 o mat 0 + coeff2 o mat 3) - t)) = y * (- coeff2 o mat 1) ∧
      eigen22 ops o mat = (!![x, y; y, -x],
        ![1 / 2 * (coeff2 o mat 0 + coeff2 o mat 3) - t, 1 / 2 * (coeff2 o mat 0 + coeff2 o mat 3) + t]) := by
  obtain ⟨hsqrt, -, -, -, -, -, hmin, -⟩ := hops
  have hc : coeff2 o mat 1 ≠ 0 := by
    intro h0
    rw [h0, abs_zero] at h
    exact absurd h (not_lt.mpr hmin.le)
  have key : ∀ t : ℝ, ∃ x y : ℝ, x * x + y * y = 1 ∧
      x * (coeff2 o mat 0 - (1 / 2 * (coeff2 o mat 0 + coeff2 o mat 3) - t))
        = y * (- coeff2 o mat 1) ∧
      (!![x, y; y, -x] : Matrix (Fin 2) (Fin 2) ℝ) =
        !![- coeff2 o mat 1 * (1 / Real.sqrt (- coeff2 o mat 1 * - coeff2 o mat 1
              + (coeff2 o mat 0 - (1 / 2 * (coeff2 o mat 0 + coeff2 o mat 3) - t))
                * (coeff2 o mat 0 - (1 / 2 * (coeff2 o mat 0 + coeff2 o mat 3) - t)))),
            (coeff2 o mat 0 - (1 / 2 * (coeff2 o mat 0 + coeff2 o mat 3) - t))
              * (1 / Real.sqrt (- coeff2 o mat 1 * - coeff2 o mat 1
              + (coeff2 o mat 0 - (1 / 2 * (coeff2 o mat 0 + coeff2 o mat 3) - t))
                * (coeff2 o mat 0 - (1 / 2 * (coeff2 o mat 0 + coeff2 o mat 3) - t))));
           (coeff2 o mat 0 - (1 / 2 * (coeff2 o mat 0 + coeff2 o mat 3) - t))
              * (1 / Real.sqrt (- coeff2 o mat 1 * - coeff2 o mat 1
              + (coeff2 o mat 0 - (1 / 2 * (coeff2 o mat 0 + coeff2 o mat 3) - t))
                * (coeff2 o mat 0 - (1 / 2 * (coeff2 o mat 0 + coeff2 o mat 3) - t)))),
            - (- coeff2 o mat 1 * (1 / Real.sqrt (- coeff2 o mat 1 * - coeff2 o mat 1
              + (coeff2 o mat 0 - (1 / 2 * (coeff2 o mat 0 + coeff2 o mat 3) - t))
                * (coeff2 o mat 0 - (1 / 2 * (coeff2 o mat 0 + coeff2 o mat 3) - t)))))] := by
    intro t
    set y := coeff2 o mat 0 - (1 / 2 * (coeff2 o mat 0 + coeff2 o mat 3) - t) with hy
    have hpos : 0 < -coeff2 o mat 1 * -coeff2 o mat 1 + y * y := by
      have := mul_self_pos.mpr hc
      nlinarith [mul_self_nonneg y]
    have hs := Real.mul_self_sqrt hpos.le
    refine ⟨_, _, ?_, ?_, rfl⟩
    · have e : (1 / Real.sqrt (-coeff2 o mat 1 * -coeff2 o mat 1 + y * y))
          * (1 / Real.sqrt (-coeff2 o mat 1 * -coeff2 o mat 1 + y * y))
          = 1 / (-coeff2 o mat 1 * -coeff2 o mat 1 + y * y) := by
        rw [one_div_mul_one_div, hs]
      calc _ = (-coeff2 o mat 1 * -coeff2 o mat 1 + y * y)
              * ((1 / Real.sqrt (-coeff2 o mat 1 * -coeff2 o mat 1 + y * y))
                * (1 / Real.sqrt (-coeff2 o mat 1 * -coeff2 o mat 1 + y * y))) := by ring
        _ = 1 := by rw [e]; exact mul_one_div_cancel hpos.ne'
    · ring
  obtain ⟨x, y, h1, h2, h3⟩ := key (if (1 / 2 * (coeff2 o mat 0 + coeff2 o mat 3)) * (1 / 2 * (coeff2 o mat 0 + coeff2 o mat 3))
            - (coeff2 o mat 0 * coeff2 o mat 3 - coeff2 o mat 1 * coeff2 o mat 1) < 0 then 0
          else Real.sqrt ((1 / 2 * (coeff2 o mat 0 + coeff2 o mat 3)) * (1 / 2 * (coeff2 o mat 0 + coeff2 o mat 3))
            - (coeff2 o mat 0 * coeff2 o mat 3 - coeff2 o mat 1 * coeff2 o mat 1)))
  refine ⟨_, x, y, rfl, h1, h2, ?_⟩
  rw [h3]
  unfold eigen22
  simp only [if_neg (not_le.mpr h), ofCoeffs2_symm, hsqrt]

end Eigen22Proofs

section Eigen22Claims

theorem reflection_orthogonal {K : Type} [Field K] (x y : K) (h : x * x + y * y = 1) :
    (!![x, y; y, -x] : Matrix (Fin 2) (Fin 2) K).transpose * !![x, y; y, -x] = 1 := by
  have e : (!![x, y; y, -x] : Matrix (Fin 2) (Fin 2) K).transpose = !![x, y; y, -x] := by
    ext i j
    fin_cases i <;> fin_cases j <;> rfl
  have a1 : x * y + y * -x = 0 := by ring
  have a2 : y * x + -x * y = 0 := by ring
  have a3 : y * y + -x * -x = 1 := by rw [← h]; ring
  rw [e, Matrix.mul_fin_two, Matrix.one_fin_two, h, a1, a2, a3]

/-- In the general branch the eigenvector matrix is a reflection. -/
theorem eigen22_det_of_lt (ops : ScalarOps ℝ) (hops : RealArith ops) (o : StorageOrder)
    (mat : Matrix (Fin 2) (Fin 2) ℝ) (h : ops.numericMin < |coeff2 o mat 1|) :
    (eigen22 ops o mat).1.det = -1 := by
  obtain ⟨t, x, y, -, h1, -, he⟩ := eigen22_of_lt ops hops o mat h
  rw [he, Matrix.det_fin_two_of]
  linarith

/-- C15: for every diagonal 2x2 matrix `diag (a, d)`, `eigen22 (mat, eigenvectors,
eigenvalues)` returns the entries themselves: eigenvalues `(a, d)` and the identity when
`a < d`, eigenvalues `(d, a)` and the eigenvectors `(0, 1)`, `(1, 0)` otherwise. -/
theorem eigen22_diagonal {K : Type} [LinearOrderedField K] (ops : ScalarOps K)
    (hmin : 0 ≤ ops.numericMin) (o : StorageOrder) (a d : K) :
    eigen22 ops o (Matrix.diagonal ![a, d]) =
      if a < d then (1, ![a, d]) else (!![0, 1; 1, 0], ![d, a]) := by
  rw [eigen22_of_le ops o _ (by rw [coeff2_diagonal]; simpa using hmin), coeff2_diagonal]
  rfl

/-- Witness for C15: `diag (2, 5)` in single precision returns eigenvalues `(2, 5)` and
the identity. -/
theorem eigen22_diagonal_witness :
    (0 : ℝ) ≤ 1 / 2 ^ 126 ∧
    eigen22 ⟨Real.sqrt, fun y x => Complex.arg ⟨x, y⟩, Real.cos, Real.sin,
        1 / 2 ^ 23, 1 / 2 ^ 126⟩ StorageOrder.colMajor (Matrix.diagonal ![2, 5])
      = (1, ![2, 5]) :=
  have hmin : (0 : ℝ) ≤ 1 / 2 ^ 126 := by positivity
  ⟨hmin, (eigen22_diagonal ⟨Real.sqrt, fun y x => Complex.arg ⟨x, y⟩, Real.cos, Real.sin,
        1 / 2 ^ 23, 1 / 2 ^ 126⟩ hmin StorageOrder.colMajor 2 5).trans (if_pos (by norm_num))⟩

/-- C17: in exact real arithmetic, for every 2x2 input matrix the eigenvector matrix `V`
returned by `eigen22 (mat, eigenvectors, eigenvalues)` satisfies `V^T V = 1` (unit
columns with zero dot product), in the diagonal and in the general branch. -/
theorem eigen22_orthogonal (ops : ScalarOps ℝ) (hops : RealArith ops) (o : StorageOrder)
    (mat : Matrix (Fin 2) (Fin 2) ℝ) :
    (eigen22 ops o mat).1.transpose * (eigen22 ops o mat).1 = 1 := by
  rcases le_or_lt |coeff2 o mat 1| ops.numericMin with h | h
  · rw [eigen22_of_le ops o mat h]
    split_ifs
    · simp
    · have h01 : (0 : ℝ) * 0 + 1 * 1 = 1 := by norm_num
      have e := reflection_orthogonal (0 : ℝ) 1 h01
      rw [neg_zero] at e
      exact e
  · obtain ⟨t, x, y, -, h1, -, he⟩ := eigen22_of_lt ops hops o mat h
    rw [he]
    exact reflection_orthogonal x y h1

/-- Witness for C17: the non-symmetric matrix `[[1, 2], [3, 4]]` in single precision. -/
theorem eigen22_orthogonal_witness :
    RealArith ⟨Real.sqrt, fun y x => Complex.arg ⟨x, y⟩, Real.cos, Real.sin,
      1 / 2 ^ 23, 1 / 2 ^ 126⟩ ∧
    (eigen22 ⟨Real.sqrt, fun y x => Complex.arg ⟨x, y⟩, Real.cos, Real.sin,
        1 / 2 ^ 23, 1 / 2 ^ 126⟩ StorageOrder.colMajor !![1, 2; 3, 4]).1.transpose
      * (eigen22 ⟨Real.sqrt, fun y x => Complex.arg ⟨x, y⟩, Real.cos, Real.sin,
        1 / 2 ^ 23, 1 / 2 ^ 126⟩ StorageOrder.colMajor !![1, 2; 3, 4]).1 = 1 :=
  ⟨realArith_single, eigen22_orthogonal _ realArith_single _ _⟩

/-- C18 (amended): in exact real arithmetic the eigenvector matrix returned by
`eigen22 (mat, eigenvectors, eigenvalues)` has determinant `-1` (the second column is the
first rotated by 90 degrees clockwise, so the pair is a reflection), except when the
off-diagonal coefficient is within the degeneracy threshold and `coeff (0) < coeff (3)`,
where the identity, of determinant `+1`, is returned. -/
theorem eigen22_det (ops : ScalarOps ℝ) (hops : RealArith ops) (o : StorageOrder)
    (mat : Matrix (Fin 2) (Fin 2) ℝ) :
    (eigen22 ops o mat).1.det =
      if |coeff2 o mat 1| ≤ ops.numericMin ∧ coeff2 o mat 0 < coeff2 o mat 3 then 1 else -1 := by
  rcases le_or_lt |coeff2 o mat 1| ops.numericMin with h | h
  · rw [eigen22_of_le ops o mat h]
    by_cases h03 : coeff2 o mat 0 < coeff2 o mat 3
    · rw [if_pos h03, if_pos ⟨h, h03⟩]
      simp
    · rw [if_neg h03, if_neg (fun hh => h03 hh.2), Matrix.det_fin_two_of]
      norm_num
  · rw [if_neg (fun hh => absurd hh.1 (not_le.mpr h))]
    exact eigen22_det_of_lt ops hops o mat h

/-- Witness for C18 (amended): the symmetric matrix `[[2, 1], [1, 2]]` in single
precision. -/
theorem eigen22_det_witness :
    RealArith ⟨Real.sqrt, fun y x => Complex.arg ⟨x, y⟩, Real.cos, Real.sin,
      1 / 2 ^ 23, 1 / 2 ^ 126⟩ ∧
    (eigen22 ⟨Real.sqrt, fun y x => Complex.arg ⟨x, y⟩, Real.cos, Real.sin,
        1 / 2 ^ 23, 1 / 2 ^ 126⟩ StorageOrder.colMajor !![2, 1; 1, 2]).1.det =
      if |coeff2 StorageOrder.colMajor (!![2, 1; 1, 2] : Matrix (Fin 2) (Fin 2) ℝ) 1|
            ≤ (1 / 2 ^ 126 : ℝ) ∧
          coeff2 StorageOrder.colMajor (!![2, 1; 1, 2] : Matrix (Fin 2) (Fin 2) ℝ) 0
            < coeff2 StorageOrder.colMajor (!![2, 1; 1, 2] : Matrix (Fin 2) (Fin 2) ℝ) 3
      then 1 else -1 :=
  ⟨realArith_single, eigen22_det _ realArith_single _ _⟩

/-- Counterexample for C18 as stated: for the symmetric matrix `[[2, 1], [1, 2]]` in
single precision the returned eigenvector matrix has determinant `-1`, not `+1`. -/
theorem eigen22_det_counterexample :
    (!![2, 1; 1, 2] : Matrix (Fin 2) (Fin 2) ℝ).IsSymm ∧
    (eigen22 ⟨Real.sqrt, fun y x => Complex.arg ⟨x, y⟩, Real.cos, Real.sin,
        1 / 2 ^ 23, 1 / 2 ^ 126⟩ StorageOrder.colMajor !![2, 1; 1, 2]).1.det = -1 ∧
    (eigen22 ⟨Real.sqrt, fun y x => Complex.arg ⟨x, y⟩, Real.cos, Real.sin,
        1 / 2 ^ 23, 1 / 2 ^ 126⟩ StorageOrder.colMajor !![2, 1; 1, 2]).1.det ≠ 1 := by
  have hlt : (1 / 2 ^ 126 : ℝ) < |coeff2 StorageOrder.colMajor
      (!![2, 1; 1, 2] : Matrix (Fin 2) (Fin 2) ℝ) 1| := by
    have e : coeff2 StorageOrder.colMajor (!![2, 1; 1, 2] : Matrix (Fin 2) (Fin 2) ℝ) 1 = 1 := rfl
    rw [e, abs_one]
    norm_num
  have hdet := eigen22_det_of_lt _ realArith_single StorageOrder.colMajor !![2, 1; 1, 2] hlt
  refine ⟨?_, hdet, ?_⟩
  · ext i j
    fin_cases i <;> fin_cases j <;> rfl
  · rw [hdet]
    norm_num

/-- C16: at `diag (2, 5)` in single precision, in either storage order, the
smallest-eigenpair overload `eigen22 (mat, eigenvalue, eigenvector)` returns the
eigenvalue `0` and the eigenvector `(0, 1)`: its diagonal branch compares and returns
`mat.coeff (2)`, an off-diagonal coefficient, where the full overload reads
`mat.coeff (3)`. -/
theorem eigen22Smallest_diag_two_five :
    eigen22Smallest ⟨Real.sqrt, fun y x => Complex.arg ⟨x, y⟩, Real.cos, Real.sin,
        1 / 2 ^ 23, 1 / 2 ^ 126⟩ StorageOrder.colMajor (Matrix.diagonal ![2, 5])
      = ((0 : ℝ), ![0, 1]) ∧
    eigen22Smallest ⟨Real.sqrt, fun y x => Complex.arg ⟨x, y⟩, Real.cos, Real.sin,
        1 / 2 ^ 23, 1 / 2 ^ 126⟩ StorageOrder.rowMajor (Matrix.diagonal ![2, 5])
      = ((0 : ℝ), ![0, 1]) := by
  have h : ∀ o : StorageOrder, eigen22Smallest ⟨Real.sqrt, fun y x => Complex.arg ⟨x, y⟩,
      Real.cos, Real.sin, 1 / 2 ^ 23, 1 / 2 ^ 126⟩ o (Matrix.diagonal ![2, 5])
        = ((0 : ℝ), ![0, 1]) := by
    intro o
    unfold eigen22Smallest
    simp only [coeff2_diagonal]
    have h1 : |(![2, 0, 0, 5] : Fin 4 → ℝ) 1| ≤ 1 / 2 ^ 126 := by
      show |(0 : ℝ)| ≤ 1 / 2 ^ 126
      rw [abs_zero]; positivity
    have h2 : ¬ ((![2, 0, 0, 5] : Fin 4 → ℝ) 0 < (![2, 0, 0, 5] : Fin 4 → ℝ) 2) := by
      show ¬ ((2 : ℝ) < 0)
      norm_num
    rw [if_pos h1, if_neg h2]
    rfl
  exact ⟨h _, h _⟩

end Eigen22Claims

section Eigen22Pairs

theorem mulVec_apply2 {K : Type} [Field K] (A : Matrix (Fin 2) (Fin 2) K) (v : Fin 2 → K)
    (i : Fin 2) : A.mulVec v i = A i 0 * v 0 + A i 1 * v 1 := by
  simp [Matrix.mulVec, Matrix.dotProduct, Fin.sum_univ_two]

/-- C14: in exact real arithmetic, for every symmetric 2x2 matrix `M` whose off-diagonal
entry exceeds the degeneracy threshold in magnitude, `eigen22 (mat, eigenvectors,
eigenvalues)` returns `eigenvalues (0) ≤ eigenvalues (1)` equal to
`(M00 + M11) / 2 ∓ sqrt (((M00 + M11) / 2)^2 - det M)`, and the columns `v0`, `v1` of the
returned matrix are unit vectors with `M v0 = eigenvalues (0) v0` and
`M v1 = eigenvalues (1) v1`. -/
theorem eigen22_eigenpairs (ops : ScalarOps ℝ) (hops : RealArith ops) (o : StorageOrder)
    (M : Matrix (Fin 2) (Fin 2) ℝ) (hM : M.IsSymm) (hoff : ops.numericMin < |M 0 1|) :
    (eigen22 ops o M).2 0 ≤ (eigen22 ops o M).2 1 ∧
    (eigen22 ops o M).2 0
      = (M 0 0 + M 1 1) / 2 - Real.sqrt (((M 0 0 + M 1 1) / 2) ^ 2 - M.det) ∧
    (eigen22 ops o M).2 1
      = (M 0 0 + M 1 1) / 2 + Real.sqrt (((M 0 0 + M 1 1) / 2) ^ 2 - M.det) ∧
    ∀ i : Fin 2,
      M.mulVec (fun k => (eigen22 ops o M).1 k i)
        = (eigen22 ops o M).2 i • (fun k => (eigen22 ops o M).1 k i) ∧
      (eigen22 ops o M).1 0 i ^ 2 + (eigen22 ops o M).1 1 i ^ 2 = 1 := by
  have hc := coeff2_symm o M hM
  have h10 : M 1 0 = M 0 1 := hM.apply 0 1
  have c0 : coeff2 o M 0 = M 0 0 := by rw [hc]; rfl
  have c1 : coeff2 o M 1 = M 0 1 := by rw [hc]; rfl
  have c3 : coeff2 o M 3 = M 1 1 := by rw [hc]; rfl
  have hoff' : ops.numericMin < |coeff2 o M 1| := by rw [c1]; exact hoff
  have hb : M 0 1 ≠ 0 := by
    intro h0
    rw [h0, abs_zero] at hoff
    exact absurd hoff (not_lt.mpr hops.2.2.2.2.2.2.1.le)
  obtain ⟨t, x, y, ht, h1, h2, he⟩ := eigen22_of_lt ops hops o M hoff'
  simp only [c0, c1, c3] at ht h2 he
  have hdet : M.det = M 0 0 * M 1 1 - M 0 1 * M 0 1 := by
    rw [Matrix.det_fin_two, h10]
  have hdisc : 1 / 2 * (M 0 0 + M 1 1) * (1 / 2 * (M 0 0 + M 1 1))
      - (M 0 0 * M 1 1 - M 0 1 * M 0 1) = ((M 0 0 + M 1 1) / 2) ^ 2 - M.det := by
    rw [hdet]; ring
  have hnn : 0 ≤ ((M 0 0 + M 1 1) / 2) ^ 2 - M.det := by
    rw [hdet]
    nlinarith [sq_nonneg ((M 0 0 - M 1 1) / 2), sq_nonneg (M 0 1)]
  rw [hdisc, if_neg (not_lt.mpr hnn)] at ht
  have ht0 : 0 ≤ t := by rw [ht]; exact Real.sqrt_nonneg _
  have htt : t * t = ((M 0 0 + M 1 1) / 2) ^ 2 - M.det := by
    rw [ht]; exact Real.mul_self_sqrt hnn
  rw [hdet] at htt
  -- the characteristic equation of the smaller eigenvalue
  have h3 : M 0 1 * x + (M 1 1 - (1 / 2 * (M 0 0 + M 1 1) - t)) * y = 0 := by
    have hm : M 0 1 * (M 0 1 * x + (M 1 1 - (1 / 2 * (M 0 0 + M 1 1) - t)) * y) = 0 := by
      linear_combination (M 1 1 - (1 / 2 * (M 0 0 + M 1 1) - t)) * h2 - x * htt
    rcases mul_eq_zero.mp hm with h | h
    · exact absurd h hb
    · exact h
  rw [he]
  refine ⟨?_, ?_, ?_, ?_⟩
  · show 1 / 2 * (M 0 0 + M 1 1) - t ≤ 1 / 2 * (M 0 0 + M 1 1) + t
    linarith
  · show 1 / 2 * (M 0 0 + M 1 1) - t = _
    rw [← ht]; ring
  · show 1 / 2 * (M 0 0 + M 1 1) + t = _
    rw [← ht]; ring
  · have hA : M 0 0 * x + M 0 1 * y = (1 / 2 * (M 0 0 + M 1 1) - t) * x := by
      linear_combination h2
    have hB : M 0 1 * x + M 1 1 * y = (1 / 2 * (M 0 0 + M 1 1) - t) * y := by
      linear_combination h3
    have hC : M 0 0 * y + M 0 1 * -x = (1 / 2 * (M 0 0 + M 1 1) + t) * y := by
      linear_combination (-1 : ℝ) * h3
    have hD : M 0 1 * y + M 1 1 * -x = (1 / 2 * (M 0 0 + M 1 1) + t) * -x := by
      linear_combination h2
    intro i
    fin_cases i
    · constructor
      · funext k
        rw [mulVec_apply2]
        fin_cases k
        · exact hA
        · show M 1 0 * x + M 1 1 * y = _
          rw [h10]; exact hB
      · show x ^ 2 + y ^ 2 = 1
        linarith [h1]
    · constructor
      · funext k
        rw [mulVec_apply2]
        fin_cases k
        · exact hC
        · show M 1 0 * y + M 1 1 * -x = _
          rw [h10]; exact hD
      · show y ^ 2 + (-x) ^ 2 = 1
        linarith [h1]

/-- Witness for C14: the symmetric matrix `[[2, 1], [1, 2]]` in single precision
(eigenvalues 1 and 3). -/
theorem eigen22_eigenpairs_witness :
    RealArith ⟨Real.sqrt, fun y x => Complex.arg ⟨x, y⟩, Real.cos, Real.sin,
      1 / 2 ^ 23, 1 / 2 ^ 126⟩ ∧
    (!![2, 1; 1, 2] : Matrix (Fin 2) (Fin 2) ℝ).IsSymm ∧
    (1 / 2 ^ 126 : ℝ) < |(!![2, 1; 1, 2] : Matrix (Fin 2) (Fin 2) ℝ) 0 1| ∧
    ((eigen22 ⟨Real.sqrt, fun y x => Complex.arg ⟨x, y⟩, Real.cos, Real.sin,
        1 / 2 ^ 23, 1 / 2 ^ 126⟩ StorageOrder.colMajor !![2, 1; 1, 2]).2 0 ≤ (eigen22 ⟨Real.sqrt, fun y x => Complex.arg ⟨x, y⟩, Real.cos, Real.sin,
        1 / 2 ^ 23, 1 / 2 ^ 126⟩ StorageOrder.colMajor !![2, 1; 1, 2]).2 1 ∧
    (eigen22 ⟨Real.sqrt, fun y x => Complex.arg ⟨x, y⟩, Real.cos, Real.sin,
        1 / 2 ^ 23, 1 / 2 ^ 126⟩ StorageOrder.colMajor !![2, 1; 1, 2]).2 0
      = ((!![2, 1; 1, 2] : Matrix (Fin 2) (Fin 2) ℝ) 0 0 + (!![2, 1; 1, 2] : Matrix (Fin 2) (Fin 2) ℝ) 1 1) / 2
        - Real.sqrt ((((!![2, 1; 1, 2] : Matrix (Fin 2) (Fin 2) ℝ) 0 0 + (!![2, 1; 1, 2] : Matrix (Fin 2) (Fin 2) ℝ) 1 1) / 2) ^ 2 - (!![2, 1; 1, 2] : Matrix (Fin 2) (Fin 2) ℝ).det) ∧
    (eigen22 ⟨Real.sqrt, fun y x => Complex.arg ⟨x, y⟩, Real.cos, Real.sin,
        1 / 2 ^ 23, 1 / 2 ^ 126⟩ StorageOrder.colMajor !![2, 1; 1, 2]).2 1
      = ((!![2, 1; 1, 2] : Matrix (Fin 2) (Fin 2) ℝ) 0 0 + (!![2, 1; 1, 2] : Matrix (Fin 2) (Fin 2) ℝ) 1 1) / 2
        + Real.sqrt ((((!![2, 1; 1, 2] : Matrix (Fin 2) (Fin 2) ℝ) 0 0 + (!![2, 1; 1, 2] : Matrix (Fin 2) (Fin 2) ℝ) 1 1) / 2) ^ 2 - (!![2, 1; 1, 2] : Matrix (Fin 2) (Fin 2) ℝ).det) ∧
    ∀ i : Fin 2,
      (!![2, 1; 1, 2] : Matrix (Fin 2) (Fin 2) ℝ).mulVec (fun k => (eigen22 ⟨Real.sqrt, fun y x => Complex.arg ⟨x, y⟩, Real.cos, Real.sin,
        1 / 2 ^ 23, 1 / 2 ^ 126⟩ StorageOrder.colMajor !![2, 1; 1, 2]).1 k i)
        = (eigen22 ⟨Real.sqrt, fun y x => Complex.arg ⟨x, y⟩, Real.cos, Real.sin,
        1 / 2 ^ 23, 1 / 2 ^ 126⟩ StorageOrder.colMajor !![2, 1; 1, 2]).2 i • (fun k => (eigen22 ⟨Real.sqrt, fun y x => Complex.arg ⟨x, y⟩, Real.cos, Real.sin,
        1 / 2 ^ 23, 1 / 2 ^ 126⟩ StorageOrder.colMajor !![2, 1; 1, 2]).1 k i) ∧
      (eigen22 ⟨Real.sqrt, fun y x => Complex.arg ⟨x, y⟩, Real.cos, Real.sin,
        1 / 2 ^ 23, 1 / 2 ^ 126⟩ StorageOrder.colMajor !![2, 1; 1, 2]).1 0 i ^ 2 + (eigen22 ⟨Real.sqrt, fun y x => Complex.arg ⟨x, y⟩, Real.cos, Real.sin,
        1 / 2 ^ 23, 1 / 2 ^ 126⟩ StorageOrder.colMajor !![2, 1; 1, 2]).1 1 i ^ 2 = 1) :=
  have hM : (!![2, 1; 1, 2] : Matrix (Fin 2) (Fin 2) ℝ).IsSymm := by
    ext i j
    fin_cases i <;> fin_cases j <;> rfl
  have hoff : (1 / 2 ^ 126 : ℝ) < |(!![2, 1; 1, 2] : Matrix (Fin 2) (Fin 2) ℝ) 0 1| := by
    have e : (!![2, 1; 1, 2] : Matrix (Fin 2) (Fin 2) ℝ) 0 1 = 1 := rfl
    rw [e, abs_one]
    norm_num
  ⟨realArith_single, hM, hoff,
    eigen22_eigenpairs _ realArith_single StorageOrder.colMajor _ hM hoff⟩

end Eigen22Pairs

/-! ## Branches of the root solver and index bookkeeping -/

section BranchProofs

variable {K : Type} [LinearOrderedField K]

/-- C30: the fixed three-element sort of `computeRoots` is correct for every triple:
after the conditional swaps the three values are in ascending order and are a
permutation of the three values computed before sorting. -/
theorem sort3_sorted_perm (r : K × K × K) :
    (sort3 r).1 ≤ (sort3 r).2.1 ∧ (sort3 r).2.1 ≤ (sort3 r).2.2 ∧
    List.Perm [(sort3 r).1, (sort3 r).2.1, (sort3 r).2.2] [r.1, r.2.1, r.2.2] := by
  obtain ⟨a, b, c⟩ := r
  unfold sort3
  dsimp only
  by_cases h1 : a ≥ b
  · rw [if_pos h1]
    dsimp only
    by_cases h2 : a ≥ c
    · rw [if_pos h2]
      by_cases h3 : b ≥ c
      · rw [if_pos h3]
        exact ⟨h3, h1, ((List.Perm.swap b c [a]).trans ((List.Perm.swap a c []).cons b)).trans
          (List.Perm.swap a b [c])⟩
      · rw [if_neg h3]
        exact ⟨le_of_lt (not_le.mp h3), h2,
          ((List.Perm.swap a c []).cons b).trans (List.Perm.swap a b [c])⟩
    · rw [if_neg h2]
      exact ⟨h1, le_of_lt (not_le.mp h2), List.Perm.swap a b [c]⟩
  · rw [if_neg h1]
    dsimp only
    by_cases h2 : b ≥ c
    · rw [if_pos h2]
      by_cases h3 : a ≥ c
      · rw [if_pos h3]
        exact ⟨h3, le_of_lt (not_le.mp h1),
          (List.Perm.swap a c [b]).trans ((List.Perm.swap b c []).cons a)⟩
      · rw [if_neg h3]
        exact ⟨le_of_lt (not_le.mp h3), h2, (List.Perm.swap b c []).cons a⟩
    · rw [if_neg h2]
      exact ⟨le_of_lt (not_le.mp h1), le_of_lt (not_le.mp h2), List.Perm.refl _⟩

end BranchProofs

/-! ## Symmetric inversion and the lower triangle -/

section TriangleProofs

/-- The determinant returned by `invert3x3SymMatrix`, whichever branch is taken. -/
theorem invert3x3SymMatrix_fst {K : Type} [Field K] [DecidableEq K] (o : StorageOrder)
    (M inv0 : Matrix (Fin 3) (Fin 3) K) :
    (invert3x3SymMatrix o M inv0).1 =
      coeff3 o M 0 * (coeff3 o M 4 * coeff3 o M 8 - coeff3 o M 7 * coeff3 o M 5)
      + coeff3 o M 1 * (coeff3 o M 2 * coeff3 o M 5 - coeff3 o M 1 * coeff3 o M 8)
      + coeff3 o M 2 * (coeff3 o M 1 * coeff3 o M 5 - coeff3 o M 2 * coeff3 o M 4) := by
  unfold invert3x3SymMatrix
  dsimp only
  split_ifs <;> rfl

/-- C24: the matrices `[[1,0,0],[0,1,1],[0,0,1]]` and `[[1,0,0],[0,1,1],[0,1,1]]` agree on
the diagonal and on the upper triangle, yet `invert3x3SymMatrix` returns the determinant
`1` for the first and `0` for the second, in either storage order: the product
`coeff (7) * coeff (5)` of line 592 reads the entries `(1,2)` and `(2,1)`. -/
theorem invert3x3SymMatrix_reads_lower :
    (∀ i j : Fin 3, i ≤ j →
      (!![1, 0, 0; 0, 1, 1; 0, 0, 1] : Matrix (Fin 3) (Fin 3) ℝ) i j
        = (!![1, 0, 0; 0, 1, 1; 0, 1, 1] : Matrix (Fin 3) (Fin 3) ℝ) i j) ∧
    (invert3x3SymMatrix StorageOrder.colMajor
      (!![1, 0, 0; 0, 1, 1; 0, 0, 1] : Matrix (Fin 3) (Fin 3) ℝ) 0).1 = 1 ∧
    (invert3x3SymMatrix StorageOrder.colMajor
      (!![1, 0, 0; 0, 1, 1; 0, 1, 1] : Matrix (Fin 3) (Fin 3) ℝ) 0).1 = 0 ∧
    (invert3x3SymMatrix StorageOrder.rowMajor
      (!![1, 0, 0; 0, 1, 1; 0, 0, 1] : Matrix (Fin 3) (Fin 3) ℝ) 0).1 = 1 ∧
    (invert3x3SymMatrix StorageOrder.rowMajor
      (!![1, 0, 0; 0, 1, 1; 0, 1, 1] : Matrix (Fin 3) (Fin 3) ℝ) 0).1 = 0 := by
  refine ⟨?_, ?_, ?_, ?_, ?_⟩
  · intro i j hij
    fin_cases i <;> fin_cases j <;> simp at hij ⊢
  · rw [invert3x3SymMatrix_fst]
    show (1 : ℝ) * (1 * 1 - 1 * 0) + 0 * (0 * 0 - 0 * 1) + 0 * (0 * 0 - 0 * 1) = 1
    norm_num
  · rw [invert3x3SymMatrix_fst]
    show (1 : ℝ) * (1 * 1 - 1 * 1) + 0 * (0 * 1 - 0 * 1) + 0 * (0 * 1 - 0 * 1) = 0
    norm_num
  · rw [invert3x3SymMatrix_fst]
    show (1 : ℝ) * (1 * 1 - 0 * 1) + 0 * (0 * 1 - 0 * 1) + 0 * (0 * 1 - 0 * 1) = 1
    norm_num
  · rw [invert3x3SymMatrix_fst]
    show (1 : ℝ) * (1 * 1 - 1 * 1) + 0 * (0 * 1 - 0 * 1) + 0 * (0 * 1 - 0 * 1) = 0
    norm_num

end TriangleProofs

/-! ## Eigenvector for a given eigenvalue -/

section CorrespondingProofs

theorem subDiagonal_divScalar {K : Type} [LinearOrderedField K]
    (M : Matrix (Fin 3) (Fin 3) K) (lam s : K) :
    subDiagonal (divScalar M s) (lam / s)
      = divScalar (M - lam • (1 : Matrix (Fin 3) (Fin 3) K)) s := by
  ext i j
  by_cases h : i = j
  · simp [subDiagonal, divScalar, h, sub_div]
  · simp [subDiagonal, divScalar, h]

theorem cross_divScalar {K : Type} [LinearOrderedField K] (A : Matrix (Fin 3) (Fin 3) K)
    (s : K) (i j : Fin 3) :
    cross (divScalar A s i) (divScalar A s j) = vdiv (cross (A i) (A j)) (s * s) := by
  ext k
  fin_cases k <;> simp [cross, divScalar, vdiv] <;> ring

theorem squaredNorm_ne_zero {K : Type} [LinearOrderedField K] (v : Fin 3 → K) (hv : v ≠ 0) :
    squaredNorm v ≠ 0 := by
  intro h
  obtain ⟨h0, h1, h2⟩ := squaredNorm_eq_zero v h
  apply hv
  ext k
  fin_cases k
  · exact h0
  · exact h1
  · exact h2

/-- If one cross product of two rows of `B` is non-zero, the candidate selected by
`selectCross` is non-zero. -/
theorem selectCross_ne_zero_of_rank {K : Type} [LinearOrderedField K] (ops : ScalarOps K)
    (B : Matrix (Fin 3) (Fin 3) K)
    (h : cross (B 0) (B 1) ≠ 0 ∨ cross (B 0) (B 2) ≠ 0 ∨ cross (B 1) (B 2) ≠ 0) :
    (selectCross ops B).2.1 ≠ 0 := by
  obtain ⟨v, -, -, hlen, h1, h2, h3⟩ := selectCross_spec ops B
  rw [hlen]
  intro hz
  rw [hz] at h1 h2 h3
  rcases h with h | h | h
  · exact squaredNorm_ne_zero _ h (le_antisymm h1 (squaredNorm_nonneg _))
  · exact squaredNorm_ne_zero _ h (le_antisymm h2 (squaredNorm_nonneg _))
  · exact squaredNorm_ne_zero _ h (le_antisymm h3 (squaredNorm_nonneg _))

theorem vdiv_ne_zero {K : Type} [LinearOrderedField K] (v : Fin 3 → K) (s : K) (hs : s ≠ 0)
    (hv : v ≠ 0) : vdiv v s ≠ 0 := by
  intro h
  apply hv
  ext k
  have := congrFun h k
  simp only [vdiv, Pi.zero_apply, div_eq_zero_iff] at this
  rcases this with h0 | h0
  · exact h0
  · exact absurd h0 hs

/-- C22: in exact real arithmetic, for every 3x3 matrix `M` and scalar `lambda` such that
`det (M - lambda I) = 0` and at least one pairwise cross product of the rows of
`M - lambda I` is non-zero (rank 2), `computeCorrespondingEigenVector (M, lambda, v)`
returns a unit vector `v` with `M v = lambda v`. -/
theorem computeCorrespondingEigenVector_spec (ops : ScalarOps ℝ) (hops : RealArith ops)
    (M : Matrix (Fin 3) (Fin 3) ℝ) (lam : ℝ)
    (hdet : (M - lam • (1 : Matrix (Fin 3) (Fin 3) ℝ)).det = 0)
    (hrank : cross ((M - lam • (1 : Matrix (Fin 3) (Fin 3) ℝ)) 0)
          ((M - lam • (1 : Matrix (Fin 3) (Fin 3) ℝ)) 1) ≠ 0 ∨
        cross ((M - lam • (1 : Matrix (Fin 3) (Fin 3) ℝ)) 0)
          ((M - lam • (1 : Matrix (Fin 3) (Fin 3) ℝ)) 2) ≠ 0 ∨
        cross ((M - lam • (1 : Matrix (Fin 3) (Fin 3) ℝ)) 1)
          ((M - lam • (1 : Matrix (Fin 3) (Fin 3) ℝ)) 2) ≠ 0) :
    squaredNorm (computeCorrespondingEigenVector ops M lam) = 1 ∧
    M.mulVec (computeCorrespondingEigenVector ops M lam)
      = lam • computeCorrespondingEigenVector ops M lam := by
  have hs := eigenScale_pos ops hops.2.2.2.2.2.2.1 M
  have hss : eigenScale ops M * eigenScale ops M ≠ 0 := (mul_pos hs hs).ne'
  have hB := subDiagonal_divScalar M lam (eigenScale ops M)
  have hdetB : (subDiagonal (divScalar M (eigenScale ops M)) (lam / eigenScale ops M)).det
      = 0 := by
    have h := det_divScalar (M - lam • (1 : Matrix (Fin 3) (Fin 3) ℝ)) _ hs.ne'
    rw [hdet] at h
    rw [hB]
    rcases mul_eq_zero.mp h with h0 | h0
    · exact h0
    · exact absurd h0 (pow_pos hs 3).ne'
  have hne : (selectCross ops
      (subDiagonal (divScalar M (eigenScale ops M)) (lam / eigenScale ops M))).2.1 ≠ 0 := by
    apply selectCross_ne_zero_of_rank
    rw [hB]
    rcases hrank with h | h | h
    · exact Or.inl (by rw [cross_divScalar]; exact vdiv_ne_zero _ _ hss h)
    · exact Or.inr (Or.inl (by rw [cross_divScalar]; exact vdiv_ne_zero _ _ hss h))
    · exact Or.inr (Or.inr (by rw [cross_divScalar]; exact vdiv_ne_zero _ _ hss h))
  obtain ⟨hunit, hker⟩ := selectCross_kernel ops hops _ hdetB hne
  refine ⟨hunit, ?_⟩
  show M.mulVec (selectCross ops
      (subDiagonal (divScalar M (eigenScale ops M)) (lam / eigenScale ops M))).1 = _
  rw [subDiagonal_mulVec, sub_eq_zero] at hker
  rw [mulVec_of_divScalar M _ hs.ne', hker, smul_smul, mul_div_cancel₀ _ hs.ne']
  rfl

end CorrespondingProofs

section CorrespondingWitness

theorem det_diag_shift :
    ((Matrix.diagonal ![1, 2, 3] : Matrix (Fin 3) (Fin 3) ℝ)
      - (1 : ℝ) • (1 : Matrix (Fin 3) (Fin 3) ℝ)).det = 0 := by
  have e : (Matrix.diagonal ![1, 2, 3] : Matrix (Fin 3) (Fin 3) ℝ)
      - (1 : ℝ) • (1 : Matrix (Fin 3) (Fin 3) ℝ) = Matrix.diagonal ![0, 1, 2] := by
    ext i j
    fin_cases i <;> fin_cases j <;> simp <;> norm_num
  rw [e, Matrix.det_diagonal, Fin.prod_univ_three]
  simp

theorem cross_diag_shift :
    cross (((Matrix.diagonal ![1, 2, 3] : Matrix (Fin 3) (Fin 3) ℝ)
        - (1 : ℝ) • (1 : Matrix (Fin 3) (Fin 3) ℝ)) 1)
      (((Matrix.diagonal ![1, 2, 3] : Matrix (Fin 3) (Fin 3) ℝ)
        - (1 : ℝ) • (1 : Matrix (Fin 3) (Fin 3) ℝ)) 2) ≠ 0 := by
  intro h
  have h0 := congrFun h 0
  simp [cross] at h0
  norm_num at h0

/-- Witness for C22: `M = diag (1, 2, 3)` and `lambda = 1` in single precision. -/
theorem computeCorrespondingEigenVector_spec_witness :
    RealArith ⟨Real.sqrt, fun y x => Complex.arg ⟨x, y⟩, Real.cos, Real.sin,
      1 / 2 ^ 23, 1 / 2 ^ 126⟩ ∧
    ((Matrix.diagonal ![1, 2, 3] : Matrix (Fin 3) (Fin 3) ℝ)
      - (1 : ℝ) • (1 : Matrix (Fin 3) (Fin 3) ℝ)).det = 0 ∧
    cross (((Matrix.diagonal ![1, 2, 3] : Matrix (Fin 3) (Fin 3) ℝ)
        - (1 : ℝ) • (1 : Matrix (Fin 3) (Fin 3) ℝ)) 1)
      (((Matrix.diagonal ![1, 2, 3] : Matrix (Fin 3) (Fin 3) ℝ)
        - (1 : ℝ) • (1 : Matrix (Fin 3) (Fin 3) ℝ)) 2) ≠ 0 ∧
    squaredNorm (computeCorrespondingEigenVector ⟨Real.sqrt, fun y x => Complex.arg ⟨x, y⟩,
        Real.cos, Real.sin, 1 / 2 ^ 23, 1 / 2 ^ 126⟩ (Matrix.diagonal ![1, 2, 3]) 1) = 1 ∧
    (Matrix.diagonal ![1, 2, 3] : Matrix (Fin 3) (Fin 3) ℝ).mulVec
        (computeCorrespondingEigenVector ⟨Real.sqrt, fun y x => Complex.arg ⟨x, y⟩,
          Real.cos, Real.sin, 1 / 2 ^ 23, 1 / 2 ^ 126⟩ (Matrix.diagonal ![1, 2, 3]) 1)
      = (1 : ℝ) • computeCorrespondingEigenVector ⟨Real.sqrt, fun y x => Complex.arg ⟨x, y⟩,
          Real.cos, Real.sin, 1 / 2 ^ 23, 1 / 2 ^ 126⟩ (Matrix.diagonal ![1, 2, 3]) 1 :=
  ⟨realArith_single, det_diag_shift, cross_diag_shift,
    computeCorrespondingEigenVector_spec _ realArith_single _ 1 det_diag_shift
      (Or.inr (Or.inr cross_diag_shift))⟩

end CorrespondingWitness

section SmallestProofs

theorem selectCross_zero {K : Type} [LinearOrderedField K] (ops : ScalarOps K) :
    selectCross ops (0 : Matrix (Fin 3) (Fin 3) K) = (0, 0, 0) := by
  have hc : cross ((0 : Matrix (Fin 3) (Fin 3) K) 0) ((0 : Matrix (Fin 3) (Fin 3) K) 1) = 0 := by
    ext k; fin_cases k <;> simp [cross]
  have hc2 : cross ((0 : Matrix (Fin 3) (Fin 3) K) 0) ((0 : Matrix (Fin 3) (Fin 3) K) 2) = 0 := by
    ext k; fin_cases k <;> simp [cross]
  have hc3 : cross ((0 : Matrix (Fin 3) (Fin 3) K) 1) ((0 : Matrix (Fin 3) (Fin 3) K) 2) = 0 := by
    ext k; fin_cases k <;> simp [cross]
  have hn : squaredNorm (0 : Fin 3 → K) = 0 := by simp [squaredNorm]
  have hv : ∀ s : K, vdiv (0 : Fin 3 → K) s = 0 := fun s => by
    ext k; simp [vdiv]
  unfold selectCross
  simp only [hc, hc2, hc3, hn, hv, ge_iff_le, le_refl, and_self, if_true]

/-- On `c I` with `c` above the rescaling threshold the smallest-eigenpair overload
finds a shifted matrix equal to zero: every cross product of rows vanishes, the selected
squared norm is `0`, and the zero vector is divided by `sqrt 0`. -/
theorem eigen33Smallest_smul_one (ops : ScalarOps ℝ) (hops : RealArith ops) (c : ℝ)
    (hc : ops.numericMin < c) :
    (eigen33Smallest ops (c • (1 : Matrix (Fin 3) (Fin 3) ℝ))).1 = c ∧
    (selectCross ops (subDiagonal (divScalar (c • (1 : Matrix (Fin 3) (Fin 3) ℝ))
        (eigenScale ops (c • (1 : Matrix (Fin 3) (Fin 3) ℝ))))
      (computeRoots ops (divScalar (c • (1 : Matrix (Fin 3) (Fin 3) ℝ))
        (eigenScale ops (c • (1 : Matrix (Fin 3) (Fin 3) ℝ)))) 0))).2.1 = 0 ∧
    (eigen33Smallest ops (c • (1 : Matrix (Fin 3) (Fin 3) ℝ))).2 = 0 := by
  have hmin : 0 < ops.numericMin := hops.2.2.2.2.2.2.1
  have hc0 : 0 < c := lt_trans hmin hc
  have hscale : eigenScale ops (c • (1 : Matrix (Fin 3) (Fin 3) ℝ)) = c := by
    unfold eigenScale
    rw [maxAbsCoeff_smul_one c hc0]
    exact if_neg (not_le.mpr hc)
  have hscaled : divScalar (c • (1 : Matrix (Fin 3) (Fin 3) ℝ)) c = 1 := by
    rw [divScalar_eq_smul, smul_smul, inv_mul_cancel₀ hc0.ne', one_smul]
  have hsub : subDiagonal (1 : Matrix (Fin 3) (Fin 3) ℝ) 1 = 0 := by
    ext i j
    by_cases h : i = j
    · subst h
      simp [subDiagonal]
    · simp [subDiagonal, h]
  have hr0 : (![1, 1, 1] : Fin 3 → ℝ) 0 = 1 := rfl
  unfold eigen33Smallest
  simp only [hscale, hscaled, computeRoots_one ops hops, hr0, hsub, selectCross_zero, one_mul]
  exact ⟨trivial, trivial, trivial⟩

/-- C23: on the 3x3 identity matrix (positive semi-definite, smallest eigenvalue of
multiplicity 3) in single precision, `eigen33 (mat, eigenvalue, eigenvector)` returns the
eigenvalue `1`, but the shifted matrix is zero, so the selected cross product has squared
norm `0` and the returned vector is the zero vector divided by `sqrt 0` (the zero vector
in a field, `NaN` in floating point): it is not a unit vector. -/
theorem eigen33Smallest_identity :
    (1 : Matrix (Fin 3) (Fin 3) ℝ).PosSemidef ∧
    (eigen33Smallest ⟨Real.sqrt, fun y x => Complex.arg ⟨x, y⟩, Real.cos, Real.sin,
        1 / 2 ^ 23, 1 / 2 ^ 126⟩ (1 : Matrix (Fin 3) (Fin 3) ℝ)).1 = 1 ∧
    (eigen33Smallest ⟨Real.sqrt, fun y x => Complex.arg ⟨x, y⟩, Real.cos, Real.sin,
        1 / 2 ^ 23, 1 / 2 ^ 126⟩ (1 : Matrix (Fin 3) (Fin 3) ℝ)).2 = 0 ∧
    squaredNorm (eigen33Smallest ⟨Real.sqrt, fun y x => Complex.arg ⟨x, y⟩, Real.cos,
        Real.sin, 1 / 2 ^ 23, 1 / 2 ^ 126⟩ (1 : Matrix (Fin 3) (Fin 3) ℝ)).2 ≠ 1 := by
  have h := eigen33Smallest_smul_one ⟨Real.sqrt, fun y x => Complex.arg ⟨x, y⟩, Real.cos,
    Real.sin, 1 / 2 ^ 23, 1 / 2 ^ 126⟩ realArith_single 1 (by norm_num)
  rw [one_smul] at h
  refine ⟨Matrix.PosSemidef.one, h.1, h.2.2, ?_⟩
  rw [h.2.2]
  simp [squaredNorm]

end SmallestProofs

/-! ## All-distinct branch: the indices `min_el` and `max_el` -/

section MinMaxProofs

theorem subDiagonal_diagonal {K : Type} [LinearOrderedField K] (a b c e : K) :
    subDiagonal (Matrix.diagonal ![a, b, c]) e = Matrix.diagonal ![a - e, b - e, c - e] := by
  ext i j
  fin_cases i <;> fin_cases j <;> simp [subDiagonal, Matrix.diagonal]

/-- The squared norms computed by the cross-product block on a diagonal matrix: the
selected one and `len3`. -/
theorem selectCross_diagonal_snd {K : Type} [LinearOrderedField K] (ops : ScalarOps K)
    (a b c : K) :
    (selectCross ops (Matrix.diagonal ![a, b, c])).2 =
      (if (a * b) ^ 2 ≥ (a * c) ^ 2 ∧ (a * b) ^ 2 ≥ (b * c) ^ 2 then (a * b) ^ 2
        else if (a * c) ^ 2 ≥ (a * b) ^ 2 ∧ (a * c) ^ 2 ≥ (b * c) ^ 2 then (a * c) ^ 2
        else (b * c) ^ 2, (b * c) ^ 2) := by
  have h1 : squaredNorm (cross ((Matrix.diagonal ![a, b, c] : Matrix (Fin 3) (Fin 3) K) 0)
      ((Matrix.diagonal ![a, b, c] : Matrix (Fin 3) (Fin 3) K) 1)) = (a * b) ^ 2 := by
    simp [squaredNorm, cross, Matrix.diagonal]; ring
  have h2 : squaredNorm (cross ((Matrix.diagonal ![a, b, c] : Matrix (Fin 3) (Fin 3) K) 0)
      ((Matrix.diagonal ![a, b, c] : Matrix (Fin 3) (Fin 3) K) 2)) = (a * c) ^ 2 := by
    simp [squaredNorm, cross, Matrix.diagonal]; ring
  have h3 : squaredNorm (cross ((Matrix.diagonal ![a, b, c] : Matrix (Fin 3) (Fin 3) K) 1)
      ((Matrix.diagonal ![a, b, c] : Matrix (Fin 3) (Fin 3) K) 2)) = (b * c) ^ 2 := by
    simp [squaredNorm, cross, Matrix.diagonal]; ring
  unfold selectCross
  simp only [h1, h2, h3]
  split_ifs <;> rfl

theorem maxAbsCoeff_diag321 :
    maxAbsCoeff (Matrix.diagonal ![3, 2, 1] : Matrix (Fin 3) (Fin 3) ℝ) = 3 := by
  have e : maxAbsCoeff (Matrix.diagonal ![3, 2, 1] : Matrix (Fin 3) (Fin 3) ℝ)
      = max |(3 : ℝ)| (max |0| (max |0| (max |0| (max |(2 : ℝ)| (max |0| (max |0|
          (max |0| |(1 : ℝ)|))))))) := by
    simp [maxAbsCoeff, Matrix.diagonal]
  rw [e]
  norm_num

theorem divScalar_diag321 :
    divScalar (Matrix.diagonal ![3, 2, 1] : Matrix (Fin 3) (Fin 3) ℝ) 3
      = Matrix.diagonal ![1, 2 / 3, 1 / 3] := by
  ext i j
  fin_cases i <;> fin_cases j <;> simp [divScalar, Matrix.diagonal]

theorem posSemidef_diag321 :
    (Matrix.diagonal ![1, 2 / 3, 1 / 3] : Matrix (Fin 3) (Fin 3) ℝ).PosSemidef :=
  Matrix.PosSemidef.diagonal (fun i => by fin_cases i <;> norm_num)

/-- The root solver on `diag (1, 2/3, 1/3)`, the rescaled `diag (3, 2, 1)`. -/
theorem computeRoots_diag321 (ops : ScalarOps ℝ) (hops : RealArith ops)
    (heps : ops.epsilon ≤ 2 / 9) :
    computeRoots ops (Matrix.diagonal ![1, 2 / 3, 1 / 3]) = ![1 / 3, 2 / 3, 1] := by
  have hdet : (Matrix.diagonal ![1, 2 / 3, 1 / 3] : Matrix (Fin 3) (Fin 3) ℝ).det = 2 / 9 := by
    rw [Matrix.det_diagonal, Fin.prod_univ_three]
    norm_num
  obtain ⟨s1, s2, hp⟩ := computeRoots_exact ops hops _ posSemidef_diag321
    (Or.inr (by rw [hdet]; exact heps))
  have hchar : ∀ x : ℝ, (x • (1 : Matrix (Fin 3) (Fin 3) ℝ)
      - Matrix.diagonal ![1, 2 / 3, 1 / 3]).det = (x - 1 / 3) * (x - 2 / 3) * (x - 1) := by
    intro x
    rw [Matrix.det_fin_three]
    simp [Matrix.diagonal]
    ring
  obtain ⟨e0, e1, e2⟩ := sorted_roots_unique _ _ _ (1 / 3) (2 / 3) 1 s1 s2
    (by norm_num) (by norm_num) (fun x => (hp x).trans (hchar x))
  ext i
  fin_cases i
  · exact e0
  · exact e1
  · exact e2

/-- The all-distinct branch of `eigen33` on `diag (3, 2, 1)`: the squared norms
`mmax = (4/81, 1/81, 4/81)` and the indices `(min_el, max_el) = (0, 2)`. -/
theorem eigen33_diag321 (ops : ScalarOps ℝ) (hops : RealArith ops)
    (heps : ops.epsilon ≤ 2 / 9) (hmin : ops.numericMin < 3) :
    computeRoots ops (divScalar (Matrix.diagonal ![3, 2, 1])
      (eigenScale ops (Matrix.diagonal ![3, 2, 1]))) = ![1 / 3, 2 / 3, 1] ∧
    eigen33Mmax ops (Matrix.diagonal ![3, 2, 1]) = ![4 / 81, 1 / 81, 4 / 81] ∧
    eigen33MinMaxEl ops (Matrix.diagonal ![3, 2, 1]) = (0, 2) := by
  have hscale : eigenScale ops (Matrix.diagonal ![3, 2, 1] : Matrix (Fin 3) (Fin 3) ℝ) = 3 := by
    rw [eigenScale_eq _ _ (by rw [maxAbsCoeff_diag321]; exact hmin), maxAbsCoeff_diag321]
  have hroots := computeRoots_diag321 ops hops heps
  have r0 : (![1 / 3, 2 / 3, 1] : Fin 3 → ℝ) 0 = 1 / 3 := rfl
  have r1 : (![1 / 3, 2 / 3, 1] : Fin 3 → ℝ) 1 = 2 / 3 := rfl
  have r2 : (![1 / 3, 2 / 3, 1] : Fin 3 → ℝ) 2 = 1 := rfl
  have k0 : (selectCross ops (subDiagonal (Matrix.diagonal ![1, 2 / 3, 1 / 3]) (1 / 3))).2
      = ((4 / 81 : ℝ), (0 : ℝ)) := by
    rw [subDiagonal_diagonal, selectCross_diagonal_snd]
    norm_num
  have k1 : (selectCross ops (subDiagonal (Matrix.diagonal ![1, 2 / 3, 1 / 3]) (2 / 3))).2
      = ((1 / 81 : ℝ), (0 : ℝ)) := by
    rw [subDiagonal_diagonal, selectCross_diagonal_snd]
    norm_num
  have k2 : (selectCross ops (subDiagonal (Matrix.diagonal ![1, 2 / 3, 1 / 3]) 1)).2
      = ((4 / 81 : ℝ), (4 / 81 : ℝ)) := by
    rw [subDiagonal_diagonal, selectCross_diagonal_snd]
    norm_num
  refine ⟨?_, ?_, ?_⟩
  · rw [hscale, divScalar_diag321, hroots]
  · unfold eigen33Mmax
    simp only [hscale, divScalar_diag321, hroots, r0, r1, r2, k0, k1, k2]
  · unfold eigen33MinMaxEl
    simp only [hscale, divScalar_diag321, hroots, r0, r1, r2, k0, k1, k2]
    unfold minMaxEl
    norm_num

/-- In the all-distinct branch the eigenvector matrix is obtained from the three selected
candidates by re-orthogonalising with the indices `eigen33MinMaxEl`. -/
theorem eigen33_of_distinct {K : Type} [LinearOrderedField K] (ops : ScalarOps K)
    (unitOrthogonal : (Fin 3 → K) → (Fin 3 → K)) (mat : Matrix (Fin 3) (Fin 3) K)
    (c1 : ¬ computeRoots ops (divScalar mat (eigenScale ops mat)) 2
        - computeRoots ops (divScalar mat (eigenScale ops mat)) 0 ≤ ops.epsilon)
    (c2 : ¬ computeRoots ops (divScalar mat (eigenScale ops mat)) 1
        - computeRoots ops (divScalar mat (eigenScale ops mat)) 0 ≤ ops.epsilon)
    (c3 : ¬ computeRoots ops (divScalar mat (eigenScale ops mat)) 2
        - computeRoots ops (divScalar mat (eigenScale ops mat)) 1 ≤ ops.epsilon) :
    (eigen33 ops unitOrthogonal mat).1 =
      reorthogonalize ops
        (ofCols
          (selectCross ops (subDiagonal (divScalar mat (eigenScale ops mat))
            (computeRoots ops (divScalar mat (eigenScale ops mat)) 0))).1
          (selectCross ops (subDiagonal (divScalar mat (eigenScale ops mat))
            (computeRoots ops (divScalar mat (eigenScale ops mat)) 1))).1
          (selectCross ops (subDiagonal (divScalar mat (eigenScale ops mat))
            (computeRoots ops (divScalar mat (eigenScale ops mat)) 2))).1)
        (eigen33MinMaxEl ops mat).1 (eigen33MinMaxEl ops mat).2 := by
  unfold eigen33 eigen33MinMaxEl
  dsimp only
  rw [if_neg c1, if_neg c2, if_neg c3]

/-- C27: on the symmetric matrix `diag (3, 2, 1)` in single precision the call reaches the
all-distinct branch (the rescaled eigenvalues are `1/3, 2/3, 1`), the selected candidates
have the squared norms `mmax = (4/81, 1/81, 4/81)`, and the indices end as
`(min_el, max_el) = (0, 2)`: `min_el` does not designate the slot with the smallest
squared norm, which is slot 1.  The third block compares `len3` (here `0`) where the
second compares the selected squared norm (lines 517-518, 524-525). -/
theorem eigen33MinMaxEl_diag321 :
    (Matrix.diagonal ![3, 2, 1] : Matrix (Fin 3) (Fin 3) ℝ).IsSymm ∧
    ¬ (computeRoots ⟨Real.sqrt, fun y x => Complex.arg ⟨x, y⟩, Real.cos, Real.sin,
        1 / 2 ^ 23, 1 / 2 ^ 126⟩
        (divScalar (Matrix.diagonal ![3, 2, 1] : Matrix (Fin 3) (Fin 3) ℝ)
          (eigenScale ⟨Real.sqrt, fun y x => Complex.arg ⟨x, y⟩, Real.cos, Real.sin,
        1 / 2 ^ 23, 1 / 2 ^ 126⟩ (Matrix.diagonal ![3, 2, 1] : Matrix (Fin 3) (Fin 3) ℝ))) 2
      - computeRoots ⟨Real.sqrt, fun y x => Complex.arg ⟨x, y⟩, Real.cos, Real.sin,
        1 / 2 ^ 23, 1 / 2 ^ 126⟩
        (divScalar (Matrix.diagonal ![3, 2, 1] : Matrix (Fin 3) (Fin 3) ℝ)
          (eigenScale ⟨Real.sqrt, fun y x => Complex.arg ⟨x, y⟩, Real.cos, Real.sin,
        1 / 2 ^ 23, 1 / 2 ^ 126⟩ (Matrix.diagonal ![3, 2, 1] : Matrix (Fin 3) (Fin 3) ℝ))) 0 ≤ 1 / 2 ^ 23) ∧
    ¬ (computeRoots ⟨Real.sqrt, fun y x => Complex.arg ⟨x, y⟩, Real.cos, Real.sin,
        1 / 2 ^ 23, 1 / 2 ^ 126⟩
        (divScalar (Matrix.diagonal ![3, 2, 1] : Matrix (Fin 3) (Fin 3) ℝ)
          (eigenScale ⟨Real.sqrt, fun y x => Complex.arg ⟨x, y⟩, Real.cos, Real.sin,
        1 / 2 ^ 23, 1 / 2 ^ 126⟩ (Matrix.diagonal ![3, 2, 1] : Matrix (Fin 3) (Fin 3) ℝ))) 1
      - computeRoots ⟨Real.sqrt, fun y x => Complex.arg ⟨x, y⟩, Real.cos, Real.sin,
        1 / 2 ^ 23, 1 / 2 ^ 126⟩
        (divScalar (Matrix.diagonal ![3, 2, 1] : Matrix (Fin 3) (Fin 3) ℝ)
          (eigenScale ⟨Real.sqrt, fun y x => Complex.arg ⟨x, y⟩, Real.cos, Real.sin,
        1 / 2 ^ 23, 1 / 2 ^ 126⟩ (Matrix.diagonal ![3, 2, 1] : Matrix (Fin 3) (Fin 3) ℝ))) 0 ≤ 1 / 2 ^ 23) ∧
    ¬ (computeRoots ⟨Real.sqrt, fun y x => Complex.arg ⟨x, y⟩, Real.cos, Real.sin,
        1 / 2 ^ 23, 1 / 2 ^ 126⟩
        (divScalar (Matrix.diagonal ![3, 2, 1] : Matrix (Fin 3) (Fin 3) ℝ)
          (eigenScale ⟨Real.sqrt, fun y x => Complex.arg ⟨x, y⟩, Real.cos, Real.sin,
        1 / 2 ^ 23, 1 / 2 ^ 126⟩ (Matrix.diagonal ![3, 2, 1] : Matrix (Fin 3) (Fin 3) ℝ))) 2
      - computeRoots ⟨Real.sqrt, fun y x => Complex.arg ⟨x, y⟩, Real.cos, Real.sin,
        1 / 2 ^ 23, 1 / 2 ^ 126⟩
        (divScalar (Matrix.diagonal ![3, 2, 1] : Matrix (Fin 3) (Fin 3) ℝ)
          (eigenScale ⟨Real.sqrt, fun y x => Complex.arg ⟨x, y⟩, Real.cos, Real.sin,
        1 / 2 ^ 23, 1 / 2 ^ 126⟩ (Matrix.diagonal ![3, 2, 1] : Matrix (Fin 3) (Fin 3) ℝ))) 1 ≤ 1 / 2 ^ 23) ∧
    eigen33Mmax ⟨Real.sqrt, fun y x => Complex.arg ⟨x, y⟩, Real.cos, Real.sin,
        1 / 2 ^ 23, 1 / 2 ^ 126⟩ (Matrix.diagonal ![3, 2, 1] : Matrix (Fin 3) (Fin 3) ℝ)
      = ![4 / 81, 1 / 81, 4 / 81] ∧
    eigen33MinMaxEl ⟨Real.sqrt, fun y x => Complex.arg ⟨x, y⟩, Real.cos, Real.sin,
        1 / 2 ^ 23, 1 / 2 ^ 126⟩ (Matrix.diagonal ![3, 2, 1] : Matrix (Fin 3) (Fin 3) ℝ)
      = (0, 2) := by
  obtain ⟨hr, hm, hel⟩ := eigen33_diag321 ⟨Real.sqrt, fun y x => Complex.arg ⟨x, y⟩, Real.cos, Real.sin,
        1 / 2 ^ 23, 1 / 2 ^ 126⟩ realArith_single (by norm_num) (by norm_num)
  rw [hr]
  refine ⟨Matrix.isSymm_diagonal _, ?_, ?_, ?_, hm, hel⟩
  · show ¬ ((1 : ℝ) - 1 / 3 ≤ 1 / 2 ^ 23)
    norm_num
  · show ¬ ((2 / 3 : ℝ) - 1 / 3 ≤ 1 / 2 ^ 23)
    norm_num
  · show ¬ ((1 : ℝ) - 2 / 3 ≤ 1 / 2 ^ 23)
    norm_num

end MinMaxProofs

/-! ## Full decomposition: one repeated eigenvalue -/

section ComplementProofs

theorem conj_entry {K : Type} [LinearOrderedField K] (R A : Matrix (Fin 3) (Fin 3) K)
    (i j : Fin 3) :
    (R.transpose * A * R) i j = dot (fun k => R k i) (A.mulVec (fun k => R k j)) := by
  simp only [Matrix.mul_apply, Matrix.transpose_apply, dot, mulVec_apply3, Fin.sum_univ_three]
  ring

theorem trace_conj {K : Type} [LinearOrderedField K] (R A : Matrix (Fin 3) (Fin 3) K)
    (h : R * R.transpose = 1) : (R.transpose * A * R).trace = A.trace := by
  rw [Matrix.trace_mul_comm, ← Matrix.mul_assoc, h, Matrix.one_mul]

theorem trace_conj_sq {K : Type} [LinearOrderedField K] (R A : Matrix (Fin 3) (Fin 3) K)
    (h : R * R.transpose = 1) :
    ((R.transpose * A * R) * (R.transpose * A * R)).trace = (A * A).trace := by
  have e : (R.transpose * A * R) * (R.transpose * A * R) = R.transpose * (A * A) * R := by
    calc (R.transpose * A * R) * (R.transpose * A * R)
        = R.transpose * A * (R * R.transpose) * A * R := by simp only [Matrix.mul_assoc]
      _ = R.transpose * (A * A) * R := by rw [h, Matrix.mul_one]; simp only [Matrix.mul_assoc]
  rw [e, trace_conj R (A * A) h]

theorem trace_sq_of_symm {K : Type} [LinearOrderedField K] (A : Matrix (Fin 3) (Fin 3) K)
    (h10 : A 1 0 = A 0 1) (h20 : A 2 0 = A 0 2) (h21 : A 2 1 = A 1 2) :
    A.trace = charC2 A ∧ (A * A).trace = charC2 A ^ 2 - 2 * charC1 A := by
  constructor
  · rw [Matrix.trace_fin_three]; rfl
  · rw [Matrix.trace_fin_three]
    simp only [Matrix.mul_apply, Fin.sum_univ_three, charC2, charC1, h10, h20, h21]
    ring

/-- Expansion of a vector in the orthonormal basis formed by the columns of `R`. -/
theorem basis_expand {K : Type} [LinearOrderedField K] (R : Matrix (Fin 3) (Fin 3) K)
    (h : R * R.transpose = 1) (x : Fin 3 → K) (i : Fin 3) :
    x i = R i 0 * dot (fun k => R k 0) x + R i 1 * dot (fun k => R k 1) x
      + R i 2 * dot (fun k => R k 2) x := by
  have h0 := congrFun (congrFun h i) 0
  have h1 := congrFun (congrFun h i) 1
  have h2 := congrFun (congrFun h i) 2
  simp only [Matrix.mul_apply, Matrix.transpose_apply, Fin.sum_univ_three] at h0 h1 h2
  fin_cases i
  · simp only [Matrix.one_apply] at h0 h1 h2
    simp at h0 h1 h2
    show x 0 = R 0 0 * (R 0 0 * x 0 + R 1 0 * x 1 + R 2 0 * x 2)
        + R 0 1 * (R 0 1 * x 0 + R 1 1 * x 1 + R 2 1 * x 2)
        + R 0 2 * (R 0 2 * x 0 + R 1 2 * x 1 + R 2 2 * x 2)
    linear_combination -(x 0) * h0 - x 1 * h1 - x 2 * h2
  · simp only [Matrix.one_apply] at h0 h1 h2
    simp at h0 h1 h2
    show x 1 = R 1 0 * (R 0 0 * x 0 + R 1 0 * x 1 + R 2 0 * x 2)
        + R 1 1 * (R 0 1 * x 0 + R 1 1 * x 1 + R 2 1 * x 2)
        + R 1 2 * (R 0 2 * x 0 + R 1 2 * x 1 + R 2 2 * x 2)
    linear_combination -(x 0) * h0 - x 1 * h1 - x 2 * h2
  · simp only [Matrix.one_apply] at h0 h1 h2
    simp at h0 h1 h2
    show x 2 = R 2 0 * (R 0 0 * x 0 + R 1 0 * x 1 + R 2 0 * x 2)
        + R 2 1 * (R 0 1 * x 0 + R 1 1 * x 1 + R 2 1 * x 2)
        + R 2 2 * (R 0 2 * x 0 + R 1 2 * x 1 + R 2 2 * x 2)
    linear_combination -(x 0) * h0 - x 1 * h1 - x 2 * h2

/-- Trace and trace of the square of a matrix of the block form
`[[l2, 0, 0], [0, a, b], [0, b, c]]`. -/
theorem block_trace {K : Type} [LinearOrderedField K] (B : Matrix (Fin 3) (Fin 3) K)
    (l2 a b c : K) (b00 : B 0 0 = l2) (b01 : B 0 1 = 0) (b02 : B 0 2 = 0) (b10 : B 1 0 = 0)
    (b20 : B 2 0 = 0) (b11 : B 1 1 = a) (b22 : B 2 2 = c) (b21 : B 2 1 = b) (b12 : B 1 2 = b) :
    B.trace = l2 + a + c ∧ (B * B).trace = l2 ^ 2 + a ^ 2 + 2 * b ^ 2 + c ^ 2 := by
  constructor
  · rw [Matrix.trace_fin_three, b00, b11, b22]
  · rw [Matrix.trace_fin_three]
    simp only [Matrix.mul_apply, Fin.sum_univ_three, b00, b01, b02, b10, b20, b11, b22, b21, b12]
    ring

theorem block_values (a b c l l2 : ℝ) (t1 : l2 + a + c = l + l + l2)
    (t2 : l2 ^ 2 + a ^ 2 + 2 * b ^ 2 + c ^ 2
      = (l + l + l2) ^ 2 - 2 * (l * l + l * l2 + l * l2)) :
    a = l ∧ b = 0 ∧ c = l := by
  have hsq : (a - l) ^ 2 + (c - l) ^ 2 + 2 * b ^ 2 = 0 := by
    linear_combination t2 - 2 * l * t1
  have ha := sq_nonneg (a - l)
  have hb := sq_nonneg b
  have hc := sq_nonneg (c - l)
  have ha0 : (a - l) ^ 2 = 0 := by linarith
  have hb0 : b ^ 2 = 0 := by linarith
  have hc0 : (c - l) ^ 2 = 0 := by linarith
  exact ⟨sub_eq_zero.mp ((pow_eq_zero_iff (two_ne_zero)).mp ha0),
    (pow_eq_zero_iff (two_ne_zero)).mp hb0,
    sub_eq_zero.mp ((pow_eq_zero_iff (two_ne_zero)).mp hc0)⟩

/-- A symmetric 3x3 matrix with characteristic polynomial `(x - l)^2 (x - l2)` acts as
`l` on every unit vector orthogonal to a unit eigenvector for `l2`. -/
theorem eigen_of_complement (A : Matrix (Fin 3) (Fin 3) ℝ) (hA : A.IsHermitian) (l l2 : ℝ)
    (hpoly : ∀ x : ℝ, (x • (1 : Matrix (Fin 3) (Fin 3) ℝ) - A).det
      = (x - l) * (x - l) * (x - l2))
    (v w : Fin 3 → ℝ) (hv : squaredNorm v = 1) (hw : squaredNorm w = 1) (hvw : dot v w = 0)
    (hAv : A.mulVec v = l2 • v) : A.mulVec w = l • w := by
  have h10 : A 1 0 = A 0 1 := by simpa using hA.apply 0 1
  have h20 : A 2 0 = A 0 2 := by simpa using hA.apply 0 2
  have h21 : A 2 1 = A 1 2 := by simpa using hA.apply 1 2
  obtain ⟨⟨hRtR, -⟩, -, -⟩ := rotation_of_pair v w hv hw hvw
  have hRRt : ofCols v w (cross v w) * (ofCols v w (cross v w)).transpose = 1 :=
    Matrix.mul_eq_one_comm.mp hRtR
  obtain ⟨hc2, hc1, -⟩ := charCoeffs_of_roots A hA l l l2 hpoly
  obtain ⟨ht1, ht2⟩ := trace_sq_of_symm A h10 h20 h21
  have hsym := dot_mulVec_symm A h10 h20 h21
  have c0 : (fun k => ofCols v w (cross v w) k 0) = v := rfl
  have c1 : (fun k => ofCols v w (cross v w) k 1) = w := rfl
  have c2 : (fun k => ofCols v w (cross v w) k 2) = cross v w := rfl
  have hwv : dot w v = 0 := by rw [dot_comm]; exact hvw
  have hvu : dot v (cross v w) = 0 := dot_cross_self_left v w
  have huv : dot (cross v w) v = 0 := by rw [dot_comm]; exact hvu
  -- entries of the matrix in the basis `v, w, v × w`
  have b00 : (((ofCols v w (cross v w)).transpose * A) * ofCols v w (cross v w)) 0 0 = l2 := by
    rw [conj_entry, c0, hAv, dot_smul_right, dot_self_eq, hv, mul_one]
  have b01 : (((ofCols v w (cross v w)).transpose * A) * ofCols v w (cross v w)) 0 1 = 0 := by
    rw [conj_entry, c0, c1, ← hsym, hAv, dot_smul_left, hvw, mul_zero]
  have b02 : (((ofCols v w (cross v w)).transpose * A) * ofCols v w (cross v w)) 0 2 = 0 := by
    rw [conj_entry, c0, c2, ← hsym, hAv, dot_smul_left, hvu, mul_zero]
  have b10 : (((ofCols v w (cross v w)).transpose * A) * ofCols v w (cross v w)) 1 0 = 0 := by
    rw [conj_entry, c0, c1, hAv, dot_smul_right, hwv, mul_zero]
  have b20 : (((ofCols v w (cross v w)).transpose * A) * ofCols v w (cross v w)) 2 0 = 0 := by
    rw [conj_entry, c0, c2, hAv, dot_smul_right, huv, mul_zero]
  have b11 : (((ofCols v w (cross v w)).transpose * A) * ofCols v w (cross v w)) 1 1
      = dot w (A.mulVec w) := by rw [conj_entry, c1]
  have b22 : (((ofCols v w (cross v w)).transpose * A) * ofCols v w (cross v w)) 2 2
      = dot (cross v w) (A.mulVec (cross v w)) := by rw [conj_entry, c2]
  have b21 : (((ofCols v w (cross v w)).transpose * A) * ofCols v w (cross v w)) 2 1
      = dot (cross v w) (A.mulVec w) := by rw [conj_entry, c1, c2]
  have b12 : (((ofCols v w (cross v w)).transpose * A) * ofCols v w (cross v w)) 1 2
      = dot (cross v w) (A.mulVec w) := by
    rw [conj_entry, c1, c2, ← hsym, dot_comm]
  have t1 := trace_conj (ofCols v w (cross v w)) A hRRt
  have t2 := trace_conj_sq (ofCols v w (cross v w)) A hRRt
  obtain ⟨k1, k2⟩ := block_trace
    (((ofCols v w (cross v w)).transpose * A) * ofCols v w (cross v w)) l2
    (dot w (A.mulVec w)) (dot (cross v w) (A.mulVec w))
    (dot (cross v w) (A.mulVec (cross v w))) b00 b01 b02 b10 b20 b11 b22 b21 b12
  rw [k1, ht1, hc2] at t1
  rw [k2, ht2, hc2, hc1] at t2
  obtain ⟨hα, hβ, -⟩ := block_values _ _ _ l l2 t1 t2
  have hγ : dot v (A.mulVec w) = 0 := by
    rw [← hsym, hAv, dot_smul_left, hvw, mul_zero]
  funext i
  rw [basis_expand _ hRRt (A.mulVec w) i, c0, c1, c2, hγ, hα, hβ]
  simp only [mul_zero, zero_add, add_zero, Pi.smul_apply, smul_eq_mul]
  show w i * l = l * w i
  ring

end ComplementProofs

section RepeatedProofs

/-- The two branches of `eigen33` with exactly one repeated eigenvalue, on a matrix whose
scaled version is positive semi-definite with determinant at least epsilon: the call
returns an orthonormal eigenbasis of the scaled matrix, which is a rotation, and its
eigenvalues times the scale. -/
theorem eigen33_repeated (ops : ScalarOps ℝ) (hops : RealArith ops)
    (unitOrthogonal : (Fin 3 → ℝ) → (Fin 3 → ℝ)) (huo : UnitOrthogonalSpec unitOrthogonal)
    (mat : Matrix (Fin 3) (Fin 3) ℝ) (hM : mat.PosSemidef) (l0 l1 l2 : ℝ)
    (hchar : ∀ x : ℝ, (x • (1 : Matrix (Fin 3) (Fin 3) ℝ)
        - divScalar mat (eigenScale ops mat)).det = (x - l0) * (x - l1) * (x - l2))
    (hdet : ops.epsilon ≤ (divScalar mat (eigenScale ops mat)).det)
    (hrep : (l0 = l1 ∧ l1 + ops.epsilon < l2) ∨ (l0 + ops.epsilon < l1 ∧ l1 = l2)) :
    (∃ a b c : Fin 3 → ℝ, (eigen33 ops unitOrthogonal mat).1 = ofCols a b c ∧
      IsEigenTriple (divScalar mat (eigenScale ops mat)) l0 l1 l2 a b c) ∧
    (eigen33 ops unitOrthogonal mat).1.transpose * (eigen33 ops unitOrthogonal mat).1 = 1 ∧
    (eigen33 ops unitOrthogonal mat).2
      = ![l0 * eigenScale ops mat, l1 * eigenScale ops mat, l2 * eigenScale ops mat] := by
  have heps : 0 < ops.epsilon := hops.2.2.2.2.1
  have hs : 0 < eigenScale ops mat := eigenScale_pos ops hops.2.2.2.2.2.2.1 mat
  have hA : (divScalar mat (eigenScale ops mat)).PosSemidef :=
    posSemidef_divScalar mat hM _ hs
  obtain ⟨s1, s2, s3⟩ := computeRoots_exact ops hops _ hA (Or.inr hdet)
  obtain ⟨e0, e1, e2⟩ := sorted_roots_unique _ _ _ l0 l1 l2 s1 s2
    (by rcases hrep with h | h <;> linarith [h.1, h.2])
    (by rcases hrep with h | h <;> linarith [h.1, h.2])
    (fun x => (s3 x).trans (hchar x))
  have hvals : (eigen33 ops unitOrthogonal mat).2
      = ![l0 * eigenScale ops mat, l1 * eigenScale ops mat, l2 * eigenScale ops mat] := by
    ext i
    fin_cases i
    · show computeRoots ops (divScalar mat (eigenScale ops mat)) 0 * eigenScale ops mat = _
      rw [e0]; rfl
    · show computeRoots ops (divScalar mat (eigenScale ops mat)) 1 * eigenScale ops mat = _
      rw [e1]; rfl
    · show computeRoots ops (divScalar mat (eigenScale ops mat)) 2 * eigenScale ops mat = _
      rw [e2]; rfl
  have hker : ∀ l : ℝ, (l - l0) * (l - l1) * (l - l2) = 0 →
      (selectCross ops (subDiagonal (divScalar mat (eigenScale ops mat)) l)).2.1 ≠ 0 →
      squaredNorm (selectCross ops (subDiagonal (divScalar mat (eigenScale ops mat)) l)).1 = 1 ∧
      (divScalar mat (eigenScale ops mat)).mulVec
          (selectCross ops (subDiagonal (divScalar mat (eigenScale ops mat)) l)).1
        = l • (selectCross ops (subDiagonal (divScalar mat (eigenScale ops mat)) l)).1 := by
    intro l hl hne
    have hd : (subDiagonal (divScalar mat (eigenScale ops mat)) l).det = 0 := by
      rw [det_subDiagonal, hchar l, hl, neg_zero]
    obtain ⟨k1, k2⟩ := selectCross_kernel ops hops _ hd hne
    rw [subDiagonal_mulVec] at k2
    exact ⟨k1, sub_eq_zero.mp k2⟩
  rcases hrep with ⟨h01, h12⟩ | ⟨h01, h12⟩
  · -- first and second equal: the simple eigenvalue is `l2`
    have c1 : ¬ l2 - l0 ≤ ops.epsilon := by linarith
    have c2 : l1 - l0 ≤ ops.epsilon := by linarith
    have hne2 : (selectCross ops (subDiagonal (divScalar mat (eigenScale ops mat)) l2)).2.1 ≠ 0 :=
      selectCross_ne_zero ops _ hA.1 l2 l0 l1 (fun x => by rw [hchar x]; ring) (by linarith)
        (by linarith)
    obtain ⟨n2, v2⟩ := hker l2 (by ring) hne2
    obtain ⟨n1, o12⟩ := huo _ n2
    have o21 : dot (selectCross ops (subDiagonal (divScalar mat (eigenScale ops mat)) l2)).1
        (unitOrthogonal
          (selectCross ops (subDiagonal (divScalar mat (eigenScale ops mat)) l2)).1) = 0 := by
      rw [dot_comm]; exact o12
    have n0 := squaredNorm_cross_of_orthonormal _ _ n1 n2 o12
    have hpoly : ∀ x : ℝ, (x • (1 : Matrix (Fin 3) (Fin 3) ℝ)
        - divScalar mat (eigenScale ops mat)).det = (x - l1) * (x - l1) * (x - l2) := by
      intro x; rw [hchar x, h01]
    have v1 := eigen_of_complement _ hA.1 l1 l2 hpoly _ _ n2 n1 o21 v2
    have o20 : dot (selectCross ops (subDiagonal (divScalar mat (eigenScale ops mat)) l2)).1
        (cross (unitOrthogonal
          (selectCross ops (subDiagonal (divScalar mat (eigenScale ops mat)) l2)).1)
          (selectCross ops (subDiagonal (divScalar mat (eigenScale ops mat)) l2)).1) = 0 :=
      dot_cross_self_right _ _
    have v0 := eigen_of_complement _ hA.1 l1 l2 hpoly _ _ n2 n0 o20 v2
    rw [← h01] at v0
    have hV : (eigen33 ops unitOrthogonal mat).1
        = ofCols (cross (unitOrthogonal
            (selectCross ops (subDiagonal (divScalar mat (eigenScale ops mat)) l2)).1)
            (selectCross ops (subDiagonal (divScalar mat (eigenScale ops mat)) l2)).1)
          (unitOrthogonal
            (selectCross ops (subDiagonal (divScalar mat (eigenScale ops mat)) l2)).1)
          (selectCross ops (subDiagonal (divScalar mat (eigenScale ops mat)) l2)).1 := by
      unfold eigen33
      dsimp only
      rw [e0, e1, e2, if_neg c1, if_pos c2]
    refine ⟨⟨_, _, _, hV, ⟨v0, v1, v2⟩, ⟨n0, n1, n2⟩, ?_, ?_, o12⟩, ?_, hvals⟩
    · rw [dot_comm]; exact dot_cross_self_left _ _
    · rw [dot_comm]; exact o20
    · rw [hV]
      exact (rotation_of_pair _ _ n1 n2 o12).2.1.1
  · -- second and third equal: the simple eigenvalue is `l0`
    have c1 : ¬ l2 - l0 ≤ ops.epsilon := by linarith
    have c2 : ¬ l1 - l0 ≤ ops.epsilon := by linarith
    have c3 : l2 - l1 ≤ ops.epsilon := by linarith
    have hne0 : (selectCross ops (subDiagonal (divScalar mat (eigenScale ops mat)) l0)).2.1 ≠ 0 :=
      selectCross_ne_zero ops _ hA.1 l0 l1 l2 hchar (by linarith) (by linarith)
    obtain ⟨n0, v0⟩ := hker l0 (by ring) hne0
    obtain ⟨n1, o10⟩ := huo _ n0
    have o01 : dot (selectCross ops (subDiagonal (divScalar mat (eigenScale ops mat)) l0)).1
        (unitOrthogonal
          (selectCross ops (subDiagonal (divScalar mat (eigenScale ops mat)) l0)).1) = 0 := by
      rw [dot_comm]; exact o10
    have n2 := squaredNorm_cross_of_orthonormal _ _ n0 n1 o01
    have hpoly : ∀ x : ℝ, (x • (1 : Matrix (Fin 3) (Fin 3) ℝ)
        - divScalar mat (eigenScale ops mat)).det = (x - l1) * (x - l1) * (x - l0) := by
      intro x; rw [hchar x, ← h12]; ring
    have v1 := eigen_of_complement _ hA.1 l1 l0 hpoly _ _ n0 n1 o01 v0
    have o02 : dot (selectCross ops (subDiagonal (divScalar mat (eigenScale ops mat)) l0)).1
        (cross (selectCross ops (subDiagonal (divScalar mat (eigenScale ops mat)) l0)).1
          (unitOrthogonal
            (selectCross ops (subDiagonal (divScalar mat (eigenScale ops mat)) l0)).1)) = 0 :=
      dot_cross_self_left _ _
    have v2 := eigen_of_complement _ hA.1 l1 l0 hpoly _ _ n0 n2 o02 v0
    rw [h12] at v2
    have hV : (eigen33 ops unitOrthogonal mat).1
        = ofCols (selectCross ops (subDiagonal (divScalar mat (eigenScale ops mat)) l0)).1
          (unitOrthogonal
            (selectCross ops (subDiagonal (divScalar mat (eigenScale ops mat)) l0)).1)
          (cross (selectCross ops (subDiagonal (divScalar mat (eigenScale ops mat)) l0)).1
            (unitOrthogonal
              (selectCross ops (subDiagonal (divScalar mat (eigenScale ops mat)) l0)).1)) := by
      unfold eigen33
      dsimp only
      rw [e0, e1, e2, if_neg c1, if_neg c2, if_pos c3]
    refine ⟨⟨_, _, _, hV, ⟨v0, v1, v2⟩, ⟨n0, n1, n2⟩, o01, o02, ?_⟩, ?_, hvals⟩
    · exact dot_cross_self_right _ _
    · rw [hV]
      exact (rotation_of_pair _ _ n0 n1 o01).1.1

/-- C29 (amended): in exact real arithmetic, for every symmetric positive-definite 3x3
matrix `M` whose `s = max |M_ij|` is above `numeric_limits<Scalar>::min ()`, with
`det (M / s)` at least machine epsilon and exactly one repeated eigenvalue of `M / s`
(`l0 = l1 < l2` or `l0 < l1 = l2`, the simple one more than epsilon away),
`eigen33 (mat, evecs, evals)` returns `V` with orthonormal columns (`Vᵀ V = 1`) and
`M * evecs.col (i) = evals (i) * evecs.col (i)` for all three `i`, whichever unit vector
orthogonal to its argument `unitOrthogonal` returns. -/
theorem eigen33_repeated_eigenpairs (ops : ScalarOps ℝ) (hops : RealArith ops)
    (unitOrthogonal : (Fin 3 → ℝ) → (Fin 3 → ℝ)) (huo : UnitOrthogonalSpec unitOrthogonal)
    (mat : Matrix (Fin 3) (Fin 3) ℝ) (hM : mat.PosDef)
    (hscale : ops.numericMin < maxAbsCoeff mat) (l0 l1 l2 : ℝ)
    (hchar : ∀ x : ℝ, (x • (1 : Matrix (Fin 3) (Fin 3) ℝ)
        - divScalar mat (maxAbsCoeff mat)).det = (x - l0) * (x - l1) * (x - l2))
    (hdet : ops.epsilon ≤ (divScalar mat (maxAbsCoeff mat)).det)
    (hrep : (l0 = l1 ∧ l1 + ops.epsilon < l2) ∨ (l0 + ops.epsilon < l1 ∧ l1 = l2)) :
    (∀ i : Fin 3,
      mat.mulVec (fun k => (eigen33 ops unitOrthogonal mat).1 k i)
        = (eigen33 ops unitOrthogonal mat).2 i
            • (fun k => (eigen33 ops unitOrthogonal mat).1 k i)) ∧
    (eigen33 ops unitOrthogonal mat).1.transpose * (eigen33 ops unitOrthogonal mat).1 = 1 := by
  have hsc := eigenScale_eq ops mat hscale
  rw [← hsc] at hchar hdet
  have hs : 0 < eigenScale ops mat := eigenScale_pos ops hops.2.2.2.2.2.2.1 mat
  obtain ⟨⟨a, b, c, hV, ⟨ea, eb, ec⟩, -, -⟩, hrot, hvals⟩ :=
    eigen33_repeated ops hops unitOrthogonal huo mat hM.posSemidef l0 l1 l2 hchar hdet hrep
  refine ⟨fun i => ?_, hrot⟩
  rw [hV, hvals]
  have hmul : ∀ (v : Fin 3 → ℝ) (l : ℝ),
      (divScalar mat (eigenScale ops mat)).mulVec v = l • v →
      mat.mulVec v = (l * eigenScale ops mat) • v := fun v l hv => by
    rw [mulVec_of_divScalar mat _ hs.ne', hv, smul_smul, mul_comm]
  fin_cases i
  · exact hmul a l0 ea
  · exact hmul b l1 eb
  · exact hmul c l2 ec

end RepeatedProofs

section RepeatedWitness

theorem posDef_diag112 : (Matrix.diagonal ![1, 1, 2] : Matrix (Fin 3) (Fin 3) ℝ).PosDef :=
  Matrix.PosDef.diagonal (fun i => by fin_cases i <;> simp)

theorem maxAbsCoeff_diag112 : maxAbsCoeff (Matrix.diagonal ![1, 1, 2] : Matrix (Fin 3) (Fin 3) ℝ) = 2 :=
  maxAbsCoeff_diagonal _ _ _ (by norm_num) (by norm_num) (by norm_num)

theorem divScalar_diag112 :
    divScalar (Matrix.diagonal ![1, 1, 2] : Matrix (Fin 3) (Fin 3) ℝ) (maxAbsCoeff (Matrix.diagonal ![1, 1, 2] : Matrix (Fin 3) (Fin 3) ℝ)) = Matrix.diagonal ![1 / 2, 1 / 2, 1] := by
  rw [maxAbsCoeff_diag112]
  ext i j
  fin_cases i <;> fin_cases j <;> simp [divScalar, Matrix.diagonal]

theorem char_diag_half (x : ℝ) :
    (x • (1 : Matrix (Fin 3) (Fin 3) ℝ)
        - (Matrix.diagonal ![1 / 2, 1 / 2, 1] : Matrix (Fin 3) (Fin 3) ℝ)).det
      = (x - 1 / 2) * (x - 1 / 2) * (x - 1) := by
  rw [Matrix.det_fin_three]
  simp [Matrix.diagonal]

theorem det_diag_half :
    (1 / 2 ^ 23 : ℝ) ≤ (Matrix.diagonal ![1 / 2, 1 / 2, 1] : Matrix (Fin 3) (Fin 3) ℝ).det := by
  rw [Matrix.det_diagonal, Fin.prod_univ_three]
  norm_num

/-- Witness for C29 (amended): `diag (1, 1, 2)` in single precision, with Eigen's
`unitOrthogonal`. -/
theorem eigen33_repeated_eigenpairs_witness :
    RealArith (⟨Real.sqrt, fun y x => Complex.arg ⟨x, y⟩, Real.cos, Real.sin, 1 / 2 ^ 23, 1 / 2 ^ 126⟩ :
        ScalarOps ℝ) ∧
    UnitOrthogonalSpec (eigenUnitOrthogonal (⟨Real.sqrt, fun y x => Complex.arg ⟨x, y⟩, Real.cos, Real.sin, 1 / 2 ^ 23, 1 / 2 ^ 126⟩ :
        ScalarOps ℝ) (1 / 10 ^ 5)) ∧
    (Matrix.diagonal ![1, 1, 2] : Matrix (Fin 3) (Fin 3) ℝ).PosDef ∧
    (1 / 2 ^ 126 : ℝ) < maxAbsCoeff (Matrix.diagonal ![1, 1, 2] : Matrix (Fin 3) (Fin 3) ℝ) ∧
    (∀ x : ℝ, (x • (1 : Matrix (Fin 3) (Fin 3) ℝ)
        - divScalar (Matrix.diagonal ![1, 1, 2] : Matrix (Fin 3) (Fin 3) ℝ) (maxAbsCoeff (Matrix.diagonal ![1, 1, 2] : Matrix (Fin 3) (Fin 3) ℝ))).det = (x - 1 / 2) * (x - 1 / 2) * (x - 1)) ∧
    (1 / 2 ^ 23 : ℝ) ≤ (divScalar (Matrix.diagonal ![1, 1, 2] : Matrix (Fin 3) (Fin 3) ℝ) (maxAbsCoeff (Matrix.diagonal ![1, 1, 2] : Matrix (Fin 3) (Fin 3) ℝ))).det ∧
    (((1 / 2 : ℝ) = 1 / 2 ∧ (1 / 2 + 1 / 2 ^ 23 : ℝ) < 1) ∨
      ((1 / 2 + 1 / 2 ^ 23 : ℝ) < 1 / 2 ∧ (1 / 2 : ℝ) = 1)) ∧
    ((∀ i : Fin 3,
      (Matrix.diagonal ![1, 1, 2] : Matrix (Fin 3) (Fin 3) ℝ).mulVec (fun k => (eigen33 (⟨Real.sqrt, fun y x => Complex.arg ⟨x, y⟩, Real.cos, Real.sin, 1 / 2 ^ 23, 1 / 2 ^ 126⟩ :
        ScalarOps ℝ)
      (eigenUnitOrthogonal (⟨Real.sqrt, fun y x => Complex.arg ⟨x, y⟩, Real.cos, Real.sin, 1 / 2 ^ 23, 1 / 2 ^ 126⟩ :
        ScalarOps ℝ) (1 / 10 ^ 5))
      (Matrix.diagonal ![1, 1, 2] : Matrix (Fin 3) (Fin 3) ℝ)).1 k i)
        = (eigen33 (⟨Real.sqrt, fun y x => Complex.arg ⟨x, y⟩, Real.cos, Real.sin, 1 / 2 ^ 23, 1 / 2 ^ 126⟩ :
        ScalarOps ℝ)
      (eigenUnitOrthogonal (⟨Real.sqrt, fun y x => Complex.arg ⟨x, y⟩, Real.cos, Real.sin, 1 / 2 ^ 23, 1 / 2 ^ 126⟩ :
        ScalarOps ℝ) (1 / 10 ^ 5))
      (Matrix.diagonal ![1, 1, 2] : Matrix (Fin 3) (Fin 3) ℝ)).2 i
            • (fun k => (eigen33 (⟨Real.sqrt, fun y x => Complex.arg ⟨x, y⟩, Real.cos, Real.sin, 1 / 2 ^ 23, 1 / 2 ^ 126⟩ :
        ScalarOps ℝ)
      (eigenUnitOrthogonal (⟨Real.sqrt, fun y x => Complex.arg ⟨x, y⟩, Real.cos, Real.sin, 1 / 2 ^ 23, 1 / 2 ^ 126⟩ :
        ScalarOps ℝ) (1 / 10 ^ 5))
      (Matrix.diagonal ![1, 1, 2] : Matrix (Fin 3) (Fin 3) ℝ)).1 k i)) ∧
    (eigen33 (⟨Real.sqrt, fun y x => Complex.arg ⟨x, y⟩, Real.cos, Real.sin, 1 / 2 ^ 23, 1 / 2 ^ 126⟩ :
        ScalarOps ℝ)
      (eigenUnitOrthogonal (⟨Real.sqrt, fun y x => Complex.arg ⟨x, y⟩, Real.cos, Real.sin, 1 / 2 ^ 23, 1 / 2 ^ 126⟩ :
        ScalarOps ℝ) (1 / 10 ^ 5))
      (Matrix.diagonal ![1, 1, 2] : Matrix (Fin 3) (Fin 3) ℝ)).1.transpose * (eigen33 (⟨Real.sqrt, fun y x => Complex.arg ⟨x, y⟩, Real.cos, Real.sin, 1 / 2 ^ 23, 1 / 2 ^ 126⟩ :
        ScalarOps ℝ)
      (eigenUnitOrthogonal (⟨Real.sqrt, fun y x => Complex.arg ⟨x, y⟩, Real.cos, Real.sin, 1 / 2 ^ 23, 1 / 2 ^ 126⟩ :
        ScalarOps ℝ) (1 / 10 ^ 5))
      (Matrix.diagonal ![1, 1, 2] : Matrix (Fin 3) (Fin 3) ℝ)).1 = 1) :=
  have hchar : ∀ x : ℝ, (x • (1 : Matrix (Fin 3) (Fin 3) ℝ)
      - divScalar (Matrix.diagonal ![1, 1, 2] : Matrix (Fin 3) (Fin 3) ℝ) (maxAbsCoeff (Matrix.diagonal ![1, 1, 2] : Matrix (Fin 3) (Fin 3) ℝ))).det = (x - 1 / 2) * (x - 1 / 2) * (x - 1) :=
    fun x => by rw [divScalar_diag112]; exact char_diag_half x
  have hdet : (1 / 2 ^ 23 : ℝ) ≤ (divScalar (Matrix.diagonal ![1, 1, 2] : Matrix (Fin 3) (Fin 3) ℝ) (maxAbsCoeff (Matrix.diagonal ![1, 1, 2] : Matrix (Fin 3) (Fin 3) ℝ))).det := by
    rw [divScalar_diag112]; exact det_diag_half
  have hscale : (1 / 2 ^ 126 : ℝ) < maxAbsCoeff (Matrix.diagonal ![1, 1, 2] : Matrix (Fin 3) (Fin 3) ℝ) := by
    rw [maxAbsCoeff_diag112]; norm_num
  have hrep : ((1 / 2 : ℝ) = 1 / 2 ∧ (1 / 2 + 1 / 2 ^ 23 : ℝ) < 1) ∨
      ((1 / 2 + 1 / 2 ^ 23 : ℝ) < 1 / 2 ∧ (1 / 2 : ℝ) = 1) :=
    Or.inl ⟨rfl, by norm_num⟩
  ⟨realArith_single, eigenUnitOrthogonal_spec _ realArith_single _ (by positivity),
    posDef_diag112, hscale, hchar, hdet, hrep,
    eigen33_repeated_eigenpairs _ realArith_single _
      (eigenUnitOrthogonal_spec _ realArith_single _ (by positivity)) _ posDef_diag112 hscale
      (1 / 2) (1 / 2) 1 hchar hdet hrep⟩

theorem posDef_tiny112 : (Matrix.diagonal ![1 / 2 ^ 128, 1 / 2 ^ 128, 2 / 2 ^ 128] : Matrix (Fin 3) (Fin 3) ℝ).PosDef :=
  Matrix.PosDef.diagonal (fun i => by fin_cases i <;> simp)

theorem maxAbsCoeff_tiny112 : maxAbsCoeff (Matrix.diagonal ![1 / 2 ^ 128, 1 / 2 ^ 128, 2 / 2 ^ 128] : Matrix (Fin 3) (Fin 3) ℝ) = 2 / 2 ^ 128 :=
  maxAbsCoeff_diagonal _ _ _ (by positivity) (by norm_num) (by norm_num)

theorem divScalar_tiny112 :
    divScalar (Matrix.diagonal ![1 / 2 ^ 128, 1 / 2 ^ 128, 2 / 2 ^ 128] : Matrix (Fin 3) (Fin 3) ℝ) (maxAbsCoeff (Matrix.diagonal ![1 / 2 ^ 128, 1 / 2 ^ 128, 2 / 2 ^ 128] : Matrix (Fin 3) (Fin 3) ℝ)) = Matrix.diagonal ![1 / 2, 1 / 2, 1] := by
  rw [maxAbsCoeff_tiny112]
  ext i j
  fin_cases i <;> fin_cases j <;> simp [divScalar, Matrix.diagonal] <;> norm_num

/-- Counterexample to C29 as stated: in single precision the positive-definite matrix
`2^-128 diag (1, 1, 2)` has `s = max |M_ij| = 2^-127`, `det (M / s) = 1/4` and the
eigenvalues `1/2, 1/2, 1` of `M / s`, exactly one of them repeated and the simple one far
more than epsilon away, but `s` is below `numeric_limits<float>::min ()`, the call does
not rescale, and it returns the identity with `evals (0) = 0`, so
`M * evecs.col (0) ≠ evals (0) * evecs.col (0)`. -/
theorem eigen33_repeated_eigenpairs_counterexample :
    UnitOrthogonalSpec (eigenUnitOrthogonal (⟨Real.sqrt, fun y x => Complex.arg ⟨x, y⟩, Real.cos, Real.sin, 1 / 2 ^ 23, 1 / 2 ^ 126⟩ :
        ScalarOps ℝ) (1 / 10 ^ 5)) ∧
    (Matrix.diagonal ![1 / 2 ^ 128, 1 / 2 ^ 128, 2 / 2 ^ 128] : Matrix (Fin 3) (Fin 3) ℝ).PosDef ∧
    (∀ x : ℝ, (x • (1 : Matrix (Fin 3) (Fin 3) ℝ)
        - divScalar (Matrix.diagonal ![1 / 2 ^ 128, 1 / 2 ^ 128, 2 / 2 ^ 128] : Matrix (Fin 3) (Fin 3) ℝ) (maxAbsCoeff (Matrix.diagonal ![1 / 2 ^ 128, 1 / 2 ^ 128, 2 / 2 ^ 128] : Matrix (Fin 3) (Fin 3) ℝ))).det = (x - 1 / 2) * (x - 1 / 2) * (x - 1)) ∧
    (1 / 2 ^ 23 : ℝ) ≤ (divScalar (Matrix.diagonal ![1 / 2 ^ 128, 1 / 2 ^ 128, 2 / 2 ^ 128] : Matrix (Fin 3) (Fin 3) ℝ) (maxAbsCoeff (Matrix.diagonal ![1 / 2 ^ 128, 1 / 2 ^ 128, 2 / 2 ^ 128] : Matrix (Fin 3) (Fin 3) ℝ))).det ∧
    (1 / 2 + 1 / 2 ^ 23 : ℝ) < 1 ∧
    ¬ ∀ i : Fin 3,
      (Matrix.diagonal ![1 / 2 ^ 128, 1 / 2 ^ 128, 2 / 2 ^ 128] : Matrix (Fin 3) (Fin 3) ℝ).mulVec (fun k => (eigen33 (⟨Real.sqrt, fun y x => Complex.arg ⟨x, y⟩, Real.cos, Real.sin, 1 / 2 ^ 23, 1 / 2 ^ 126⟩ :
        ScalarOps ℝ)
      (eigenUnitOrthogonal (⟨Real.sqrt, fun y x => Complex.arg ⟨x, y⟩, Real.cos, Real.sin, 1 / 2 ^ 23, 1 / 2 ^ 126⟩ :
        ScalarOps ℝ) (1 / 10 ^ 5))
      (Matrix.diagonal ![1 / 2 ^ 128, 1 / 2 ^ 128, 2 / 2 ^ 128] : Matrix (Fin 3) (Fin 3) ℝ)).1 k i)
        = (eigen33 (⟨Real.sqrt, fun y x => Complex.arg ⟨x, y⟩, Real.cos, Real.sin, 1 / 2 ^ 23, 1 / 2 ^ 126⟩ :
        ScalarOps ℝ)
      (eigenUnitOrthogonal (⟨Real.sqrt, fun y x => Complex.arg ⟨x, y⟩, Real.cos, Real.sin, 1 / 2 ^ 23, 1 / 2 ^ 126⟩ :
        ScalarOps ℝ) (1 / 10 ^ 5))
      (Matrix.diagonal ![1 / 2 ^ 128, 1 / 2 ^ 128, 2 / 2 ^ 128] : Matrix (Fin 3) (Fin 3) ℝ)).2 i
            • (fun k => (eigen33 (⟨Real.sqrt, fun y x => Complex.arg ⟨x, y⟩, Real.cos, Real.sin, 1 / 2 ^ 23, 1 / 2 ^ 126⟩ :
        ScalarOps ℝ)
      (eigenUnitOrthogonal (⟨Real.sqrt, fun y x => Complex.arg ⟨x, y⟩, Real.cos, Real.sin, 1 / 2 ^ 23, 1 / 2 ^ 126⟩ :
        ScalarOps ℝ) (1 / 10 ^ 5))
      (Matrix.diagonal ![1 / 2 ^ 128, 1 / 2 ^ 128, 2 / 2 ^ 128] : Matrix (Fin 3) (Fin 3) ℝ)).1 k i) := by
  refine ⟨eigenUnitOrthogonal_spec _ realArith_single _ (by positivity), posDef_tiny112,
    fun x => ?_, ?_, by norm_num, fun h => ?_⟩
  · rw [divScalar_tiny112]; exact char_diag_half x
  · rw [divScalar_tiny112]; exact det_diag_half
  · obtain ⟨hV, h0⟩ := eigen33_tiny (⟨Real.sqrt, fun y x => Complex.arg ⟨x, y⟩, Real.cos, Real.sin, 1 / 2 ^ 23, 1 / 2 ^ 126⟩ :
        ScalarOps ℝ) realArith_single
      (eigenUnitOrthogonal (⟨Real.sqrt, fun y x => Complex.arg ⟨x, y⟩, Real.cos, Real.sin, 1 / 2 ^ 23, 1 / 2 ^ 126⟩ :
        ScalarOps ℝ) (1 / 10 ^ 5)) (Matrix.diagonal ![1 / 2 ^ 128, 1 / 2 ^ 128, 2 / 2 ^ 128] : Matrix (Fin 3) (Fin 3) ℝ)
      (by rw [maxAbsCoeff_tiny112]; norm_num)
      (by simp [charC0, Matrix.diagonal]; norm_num [abs_of_pos])
      (by simp [charC1, charC2, Matrix.diagonal]; norm_num)
      (by simp [charC2, Matrix.diagonal]; norm_num)
    have h1 := congrFun (h 0) 0
    rw [hV, h0] at h1
    simp [Matrix.mulVec, Matrix.dotProduct, Fin.sum_univ_three, Matrix.diagonal] at h1

end RepeatedWitness

/-! ## Transform from translation and Euler angles -/

section EulerProofs

/-- The entries of the transform that `getEulerAngles` reads, and its translation. -/
theorem getTransformation_entries {K : Type} [LinearOrderedField K] (ops : ScalarOps K)
    (x y z roll pitch yaw : K) :
    getTransformation ops x y z roll pitch yaw 2 0 = - ops.sin pitch ∧
    getTransformation ops x y z roll pitch yaw 2 1 = ops.cos pitch * ops.sin roll ∧
    getTransformation ops x y z roll pitch yaw 2 2 = ops.cos pitch * ops.cos roll ∧
    getTransformation ops x y z roll pitch yaw 1 0 = ops.cos pitch * ops.sin yaw ∧
    getTransformation ops x y z roll pitch yaw 0 0 = ops.cos pitch * ops.cos yaw ∧
    getTransformation ops x y z roll pitch yaw 0 3 = x ∧
    getTransformation ops x y z roll pitch yaw 1 3 = y ∧
    getTransformation ops x y z roll pitch yaw 2 3 = z := by
  have hr : (!![ops.cos yaw, - ops.sin yaw, 0; ops.sin yaw, ops.cos yaw, 0; 0, 0, 1]
        * !![ops.cos pitch, 0, ops.sin pitch; 0, 1, 0; - ops.sin pitch, 0, ops.cos pitch]
        * !![1, 0, 0; 0, ops.cos roll, - ops.sin roll; 0, ops.sin roll, ops.cos roll]
      : Matrix (Fin 3) (Fin 3) K)
      = !![ops.cos pitch * ops.cos yaw,
            ops.cos yaw * ops.sin pitch * ops.sin roll - ops.sin yaw * ops.cos roll,
            ops.cos yaw * ops.sin pitch * ops.cos roll + ops.sin yaw * ops.sin roll;
           ops.cos pitch * ops.sin yaw,
            ops.sin yaw * ops.sin pitch * ops.sin roll + ops.cos yaw * ops.cos roll,
            ops.sin yaw * ops.sin pitch * ops.cos roll - ops.cos yaw * ops.sin roll;
           - ops.sin pitch, ops.cos pitch * ops.sin roll, ops.cos pitch * ops.cos roll] := by
    rw [Matrix.mul_fin_three, Matrix.mul_fin_three]
    congr 1
    ext i j
    fin_cases i <;> fin_cases j <;> simp <;> ring
  unfold getTransformation
  simp only [hr]
  exact ⟨rfl, rfl, rfl, rfl, rfl, rfl, rfl, rfl⟩

/-- The two-argument arctangent of a positive multiple of `(cos a, sin a)` is `a` for `a`
in the principal range. -/
theorem arg_of_polar (r a : ℝ) (hr : 0 < r) (h1 : -Real.pi < a) (h2 : a ≤ Real.pi) :
    Complex.arg ⟨r * Real.cos a, r * Real.sin a⟩ = a := by
  have e : (⟨r * Real.cos a, r * Real.sin a⟩ : ℂ)
      = (r : ℂ) * (Complex.cos a + Complex.sin a * Complex.I) := by
    apply Complex.ext
    · simp [Complex.cos_ofReal_re, Complex.sin_ofReal_re, Complex.cos_ofReal_im,
        Complex.sin_ofReal_im]
    · simp [Complex.cos_ofReal_re, Complex.sin_ofReal_re, Complex.cos_ofReal_im,
        Complex.sin_ofReal_im]
  rw [e]
  exact Complex.arg_mul_cos_add_sin_mul_I hr ⟨h1, h2⟩

/-- C25: in exact real arithmetic, for all translations `x, y, z` and all angles with
`|pitch| < π / 2` and `roll`, `yaw` in the principal range `(-π, π]`, `getEulerAngles`
applied to the transform built by `getTransformation (x, y, z, roll, pitch, yaw)`
recovers `roll`, `pitch` and `yaw`, and `getTranslationAndEulerAngles` also recovers
`x, y, z`. -/
theorem getEulerAngles_getTransformation (ops : ScalarOps ℝ) (hops : RealArith ops)
    (asin : ℝ → ℝ) (hasin : asin = Real.arcsin) (x y z roll pitch yaw : ℝ)
    (hpitch : |pitch| < Real.pi / 2)
    (hroll : -Real.pi < roll ∧ roll ≤ Real.pi) (hyaw : -Real.pi < yaw ∧ yaw ≤ Real.pi) :
    getEulerAngles ops asin (getTransformation ops x y z roll pitch yaw)
      = (roll, pitch, yaw) ∧
    getTranslationAndEulerAngles ops asin (getTransformation ops x y z roll pitch yaw)
      = (x, y, z, roll, pitch, yaw) := by
  obtain ⟨-, hatan, hcos, hsin, -, -, -, -⟩ := hops
  obtain ⟨e20, e21, e22, e10, e00, e03, e13, e23⟩ :=
    getTransformation_entries ops x y z roll pitch yaw
  obtain ⟨hp1, hp2⟩ := abs_lt.mp hpitch
  have hc : 0 < Real.cos pitch := Real.cos_pos_of_mem_Ioo ⟨hp1, hp2⟩
  have hangles : getEulerAngles ops asin (getTransformation ops x y z roll pitch yaw)
      = (roll, pitch, yaw) := by
    unfold getEulerAngles
    rw [e20, e21, e22, e10, e00, hatan, hatan, hasin, hcos, hsin, neg_neg,
      Real.arcsin_sin hp1.le hp2.le, arg_of_polar _ _ hc hroll.1 hroll.2,
      arg_of_polar _ _ hc hyaw.1 hyaw.2]
  refine ⟨hangles, ?_⟩
  unfold getTranslationAndEulerAngles
  rw [hangles, e03, e13, e23]

/-- Witness for C25: translation `(1, 2, 3)`, roll `1/2`, pitch `1/3`, yaw `-1/4` in
single precision with the real arcsine. -/
theorem getEulerAngles_getTransformation_witness :
    RealArith ⟨Real.sqrt, fun y x => Complex.arg ⟨x, y⟩, Real.cos, Real.sin,
      1 / 2 ^ 23, 1 / 2 ^ 126⟩ ∧
    |(1 / 3 : ℝ)| < Real.pi / 2 ∧
    (-Real.pi < (1 / 2 : ℝ) ∧ (1 / 2 : ℝ) ≤ Real.pi) ∧
    (-Real.pi < (-1 / 4 : ℝ) ∧ (-1 / 4 : ℝ) ≤ Real.pi) ∧
    getEulerAngles ⟨Real.sqrt, fun y x => Complex.arg ⟨x, y⟩, Real.cos, Real.sin,
        1 / 2 ^ 23, 1 / 2 ^ 126⟩ Real.arcsin
      (getTransformation ⟨Real.sqrt, fun y x => Complex.arg ⟨x, y⟩, Real.cos, Real.sin,
        1 / 2 ^ 23, 1 / 2 ^ 126⟩ 1 2 3 (1 / 2) (1 / 3) (-1 / 4))
      = (1 / 2, 1 / 3, -1 / 4) ∧
    getTranslationAndEulerAngles ⟨Real.sqrt, fun y x => Complex.arg ⟨x, y⟩, Real.cos,
        Real.sin, 1 / 2 ^ 23, 1 / 2 ^ 126⟩ Real.arcsin
      (getTransformation ⟨Real.sqrt, fun y x => Complex.arg ⟨x, y⟩, Real.cos, Real.sin,
        1 / 2 ^ 23, 1 / 2 ^ 126⟩ 1 2 3 (1 / 2) (1 / 3) (-1 / 4))
      = (1, 2, 3, 1 / 2, 1 / 3, -1 / 4) :=
  have hpi := Real.pi_gt_three
  have hpitch : |(1 / 3 : ℝ)| < Real.pi / 2 := by
    rw [abs_of_pos (by norm_num)]; linarith
  have hroll : -Real.pi < (1 / 2 : ℝ) ∧ (1 / 2 : ℝ) ≤ Real.pi := ⟨by linarith, by linarith⟩
  have hyaw : -Real.pi < (-1 / 4 : ℝ) ∧ (-1 / 4 : ℝ) ≤ Real.pi := ⟨by linarith, by linarith⟩
  ⟨realArith_single, hpitch, hroll, hyaw,
    getEulerAngles_getTransformation _ realArith_single Real.arcsin rfl 1 2 3 (1 / 2) (1 / 3)
      (-1 / 4) hpitch hroll hyaw⟩

end EulerProofs

/-! ## Alignment of two point sets -/

section PolarProofs

end PolarProofs

section SimilarityProofs

variable {d n : Nat}

end SimilarityProofs

section UmeyamaProofs

variable {d n : Nat}

end UmeyamaProofs

section UmeyamaWitness

theorem centroid_tetra_image : centroid (!![-1, 3, -1, 3; 4, 4, 0, 0; 5, 1, 1, 5] : Matrix (Fin 3) (Fin 4) ℝ) = ![1, 2, 3] := by
  funext i
  fin_cases i <;> simp [centroid, Fin.sum_univ_four] <;> norm_num

end UmeyamaWitness

/-! ## Coefficients of the characteristic polynomial -/

section CoefficientProofs

variable {K : Type} [LinearOrderedField K]

theorem charpoly_of_isSymm (M : Matrix (Fin 3) (Fin 3) K) (hM : M.IsSymm) (x : K) :
    (x • (1 : Matrix (Fin 3) (Fin 3) K) - M).det
      = x ^ 3 - charC2 M * x ^ 2 + charC1 M * x - charC0 M := by
  have h10 : M 1 0 = M 0 1 := hM.apply 0 1
  have h20 : M 2 0 = M 0 2 := hM.apply 0 2
  have h21 : M 2 1 = M 1 2 := hM.apply 1 2
  rw [Matrix.det_fin_three]
  simp [charC0, charC1, charC2, h10, h20, h21]
  ring

theorem charC1_minors (M : Matrix (Fin 3) (Fin 3) K) (hM : M.IsSymm) :
    charC1 M = (M.submatrix ![0, 1] ![0, 1]).det + (M.submatrix ![0, 2] ![0, 2]).det
      + (M.submatrix ![1, 2] ![1, 2]).det := by
  have h10 : M 1 0 = M 0 1 := hM.apply 0 1
  have h20 : M 2 0 = M 0 2 := hM.apply 0 2
  have h21 : M 2 1 = M 1 2 := hM.apply 1 2
  simp [Matrix.det_fin_two, charC1, h10, h20, h21]
  ring

theorem charC0_det_of_isSymm (M : Matrix (Fin 3) (Fin 3) K) (hM : M.IsSymm) :
    charC0 M = M.det := by
  have h10 : M 1 0 = M 0 1 := hM.apply 0 1
  have h20 : M 2 0 = M 0 2 := hM.apply 0 2
  have h21 : M 2 1 = M 1 2 := hM.apply 1 2
  rw [Matrix.det_fin_three, charC0, h10, h20, h21]
  ring

/-- C31: for every symmetric 3x3 matrix `M` the coefficients `c0`, `c1`, `c2` that
`computeRoots` computes from the entries of the upper triangle satisfy
`det (x I - M) = x^3 - c2 x^2 + c1 x - c0` for all `x`; `c2` is the trace, `c1` the sum of
the three principal 2x2 minors and `c0` the determinant of `M`. -/
theorem computeRoots_coefficients (M : Matrix (Fin 3) (Fin 3) K) (hM : M.IsSymm) :
    (∀ x : K, (x • (1 : Matrix (Fin 3) (Fin 3) K) - M).det
      = x ^ 3 - charC2 M * x ^ 2 + charC1 M * x - charC0 M) ∧
    charC2 M = M.trace ∧
    charC1 M = (M.submatrix ![0, 1] ![0, 1]).det + (M.submatrix ![0, 2] ![0, 2]).det
      + (M.submatrix ![1, 2] ![1, 2]).det ∧
    charC0 M = M.det :=
  ⟨charpoly_of_isSymm M hM, (Matrix.trace_fin_three M).symm, charC1_minors M hM,
    charC0_det_of_isSymm M hM⟩

/-- Witness for C31: a symmetric rational matrix. -/
theorem computeRoots_coefficients_witness :
    (!![2, 1, 0; 1, 3, 1; 0, 1, 4] : Matrix (Fin 3) (Fin 3) ℚ).IsSymm ∧
    (∀ x : ℚ, (x • (1 : Matrix (Fin 3) (Fin 3) ℚ) - !![2, 1, 0; 1, 3, 1; 0, 1, 4]).det
      = x ^ 3 - charC2 (!![2, 1, 0; 1, 3, 1; 0, 1, 4] : Matrix (Fin 3) (Fin 3) ℚ) * x ^ 2
        + charC1 (!![2, 1, 0; 1, 3, 1; 0, 1, 4] : Matrix (Fin 3) (Fin 3) ℚ) * x
        - charC0 (!![2, 1, 0; 1, 3, 1; 0, 1, 4] : Matrix (Fin 3) (Fin 3) ℚ)) ∧
    charC2 (!![2, 1, 0; 1, 3, 1; 0, 1, 4] : Matrix (Fin 3) (Fin 3) ℚ)
      = (!![2, 1, 0; 1, 3, 1; 0, 1, 4] : Matrix (Fin 3) (Fin 3) ℚ).trace ∧
    charC1 (!![2, 1, 0; 1, 3, 1; 0, 1, 4] : Matrix (Fin 3) (Fin 3) ℚ)
      = ((!![2, 1, 0; 1, 3, 1; 0, 1, 4] : Matrix (Fin 3) (Fin 3) ℚ).submatrix
          ![0, 1] ![0, 1]).det
        + ((!![2, 1, 0; 1, 3, 1; 0, 1, 4] : Matrix (Fin 3) (Fin 3) ℚ).submatrix
          ![0, 2] ![0, 2]).det
        + ((!![2, 1, 0; 1, 3, 1; 0, 1, 4] : Matrix (Fin 3) (Fin 3) ℚ).submatrix
          ![1, 2] ![1, 2]).det ∧
    charC0 (!![2, 1, 0; 1, 3, 1; 0, 1, 4] : Matrix (Fin 3) (Fin 3) ℚ)
      = (!![2, 1, 0; 1, 3, 1; 0, 1, 4] : Matrix (Fin 3) (Fin 3) ℚ).det :=
  have hs : (!![2, 1, 0; 1, 3, 1; 0, 1, 4] : Matrix (Fin 3) (Fin 3) ℚ).IsSymm := by
    apply Matrix.IsSymm.ext
    intro i j
    fin_cases i <;> fin_cases j <;> rfl
  ⟨hs, computeRoots_coefficients _ hs⟩

end CoefficientProofs

/-! ## Quadratic solver: sum and product of the roots -/

section VietaProofs

/-- C32: for all real `b`, `c` with `b^2 - 4c ≥ 0` the values written by
`computeRoots2 (b, c, roots)` satisfy `roots (1) ≤ roots (2)`,
`roots (1) + roots (2) = b` and `roots (1) * roots (2) = c`: they are the two roots of
`x^2 - b x + c`. -/
theorem computeRoots2_vieta (ops : ScalarOps ℝ) (hops : RealArith ops) (b c : ℝ)
    (hd : 0 ≤ b ^ 2 - 4 * c) :
    computeRoots2 ops b c 1 ≤ computeRoots2 ops b c 2 ∧
    computeRoots2 ops b c 1 + computeRoots2 ops b c 2 = b ∧
    computeRoots2 ops b c 1 * computeRoots2 ops b c 2 = c ∧
    ∀ x : ℝ, x ^ 2 - b * x + c
      = (x - computeRoots2 ops b c 1) * (x - computeRoots2 ops b c 2) := by
  rw [computeRoots2_of_discr ops hops b c hd]
  have hs := Real.sq_sqrt hd
  have h0 := Real.sqrt_nonneg (b ^ 2 - 4 * c)
  simp only [Matrix.cons_val_one, Matrix.cons_val_two, Matrix.head_cons, Matrix.tail_cons]
  refine ⟨by linarith, by ring, by linear_combination (-1 / 4) * hs, fun x => ?_⟩
  linear_combination (1 / 4) * hs

/-- Witness for C32: `b = 5`, `c = 6` in single precision (roots 2 and 3). -/
theorem computeRoots2_vieta_witness :
    RealArith ⟨Real.sqrt, fun y x => Complex.arg ⟨x, y⟩, Real.cos, Real.sin,
      1 / 2 ^ 23, 1 / 2 ^ 126⟩ ∧ (0 : ℝ) ≤ 5 ^ 2 - 4 * 6 ∧
    computeRoots2 ⟨Real.sqrt, fun y x => Complex.arg ⟨x, y⟩, Real.cos, Real.sin,
        1 / 2 ^ 23, 1 / 2 ^ 126⟩ 5 6 1
      ≤ computeRoots2 ⟨Real.sqrt, fun y x => Complex.arg ⟨x, y⟩, Real.cos, Real.sin,
        1 / 2 ^ 23, 1 / 2 ^ 126⟩ 5 6 2 ∧
    computeRoots2 ⟨Real.sqrt, fun y x => Complex.arg ⟨x, y⟩, Real.cos, Real.sin,
        1 / 2 ^ 23, 1 / 2 ^ 126⟩ 5 6 1
      + computeRoots2 ⟨Real.sqrt, fun y x => Complex.arg ⟨x, y⟩, Real.cos, Real.sin,
        1 / 2 ^ 23, 1 / 2 ^ 126⟩ 5 6 2 = 5 ∧
    computeRoots2 ⟨Real.sqrt, fun y x => Complex.arg ⟨x, y⟩, Real.cos, Real.sin,
        1 / 2 ^ 23, 1 / 2 ^ 126⟩ 5 6 1
      * computeRoots2 ⟨Real.sqrt, fun y x => Complex.arg ⟨x, y⟩, Real.cos, Real.sin,
        1 / 2 ^ 23, 1 / 2 ^ 126⟩ 5 6 2 = 6 ∧
    ∀ x : ℝ, x ^ 2 - 5 * x + 6
      = (x - computeRoots2 ⟨Real.sqrt, fun y x => Complex.arg ⟨x, y⟩, Real.cos, Real.sin,
          1 / 2 ^ 23, 1 / 2 ^ 126⟩ 5 6 1)
        * (x - computeRoots2 ⟨Real.sqrt, fun y x => Complex.arg ⟨x, y⟩, Real.cos, Real.sin,
          1 / 2 ^ 23, 1 / 2 ^ 126⟩ 5 6 2) :=
  ⟨realArith_single, by norm_num,
    computeRoots2_vieta _ realArith_single 5 6 (by norm_num)⟩

end VietaProofs

/-! ## The clamp of `a_over_3` -/

section ClampProofs

variable {K : Type} [LinearOrderedField K]

theorem cubicRoots_aOver3 (ops : ScalarOps K) (c0 c1 c2 : K) :
    cubicRoots ops c0 c1 c2 =
      (let a_over_3 := if aOver3 c1 c2 > 0 then 0 else aOver3 c1 c2
       let half_b := (1 / 2) * (c0 + c2 * (1 / 3) * (2 * (c2 * (1 / 3)) * (c2 * (1 / 3)) - c1))
       let q := half_b * half_b + a_over_3 * a_over_3 * a_over_3
       let q := if q > 0 then 0 else q
       let rho := ops.sqrt (-a_over_3)
       let theta := ops.atan2 (ops.sqrt (-q)) half_b * (1 / 3)
       (c2 * (1 / 3) + 2 * rho * ops.cos theta,
        c2 * (1 / 3) - rho * (ops.cos theta + ops.sqrt 3 * ops.sin theta),
        c2 * (1 / 3) - rho * (ops.cos theta - ops.sqrt 3 * ops.sin theta))) :=
  rfl

theorem aOver3_char (M : Matrix (Fin 3) (Fin 3) K) :
    aOver3 (charC1 M) (charC2 M)
      = -(((M 0 0 - M 1 1) ^ 2 + (M 0 0 - M 2 2) ^ 2 + (M 1 1 - M 2 2) ^ 2) / 18
          + (M 0 1 ^ 2 + M 0 2 ^ 2 + M 1 2 ^ 2) / 3) := by
  unfold aOver3 charC1 charC2
  ring

/-- C33: for every 3x3 matrix (the code reads the upper triangle only, so also for every
symmetric one) the value `a_over_3 = (c1 - c2^2 / 3) / 3` computed by `computeRoots` is
`≤ 0` before the clamp: the clamp `if (a_over_3 > 0) a_over_3 = 0` leaves it unchanged and
the argument `-a_over_3` of the square root that defines `rho` is not negative. -/
theorem aOver3_nonpos (M : Matrix (Fin 3) (Fin 3) K) :
    aOver3 (charC1 M) (charC2 M) = (charC1 M - charC2 M ^ 2 / 3) / 3 ∧
    aOver3 (charC1 M) (charC2 M) ≤ 0 ∧
    (if aOver3 (charC1 M) (charC2 M) > 0 then 0 else aOver3 (charC1 M) (charC2 M))
      = aOver3 (charC1 M) (charC2 M) ∧
    0 ≤ -aOver3 (charC1 M) (charC2 M) := by
  have hle : aOver3 (charC1 M) (charC2 M) ≤ 0 := by
    rw [aOver3_char]
    have := sq_nonneg (M 0 0 - M 1 1)
    have := sq_nonneg (M 0 0 - M 2 2)
    have := sq_nonneg (M 1 1 - M 2 2)
    have := sq_nonneg (M 0 1)
    have := sq_nonneg (M 0 2)
    have := sq_nonneg (M 1 2)
    have h18 : (0 : K) < 18 := by norm_num
    have h3 : (0 : K) < 3 := by norm_num
    have h1 : 0 ≤ ((M 0 0 - M 1 1) ^ 2 + (M 0 0 - M 2 2) ^ 2 + (M 1 1 - M 2 2) ^ 2) / 18 :=
      div_nonneg (by linarith) h18.le
    have h2 : 0 ≤ (M 0 1 ^ 2 + M 0 2 ^ 2 + M 1 2 ^ 2) / 3 := div_nonneg (by linarith) h3.le
    linarith
  refine ⟨?_, hle, if_neg (not_lt.mpr hle), by linarith⟩
  unfold aOver3
  ring

end ClampProofs

/-! ## The scale of the 3x3 routines -/

section ScaleProofs

variable {K : Type} [LinearOrderedField K]

end ScaleProofs

section ScaleWitness

end ScaleWitness

/-! ## Agreement of the three `eigen33` overloads -/

section OverloadProofs

variable {K : Type} [LinearOrderedField K]

/-- C35: the three `eigen33` overloads agree on every 3x3 matrix.  The eigenvalue-only
overload and the full decomposition write the same `evals = scale * computeRoots (mat /
scale)`; the smallest-eigenpair overload returns `evals (0)` and the eigenvector that
`computeCorrespondingEigenVector (mat, eigenvalue, .)` returns for that eigenvalue (the
scale is positive because `numeric_limits<Scalar>::min ()` is). -/
theorem eigen33_overloads_agree (ops : ScalarOps K) (hmin : 0 < ops.numericMin)
    (unitOrthogonal : (Fin 3 → K) → (Fin 3 → K)) (mat : Matrix (Fin 3) (Fin 3) K) :
    (eigen33 ops unitOrthogonal mat).2 = eigen33Values ops mat ∧
    (∀ i : Fin 3, eigen33Values ops mat i
      = eigenScale ops mat * computeRoots ops (divScalar mat (eigenScale ops mat)) i) ∧
    (eigen33Smallest ops mat).1 = eigen33Values ops mat 0 ∧
    (eigen33Smallest ops mat).2
      = computeCorrespondingEigenVector ops mat (eigen33Smallest ops mat).1 := by
  refine ⟨rfl, fun i => mul_comm _ _, rfl, ?_⟩
  have hs : eigenScale ops mat ≠ 0 := (eigenScale_pos ops hmin mat).ne'
  show (selectCross ops (subDiagonal (divScalar mat (eigenScale ops mat))
        (computeRoots ops (divScalar mat (eigenScale ops mat)) 0))).1
      = (selectCross ops (subDiagonal (divScalar mat (eigenScale ops mat))
        (computeRoots ops (divScalar mat (eigenScale ops mat)) 0 * eigenScale ops mat
          / eigenScale ops mat))).1
  rw [mul_div_assoc, div_self hs, mul_one]

/-- Witness for C35: `diag (1, 2, 3)` in single precision, with the `unitOrthogonal` of
Eigen. -/
theorem eigen33_overloads_agree_witness :
    (0 : ℝ) < 1 / 2 ^ 126 ∧
    ((eigen33 ⟨Real.sqrt, fun y x => Complex.arg ⟨x, y⟩, Real.cos, Real.sin, 1 / 2 ^ 23,
          1 / 2 ^ 126⟩
        (eigenUnitOrthogonal ⟨Real.sqrt, fun y x => Complex.arg ⟨x, y⟩, Real.cos, Real.sin,
          1 / 2 ^ 23, 1 / 2 ^ 126⟩ (1 / 10 ^ 5))
        (Matrix.diagonal ![1, 2, 3] : Matrix (Fin 3) (Fin 3) ℝ)).2
      = eigen33Values ⟨Real.sqrt, fun y x => Complex.arg ⟨x, y⟩, Real.cos, Real.sin,
          1 / 2 ^ 23, 1 / 2 ^ 126⟩ (Matrix.diagonal ![1, 2, 3] : Matrix (Fin 3) (Fin 3) ℝ) ∧
    (∀ i : Fin 3,
      eigen33Values ⟨Real.sqrt, fun y x => Complex.arg ⟨x, y⟩, Real.cos, Real.sin,
          1 / 2 ^ 23, 1 / 2 ^ 126⟩ (Matrix.diagonal ![1, 2, 3] : Matrix (Fin 3) (Fin 3) ℝ) i
      = eigenScale ⟨Real.sqrt, fun y x => Complex.arg ⟨x, y⟩, Real.cos, Real.sin,
          1 / 2 ^ 23, 1 / 2 ^ 126⟩ (Matrix.diagonal ![1, 2, 3] : Matrix (Fin 3) (Fin 3) ℝ)
        * computeRoots ⟨Real.sqrt, fun y x => Complex.arg ⟨x, y⟩, Real.cos, Real.sin,
          1 / 2 ^ 23, 1 / 2 ^ 126⟩
          (divScalar (Matrix.diagonal ![1, 2, 3] : Matrix (Fin 3) (Fin 3) ℝ)
            (eigenScale ⟨Real.sqrt, fun y x => Complex.arg ⟨x, y⟩, Real.cos, Real.sin,
              1 / 2 ^ 23, 1 / 2 ^ 126⟩
              (Matrix.diagonal ![1, 2, 3] : Matrix (Fin 3) (Fin 3) ℝ))) i) ∧
    (eigen33Smallest ⟨Real.sqrt, fun y x => Complex.arg ⟨x, y⟩, Real.cos, Real.sin,
          1 / 2 ^ 23, 1 / 2 ^ 126⟩ (Matrix.diagonal ![1, 2, 3] : Matrix (Fin 3) (Fin 3) ℝ)).1
      = eigen33Values ⟨Real.sqrt, fun y x => Complex.arg ⟨x, y⟩, Real.cos, Real.sin,
          1 / 2 ^ 23, 1 / 2 ^ 126⟩ (Matrix.diagonal ![1, 2, 3] : Matrix (Fin 3) (Fin 3) ℝ) 0 ∧
    (eigen33Smallest ⟨Real.sqrt, fun y x => Complex.arg ⟨x, y⟩, Real.cos, Real.sin,
          1 / 2 ^ 23, 1 / 2 ^ 126⟩ (Matrix.diagonal ![1, 2, 3] : Matrix (Fin 3) (Fin 3) ℝ)).2
      = computeCorrespondingEigenVector ⟨Real.sqrt, fun y x => Complex.arg ⟨x, y⟩, Real.cos,
          Real.sin, 1 / 2 ^ 23, 1 / 2 ^ 126⟩
          (Matrix.diagonal ![1, 2, 3] : Matrix (Fin 3) (Fin 3) ℝ)
          (eigen33Smallest ⟨Real.sqrt, fun y x => Complex.arg ⟨x, y⟩, Real.cos, Real.sin,
            1 / 2 ^ 23, 1 / 2 ^ 126⟩
            (Matrix.diagonal ![1, 2, 3] : Matrix (Fin 3) (Fin 3) ℝ)).1) :=
  ⟨by positivity,
    eigen33_overloads_agree
      (⟨Real.sqrt, fun y x => Complex.arg ⟨x, y⟩, Real.cos, Real.sin, 1 / 2 ^ 23, 1 / 2 ^ 126⟩ :
        ScalarOps ℝ)
      (by positivity) _ (Matrix.diagonal ![1, 2, 3])⟩

end OverloadProofs

/-! ## Symmetric and general inversion on symmetric inputs -/

section SymGeneralProofs

variable {K : Type}

theorem coeff3_symm (o : StorageOrder) (M : Matrix (Fin 3) (Fin 3) K) (hM : M.IsSymm) :
    coeff3 o M 3 = coeff3 o M 1 ∧ coeff3 o M 6 = coeff3 o M 2 ∧
    coeff3 o M 7 = coeff3 o M 5 := by
  have h10 : M 1 0 = M 0 1 := hM.apply 0 1
  have h20 : M 2 0 = M 0 2 := hM.apply 0 2
  have h21 : M 2 1 = M 1 2 := hM.apply 1 2
  cases o
  · exact ⟨h10.symm, h20.symm, h21.symm⟩
  · exact ⟨h10, h20, h21⟩

variable [Field K] [DecidableEq K]

/-- C36: on every symmetric 3x3 matrix `invert3x3SymMatrix` and `invert3x3Matrix` return
the same determinant and leave the same value in `inverse`, coefficient by coefficient
(the same nine quotients when the determinant is non-zero, the untouched old value
otherwise), in either storage order. -/
theorem invert3x3SymMatrix_eq_general (o : StorageOrder)
    (M inverse : Matrix (Fin 3) (Fin 3) K) (hM : M.IsSymm) :
    (invert3x3SymMatrix o M inverse).1 = (invert3x3Matrix o M inverse).1 ∧
    (invert3x3SymMatrix o M inverse).2 = (invert3x3Matrix o M inverse).2 := by
  obtain ⟨h3, h6, h7⟩ := coeff3_symm o M hM
  have e : invert3x3SymMatrix o M inverse = invert3x3Matrix o M inverse := by
    unfold invert3x3SymMatrix invert3x3Matrix
    simp only [h3, h6, h7]
    simp only [mul_comm (coeff3 o M 8) (coeff3 o M 4), mul_comm (coeff3 o M 5) (coeff3 o M 2),
      mul_comm (coeff3 o M 8) (coeff3 o M 1), mul_comm (coeff3 o M 5) (coeff3 o M 1),
      mul_comm (coeff3 o M 4) (coeff3 o M 2), mul_comm (coeff3 o M 8) (coeff3 o M 0),
      mul_comm (coeff3 o M 5) (coeff3 o M 0), mul_comm (coeff3 o M 2) (coeff3 o M 1),
      mul_comm (coeff3 o M 4) (coeff3 o M 0)]
  rw [e]
  exact ⟨rfl, rfl⟩

/-- Witness for C36: a symmetric rational matrix of determinant 8, column-major. -/
theorem invert3x3SymMatrix_eq_general_witness :
    (!![2, 1, 0; 1, 3, 1; 0, 1, 2] : Matrix (Fin 3) (Fin 3) ℚ).IsSymm ∧
    (invert3x3SymMatrix .colMajor (!![2, 1, 0; 1, 3, 1; 0, 1, 2] : Matrix (Fin 3) (Fin 3) ℚ)
        0).1
      = (invert3x3Matrix .colMajor (!![2, 1, 0; 1, 3, 1; 0, 1, 2] : Matrix (Fin 3) (Fin 3) ℚ)
        0).1 ∧
    (invert3x3SymMatrix .colMajor (!![2, 1, 0; 1, 3, 1; 0, 1, 2] : Matrix (Fin 3) (Fin 3) ℚ)
        0).2
      = (invert3x3Matrix .colMajor (!![2, 1, 0; 1, 3, 1; 0, 1, 2] : Matrix (Fin 3) (Fin 3) ℚ)
        0).2 :=
  have hs : (!![2, 1, 0; 1, 3, 1; 0, 1, 2] : Matrix (Fin 3) (Fin 3) ℚ).IsSymm := by
    apply Matrix.IsSymm.ext
    intro i j
    fin_cases i <;> fin_cases j <;> rfl
  ⟨hs, invert3x3SymMatrix_eq_general .colMajor _ 0 hs⟩

end SymGeneralProofs

/-! ## Positive homogeneity of the full decomposition -/

section HomogeneityProofs

variable {K : Type} [LinearOrderedField K]

theorem maxAbsCoeff_smul (k : K) (hk : 0 ≤ k) (M : Matrix (Fin 3) (Fin 3) K) :
    maxAbsCoeff (k • M) = k * maxAbsCoeff M := by
  unfold maxAbsCoeff
  simp only [Matrix.smul_apply, smul_eq_mul, abs_mul, abs_of_nonneg hk,
    mul_max_of_nonneg _ _ hk]

theorem divScalar_smul (k : K) (hk : k ≠ 0) (M : Matrix (Fin 3) (Fin 3) K) (s : K) :
    divScalar (k • M) (k * s) = divScalar M s := by
  ext i j
  show k * M i j / (k * s) = M i j / s
  exact mul_div_mul_left _ _ hk

theorem eigenScale_smul (ops : ScalarOps K) (k : K) (hk : 0 < k)
    (M : Matrix (Fin 3) (Fin 3) K) (h1 : ops.numericMin < maxAbsCoeff M)
    (h2 : ops.numericMin < k * maxAbsCoeff M) :
    eigenScale ops (k • M) = k * eigenScale ops M := by
  unfold eigenScale
  dsimp only
  rw [maxAbsCoeff_smul k hk.le, if_neg (not_le.mpr h1), if_neg (not_le.mpr h2)]

/-- C37: positive homogeneity.  For every 3x3 matrix `M` and every `k > 0` such that
both `max |M_ij|` and `k * max |M_ij|` exceed `numeric_limits<Scalar>::min ()`,
`eigen33 (k * M, evecs, evals)` returns the same eigenvector matrix as
`eigen33 (M, evecs, evals)` and `k` times its eigenvalues: both calls work on the same
scaled matrix. -/
theorem eigen33_positive_homogeneity (ops : ScalarOps K) (unitOrthogonal : (Fin 3 → K) → (Fin 3 → K))
    (M : Matrix (Fin 3) (Fin 3) K) (k : K) (hk : 0 < k)
    (h1 : ops.numericMin < maxAbsCoeff M) (h2 : ops.numericMin < k * maxAbsCoeff M) :
    divScalar (k • M) (eigenScale ops (k • M)) = divScalar M (eigenScale ops M) ∧
    (eigen33 ops unitOrthogonal (k • M)).1 = (eigen33 ops unitOrthogonal M).1 ∧
    ∀ i : Fin 3, (eigen33 ops unitOrthogonal (k • M)).2 i
      = k * (eigen33 ops unitOrthogonal M).2 i := by
  have hs := eigenScale_smul ops k hk M h1 h2
  have hd : divScalar (k • M) (eigenScale ops (k • M)) = divScalar M (eigenScale ops M) := by
    rw [hs, divScalar_smul k hk.ne']
  refine ⟨hd, ?_, fun i => ?_⟩
  · unfold eigen33
    simp only [hd]
  · show computeRoots ops (divScalar (k • M) (eigenScale ops (k • M))) i
        * eigenScale ops (k • M)
      = k * (computeRoots ops (divScalar M (eigenScale ops M)) i * eigenScale ops M)
    rw [hd, hs]
    ring

/-- Witness for C37: `diag (1, 2, 3)` and `k = 2` in single precision, with the
`unitOrthogonal` of Eigen. -/
theorem eigen33_positive_homogeneity_witness :
    (0 : ℝ) < 2 ∧
    (1 / 2 ^ 126 : ℝ) < maxAbsCoeff (Matrix.diagonal ![1, 2, 3] : Matrix (Fin 3) (Fin 3) ℝ) ∧
    (1 / 2 ^ 126 : ℝ)
      < 2 * maxAbsCoeff (Matrix.diagonal ![1, 2, 3] : Matrix (Fin 3) (Fin 3) ℝ) ∧
    (divScalar ((2 : ℝ) • (Matrix.diagonal ![1, 2, 3] : Matrix (Fin 3) (Fin 3) ℝ))
        (eigenScale ⟨Real.sqrt, fun y x => Complex.arg ⟨x, y⟩, Real.cos, Real.sin,
          1 / 2 ^ 23, 1 / 2 ^ 126⟩
          ((2 : ℝ) • (Matrix.diagonal ![1, 2, 3] : Matrix (Fin 3) (Fin 3) ℝ)))
      = divScalar (Matrix.diagonal ![1, 2, 3] : Matrix (Fin 3) (Fin 3) ℝ)
        (eigenScale ⟨Real.sqrt, fun y x => Complex.arg ⟨x, y⟩, Real.cos, Real.sin,
          1 / 2 ^ 23, 1 / 2 ^ 126⟩
          (Matrix.diagonal ![1, 2, 3] : Matrix (Fin 3) (Fin 3) ℝ)) ∧
    (eigen33 ⟨Real.sqrt, fun y x => Complex.arg ⟨x, y⟩, Real.cos, Real.sin, 1 / 2 ^ 23,
          1 / 2 ^ 126⟩
        (eigenUnitOrthogonal ⟨Real.sqrt, fun y x => Complex.arg ⟨x, y⟩, Real.cos, Real.sin,
          1 / 2 ^ 23, 1 / 2 ^ 126⟩ (1 / 10 ^ 5))
        ((2 : ℝ) • (Matrix.diagonal ![1, 2, 3] : Matrix (Fin 3) (Fin 3) ℝ))).1
      = (eigen33 ⟨Real.sqrt, fun y x => Complex.arg ⟨x, y⟩, Real.cos, Real.sin, 1 / 2 ^ 23,
          1 / 2 ^ 126⟩
        (eigenUnitOrthogonal ⟨Real.sqrt, fun y x => Complex.arg ⟨x, y⟩, Real.cos, Real.sin,
          1 / 2 ^ 23, 1 / 2 ^ 126⟩ (1 / 10 ^ 5))
        (Matrix.diagonal ![1, 2, 3] : Matrix (Fin 3) (Fin 3) ℝ)).1 ∧
    ∀ i : Fin 3,
      (eigen33 ⟨Real.sqrt, fun y x => Complex.arg ⟨x, y⟩, Real.cos, Real.sin, 1 / 2 ^ 23,
          1 / 2 ^ 126⟩
        (eigenUnitOrthogonal ⟨Real.sqrt, fun y x => Complex.arg ⟨x, y⟩, Real.cos, Real.sin,
          1 / 2 ^ 23, 1 / 2 ^ 126⟩ (1 / 10 ^ 5))
        ((2 : ℝ) • (Matrix.diagonal ![1, 2, 3] : Matrix (Fin 3) (Fin 3) ℝ))).2 i
      = 2 * (eigen33 ⟨Real.sqrt, fun y x => Complex.arg ⟨x, y⟩, Real.cos, Real.sin,
          1 / 2 ^ 23, 1 / 2 ^ 126⟩
        (eigenUnitOrthogonal ⟨Real.sqrt, fun y x => Complex.arg ⟨x, y⟩, Real.cos, Real.sin,
          1 / 2 ^ 23, 1 / 2 ^ 126⟩ (1 / 10 ^ 5))
        (Matrix.diagonal ![1, 2, 3] : Matrix (Fin 3) (Fin 3) ℝ)).2 i) :=
  have h1 : (1 / 2 ^ 126 : ℝ)
      < maxAbsCoeff (Matrix.diagonal ![1, 2, 3] : Matrix (Fin 3) (Fin 3) ℝ) := by
    rw [maxAbsCoeff_diag123]
    norm_num
  have h2 : (1 / 2 ^ 126 : ℝ)
      < 2 * maxAbsCoeff (Matrix.diagonal ![1, 2, 3] : Matrix (Fin 3) (Fin 3) ℝ) := by
    rw [maxAbsCoeff_diag123]
    norm_num
  ⟨by norm_num, h1, h2,
    eigen33_positive_homogeneity
      (⟨Real.sqrt, fun y x => Complex.arg ⟨x, y⟩, Real.cos, Real.sin, 1 / 2 ^ 23, 1 / 2 ^ 126⟩ :
        ScalarOps ℝ) _ (Matrix.diagonal ![1, 2, 3]) 2 (by norm_num) h1 h2⟩

end HomogeneityProofs

/-! ## Compaction of the valid clusters -/

section CompactionProofs

theorem take_succ_set {α : Type} (L : List α) (v : Nat) (x : α) (hv : v < L.length) :
    (L.set v x).take (v + 1) = L.take v ++ [x] := by
  rw [List.set_eq_take_append_cons_drop, if_pos hv]
  have hl : (L.take v ++ [x]).length = v + 1 := by
    simp [List.length_take, Nat.min_eq_left hv.le]
  have e : L.take v ++ x :: L.drop (v + 1) = (L.take v ++ [x]) ++ L.drop (v + 1) := by simp
  rw [e, List.take_left' hl]

theorem kept_take_succ {α : Type} (flags : List Bool) (v0 : List α) (i : Nat) (x : α)
    (b : Bool) (hx : v0[i]? = some x) (hb : flags[i]? = some b) :
    (((v0.zip flags).take (i + 1)).filter (fun p => p.2)).map (fun p => p.1)
      = (((v0.zip flags).take i).filter (fun p => p.2)).map (fun p => p.1)
        ++ (if b then [x] else []) := by
  have hz : (v0.zip flags)[i]? = some (x, b) := List.getElem?_zip_eq_some.mpr ⟨hx, hb⟩
  rw [List.take_succ, hz]
  cases b <;> simp [List.filter_append]

theorem getElem?_of_drop_eq {α : Type} (v v0 : List α) (i : Nat)
    (h : v.drop i = v0.drop i) : v[i]? = v0[i]? := by
  have h1 := List.getElem?_drop v i 0
  have h2 := List.getElem?_drop v0 i 0
  rw [Nat.add_zero] at h1 h2
  rw [← h1, ← h2, h]

theorem drop_succ_of_drop_eq {α : Type} (v v0 : List α) (i : Nat)
    (h : v.drop i = v0.drop i) : v.drop (i + 1) = v0.drop (i + 1) := by
  rw [← List.drop_drop 1 i v, ← List.drop_drop 1 i v0, h]

theorem compactedUpTo_skip {α : Type} (flags : List Bool) (v0 v : List α) (i valid : Nat)
    (h : CompactedUpTo flags v0 v i valid) (hi : i < v0.length)
    (hb : flags[i]? = some false) : CompactedUpTo flags v0 v (i + 1) valid := by
  obtain ⟨hlen, htake, hdrop⟩ := h
  refine ⟨hlen, ?_, drop_succ_of_drop_eq v v0 i hdrop⟩
  rw [kept_take_succ flags v0 i (v0[i]) false (List.getElem?_eq_getElem hi) hb, htake]
  simp

theorem compactedUpTo_assign {α : Type} (flags : List Bool) (v0 v : List α) (i valid : Nat)
    (h : CompactedUpTo flags v0 v i valid) (hi : i < v0.length) (hv : valid ≤ i)
    (hb : flags[i]? = some true) :
    ∃ w, assignAt v valid i = some w ∧ CompactedUpTo flags v0 w (i + 1) (valid + 1) := by
  obtain ⟨hlen, htake, hdrop⟩ := h
  have hvl : valid < v.length := by omega
  have hx : v[i]? = some (v0[i]) := by
    rw [getElem?_of_drop_eq v v0 i hdrop]
    exact List.getElem?_eq_getElem hi
  refine ⟨v.set valid (v0[i]), ?_, ?_, ?_, ?_⟩
  · unfold assignAt
    rw [if_pos hvl, hx]
    rfl
  · rw [List.length_set, hlen]
  · rw [take_succ_set v valid _ hvl,
      kept_take_succ flags v0 i (v0[i]) true (List.getElem?_eq_getElem hi) hb, htake]
    simp
  · rw [List.drop_set_of_lt _ _ (by omega : valid < i + 1)]
    exact drop_succ_of_drop_eq v v0 i hdrop

theorem compactLoop_prefix {T C S : Type} (ts : List T) (cs : List C) (flags : List Bool)
    (ps : List S) (ht : ts.length = flags.length) (hc : cs.length = flags.length)
    (hp : ps.length = flags.length) (i : Nat) (hi : i ≤ flags.length) :
    ∃ s : CompactState T C S,
      (List.range i).foldlM compactStep ⟨ts, cs, flags, ps, 0⟩ = some s ∧ s.valid ≤ i ∧
      CompactedUpTo flags ts s.transforms_in i s.valid ∧
      CompactedUpTo flags cs s.centroids_in i s.valid ∧
      CompactedUpTo flags flags s.valid_roll_transforms_in i s.valid ∧
      CompactedUpTo flags ps s.points i s.valid := by
  induction i with
  | zero =>
    exact ⟨⟨ts, cs, flags, ps, 0⟩, rfl, le_refl 0, ⟨rfl, rfl, rfl⟩, ⟨rfl, rfl, rfl⟩,
      ⟨rfl, rfl, rfl⟩, ⟨rfl, rfl, rfl⟩⟩
  | succ i ih =>
    obtain ⟨s, hs, hv, h1, h2, h3, h4⟩ := ih (by omega)
    have hif : i < flags.length := by omega
    have hfl : s.valid_roll_transforms_in[i]? = flags[i]? :=
      getElem?_of_drop_eq _ _ i h3.2.2
    rw [List.range_succ, List.foldlM_append, hs]
    show ∃ s2, (compactStep s i).bind (fun s1 => some s1) = some s2 ∧ _
    rw [Option.bind_some]
    rcases hb : flags[i] with _ | _
    · have hb2 : flags[i]? = some false := by rw [List.getElem?_eq_getElem hif, hb]
      refine ⟨s, ?_, by omega, compactedUpTo_skip flags ts _ i _ h1 (by omega) hb2,
        compactedUpTo_skip flags cs _ i _ h2 (by omega) hb2,
        compactedUpTo_skip flags flags _ i _ h3 hif hb2,
        compactedUpTo_skip flags ps _ i _ h4 (by omega) hb2⟩
      unfold compactStep
      rw [hfl, hb2]
    · have hb2 : flags[i]? = some true := by rw [List.getElem?_eq_getElem hif, hb]
      obtain ⟨w1, e1, k1⟩ := compactedUpTo_assign flags ts _ i _ h1 (by omega) hv hb2
      obtain ⟨w2, e2, k2⟩ := compactedUpTo_assign flags cs _ i _ h2 (by omega) hv hb2
      obtain ⟨w3, e3, k3⟩ := compactedUpTo_assign flags flags _ i _ h3 hif hv hb2
      obtain ⟨w4, e4, k4⟩ := compactedUpTo_assign flags ps _ i _ h4 (by omega) hv hb2
      refine ⟨⟨w1, w2, w3, w4, s.valid + 1⟩, ?_, by simp only; omega, k1, k2, k3, k4⟩
      unfold compactStep
      rw [hfl, hb2]
      simp only [e1, e2, e3, e4, Option.bind_some, Option.some_bind]

end CompactionProofs

section CompactionClaims

theorem kept_length {α : Type} (flags : List Bool) (v0 : List α)
    (h : v0.length = flags.length) :
    (((v0.zip flags).filter (fun p => p.2)).map (fun p => p.1)).length
      = flags.count true := by
  induction v0 generalizing flags with
  | nil =>
    cases flags with
    | nil => rfl
    | cons b t => simp at h
  | cons a t ih =>
    cases flags with
    | nil => simp at h
    | cons b u =>
      have hl : t.length = u.length := by simpa using h
      have := ih u hl
      cases b <;> simp_all [List.filter_cons, List.count_cons]

theorem kept_flags (flags : List Bool) :
    ∀ b ∈ ((flags.zip flags).filter (fun p => p.2)).map (fun p => p.1), b = true := by
  intro b hb
  obtain ⟨p, hp, rfl⟩ := List.mem_map.mp hb
  obtain ⟨hz, h2⟩ := List.mem_filter.mp hp
  obtain ⟨i, hi, rfl⟩ := List.mem_iff_getElem.mp hz
  simpa using h2

theorem resize_of_compactedUpTo {α : Type} [Inhabited α] (flags : List Bool)
    (v0 v : List α) (valid : Nat) (h0 : v0.length = flags.length)
    (hv : valid ≤ flags.length) (h : CompactedUpTo flags v0 v flags.length valid) :
    resize v valid = ((v0.zip flags).filter (fun p => p.2)).map (fun p => p.1) := by
  obtain ⟨hlen, htake, -⟩ := h
  have hz : (v0.zip flags).take flags.length = v0.zip flags :=
    List.take_of_length_le (by simp [List.length_zip, h0])
  rw [hz] at htake
  unfold resize
  rw [htake, Nat.sub_eq_zero_of_le (by omega : valid ≤ v.length)]
  simp

theorem compactValid_eq {T C S : Type} [Inhabited T] [Inhabited C] [Inhabited S]
    (ts : List T) (cs : List C) (flags : List Bool) (ps : List S)
    (ht : ts.length = flags.length) (hc : cs.length = flags.length)
    (hp : ps.length = flags.length) :
    compactValid ts cs flags ps
      = some (((ts.zip flags).filter (fun p => p.2)).map (fun p => p.1),
              ((cs.zip flags).filter (fun p => p.2)).map (fun p => p.1),
              ((flags.zip flags).filter (fun p => p.2)).map (fun p => p.1),
              ((ps.zip flags).filter (fun p => p.2)).map (fun p => p.1)) := by
  obtain ⟨s, hs, hv, h1, h2, h3, h4⟩ :=
    compactLoop_prefix ts cs flags ps ht hc hp flags.length (le_refl _)
  unfold compactValid compactLoop
  rw [hs, Option.map_some']
  rw [resize_of_compactedUpTo flags ts _ _ ht hv h1,
    resize_of_compactedUpTo flags cs _ _ hc hv h2,
    resize_of_compactedUpTo flags flags _ _ rfl hv h3,
    resize_of_compactedUpTo flags ps _ _ hp hv h4]

/-- C38: the in-place compaction of `OURCVFHEstimator::estimate` is a stable filter.  For
every list of validity flags and equally long lists of transforms, centroids and
signatures, the loop and the four `resize (valid)` calls run without an access outside a
vector and leave in each list exactly the entries whose flag was set, in their original
order; the four lists have the same length, the number of set flags, and every remaining
flag is set. -/
theorem compactValid_stable_filter {T C S : Type} [Inhabited T] [Inhabited C] [Inhabited S]
    (ts : List T) (cs : List C) (flags : List Bool) (ps : List S)
    (ht : ts.length = flags.length) (hc : cs.length = flags.length)
    (hp : ps.length = flags.length) :
    compactValid ts cs flags ps
      = some (((ts.zip flags).filter (fun p => p.2)).map (fun p => p.1),
              ((cs.zip flags).filter (fun p => p.2)).map (fun p => p.1),
              ((flags.zip flags).filter (fun p => p.2)).map (fun p => p.1),
              ((ps.zip flags).filter (fun p => p.2)).map (fun p => p.1)) ∧
    (((ts.zip flags).filter (fun p => p.2)).map (fun p => p.1)).length = flags.count true ∧
    (((cs.zip flags).filter (fun p => p.2)).map (fun p => p.1)).length = flags.count true ∧
    (((flags.zip flags).filter (fun p => p.2)).map (fun p => p.1)).length
      = flags.count true ∧
    (((ps.zip flags).filter (fun p => p.2)).map (fun p => p.1)).length = flags.count true ∧
    ∀ b ∈ ((flags.zip flags).filter (fun p => p.2)).map (fun p => p.1), b = true :=
  ⟨compactValid_eq ts cs flags ps ht hc hp, kept_length flags ts ht, kept_length flags cs hc,
    kept_length flags flags rfl, kept_length flags ps hp, kept_flags flags⟩

/-- Witness for C38: four clusters, the second one not valid. -/
theorem compactValid_stable_filter_witness :
    ([10, 20, 30, 40] : List ℕ).length = [true, false, true, true].length ∧
    ([-1, -2, -3, -4] : List ℤ).length = [true, false, true, true].length ∧
    (['a', 'b', 'c', 'd'] : List Char).length = [true, false, true, true].length ∧
    compactValid ([10, 20, 30, 40] : List ℕ) ([-1, -2, -3, -4] : List ℤ)
        [true, false, true, true] (['a', 'b', 'c', 'd'] : List Char)
      = some ([10, 30, 40], [-1, -3, -4], [true, true, true], ['a', 'c', 'd']) :=
  ⟨rfl, rfl, rfl,
    (compactValid_stable_filter ([10, 20, 30, 40] : List ℕ) ([-1, -2, -3, -4] : List ℤ)
      [true, false, true, true] (['a', 'b', 'c', 'd'] : List Char) rfl rfl rfl).1⟩

end CompactionClaims

end kp
